import Mathlib

/-!
# Canvas-fingerprinting traps (`src/work.js`)

A shallow embedding of the instrumentation script: the stack-trace resolvers
(with the three regular expressions they use), the debounced dispatcher, the
per-target extractors and the wrapper installed by `trapInstanceMethod`.

Modelling conventions.

* JavaScript values are `Val`; numbers are integers (the script only copies
  and compares them), strings are Lean strings (well-formed Unicode).
* Objects are identified by a natural number; a heap maps an object and a
  property name to the object's own data property.  The prototype chain of
  every object is fixed by the environment (the script never changes it).
* A JavaScript exception is the `error` case of `Except Exn _`.
* The script runs in sloppy mode, hence the receiver `this` of a function call
  is always an object, and an assignment that cannot take effect (on a frozen
  or non-extensible object, or over a property that is not writable) is
  ignored silently.  Which objects are frozen or non-extensible is fixed by
  the environment.
* What the host provides at a call (the value of `DATE.now()`, the captured
  stack trace) is an explicit argument `CallCtx` of the call.
-/

namespace Work

/-! ## Values -/

/-- The four methods that are trapped (`methods`, lines 245-296). -/
inductive TrapTarget where
  | getImageData
  | fillText
  | strokeText
  | toDataURL
  deriving DecidableEq, Repr

/-- Identity of a function object: the function `orig` captured by the
installation for a target, the function `wrapped` created by that installation,
or a function that belongs to some other actor on the page. -/
inductive FnRef where
  | orig (t : TrapTarget)
  | wrapped (t : TrapTarget)
  | foreign (k : Nat)
  deriving DecidableEq, Repr

/-- JavaScript values. -/
inductive Val where
  | undefined
  | null
  | bool (b : Bool)
  | num (n : Int)
  | str (s : String)
  | obj (o : Nat)
  | fn (f : FnRef)
  deriving DecidableEq, Repr

/-- Exceptions: the `TypeError` raised by the language itself (reading a
property of `undefined` or `null`, calling a non-function), or a value thrown
by host code. -/
inductive Exn where
  | typeError
  | thrown (v : Val)
  deriving DecidableEq, Repr

deriving instance DecidableEq for Except

/-! ## Regular expressions

A backtracking matcher for the fragment of ECMAScript regular expressions used
by the script: character tests, sequence, alternation, greedy and lazy
repetition, capture groups and the two anchors.  Priorities between
alternatives are those of the language: the first alternative first, a greedy
repetition tries one more iteration first, a lazy one tries the continuation
first. -/

/-- Regular expression syntax. -/
inductive Re where
  | eps
  | cls (p : Char → Bool)
  | seq (a b : Re)
  | alt (a b : Re)
  | star (greedy : Bool) (r : Re)
  | cap (i : Nat) (r : Re)
  | bos
  | eos

/-- Matcher state: number of characters consumed, remaining input, and the
capture groups closed so far (most recent first) as `(group, start, end)`. -/
structure MState where
  pos : Nat
  rest : List Char
  caps : List (Nat × Nat × Nat)
  deriving DecidableEq, Repr

/-- Repetition of `step`.  An iteration that consumes nothing is rejected, as
in the language, so `fuel = remaining length + 1` is never exhausted. -/
def starLoop (step : MState → (MState → Option MState) → Option MState) (greedy : Bool) :
    Nat → MState → (MState → Option MState) → Option MState
  | 0, s, k => k s
  | n + 1, s, k =>
    let more := step s (fun s' => if s'.pos = s.pos then none else starLoop step greedy n s' k)
    if greedy then more.orElse (fun _ => k s) else (k s).orElse (fun _ => more)

/-- Run a pattern at the current position with continuation `k`. -/
def Re.run : Re → MState → (MState → Option MState) → Option MState
  | .eps, s, k => k s
  | .cls p, s, k =>
    match s.rest with
    | c :: cs => if p c then k { s with pos := s.pos + 1, rest := cs } else none
    | [] => none
  | .seq a b, s, k => a.run s (fun s' => b.run s' k)
  | .alt a b, s, k => (a.run s k).orElse (fun _ => b.run s k)
  | .star g r, s, k => starLoop (fun s' k' => r.run s' k') g (s.rest.length + 1) s k
  | .cap i r, s, k => r.run s (fun s' => k { s' with caps := (i, s.pos, s'.pos) :: s'.caps })
  | .bos, s, k => if s.pos = 0 then k s else none
  | .eos, s, k => if s.rest.isEmpty then k s else none

/-- Try the pattern at every start position, leftmost first (`RegExp.prototype.exec`
for a pattern without the global flag). -/
def execFrom (re : Re) : Nat → List Char → Option MState
  | pos, [] => re.run ⟨pos, [], []⟩ some
  | pos, c :: cs => (re.run ⟨pos, c :: cs, []⟩ some).orElse (fun _ => execFrom re (pos + 1) cs)

/-- The result of a successful match: the input and the capture groups;
group 0 is the whole match. -/
structure Match where
  input : List Char
  caps : List (Nat × Nat × Nat)
  deriving DecidableEq, Repr

/-- Start and end of group `i`, when the group took part in the match. -/
def Match.span (m : Match) (i : Nat) : Option (Nat × Nat) :=
  (m.caps.find? (fun c => c.1 == i)).map (fun c => c.2)

/-- Text of group `i` (`m[i]`), `none` for `undefined`. -/
def Match.group (m : Match) (i : Nat) : Option String :=
  (m.span i).map (fun se => String.mk ((m.input.drop se.1).take (se.2 - se.1)))

/-- The method `String.prototype.match` for a pattern without the global flag:
`none` is `null`. -/
def jsMatch (re : Re) (s : String) : Option Match :=
  (execFrom (.cap 0 re) 0 s.data).map (fun st => ⟨s.data, st.caps⟩)

/-- The method `String.prototype.replace(re, '')` for a pattern without the
global flag: the first match is removed. -/
def jsReplaceEmpty (re : Re) (s : String) : String :=
  match jsMatch re s with
  | none => s
  | some m =>
    match m.span 0 with
    | none => s
    | some se => String.mk (s.data.take se.1 ++ s.data.drop se.2)

/-- Sequence of several patterns. -/
def Re.cat : List Re → Re
  | [] => .eps
  | [r] => r
  | r :: rs => .seq r (Re.cat rs)

/-- A literal character. -/
def Re.chr (c : Char) : Re := .cls (fun x => x == c)

/-- Code of a character after folding the ASCII capitals to small letters. -/
def foldCase (c : Char) : Nat :=
  if 65 ≤ c.toNat ∧ c.toNat ≤ 90 then c.toNat + 32 else c.toNat

/-- A literal character under the flag `i`; all literals of the script are
ASCII, for which the canonicalisation of the language is ASCII case folding. -/
def Re.chrI (c : Char) : Re := .cls (fun x => foldCase x == foldCase c)

/-- A literal word under the flag `i`. -/
def Re.wordI (w : String) : Re := Re.cat (w.data.map Re.chrI)

/-- A literal word. -/
def Re.word (w : String) : Re := Re.cat (w.data.map Re.chr)

/-- The class `\d`. -/
def Re.digit : Re := .cls (fun c => decide ('0' ≤ c) && decide (c ≤ '9'))

/-- The class `.`: everything but the four line terminators. -/
def Re.dot : Re :=
  .cls (fun c => !(c == '\n' || c == '\r' || c == Char.ofNat 0x2028 || c == Char.ofNat 0x2029))

/-- The class `\s`: white space and line terminators. -/
def Re.space : Re :=
  .cls (fun c =>
    let n := c.toNat
    (9 ≤ n && n ≤ 13) || n == 0x20 || n == 0xA0 || n == 0x1680 || (0x2000 ≤ n && n ≤ 0x200A)
      || n == 0x2028 || n == 0x2029 || n == 0x202F || n == 0x205F || n == 0x3000 || n == 0xFEFF)

/-- One or more, greedy: `r+`. -/
def Re.plus (r : Re) : Re := .seq r (.star true r)

/-- Zero or one, greedy: `r?`. -/
def Re.opt (r : Re) : Re := .alt r .eps

/-- The pattern `/:\d+:\d+$/` of `stripLineAndColumnNumbers` (line 117). -/
def lineColumnRe : Re :=
  Re.cat [Re.chr ':', Re.plus Re.digit, Re.chr ':', Re.plus Re.digit, .eos]

/-- The pattern `/\((http.*:\d+:\d+)/` of `getOriginatingScriptUrl` (lines 152, 167). -/
def httpUrlRe : Re :=
  Re.cat [Re.chr '(',
    .cap 1 (Re.cat [Re.word "http", .star true Re.dot, Re.chr ':', Re.plus Re.digit,
      Re.chr ':', Re.plus Re.digit])]

/-- The pattern `geckoCallSiteRe` (line 136):
`/^\s*(.*?)(?:\((.*?)\))?@?((?:file|https?|chrome):.*?):(\d+)(?::(\d+))?\s*$/i`. -/
def geckoCallSiteRe : Re :=
  Re.cat [.bos, .star true Re.space,
    .cap 1 (.star false Re.dot),
    Re.opt (Re.cat [Re.chrI '(', .cap 2 (.star false Re.dot), Re.chrI ')']),
    Re.opt (Re.chrI '@'),
    .cap 3 (Re.cat [
      .alt (Re.wordI "file") (.alt (Re.cat [Re.wordI "http", Re.opt (Re.chrI 's')]) (Re.wordI "chrome")),
      Re.chrI ':', .star false Re.dot]),
    Re.chrI ':',
    .cap 4 (Re.plus Re.digit),
    Re.opt (Re.cat [Re.chrI ':', .cap 5 (Re.plus Re.digit)]),
    .star true Re.space, .eos]

/-! ## Stack traces and the two resolvers -/

/-- The method `String.prototype.split` with separator `'\n'`, on characters. -/
def splitNewline : List Char → List (List Char)
  | [] => [[]]
  | c :: cs =>
    if c = '\n' then [] :: splitNewline cs
    else
      match splitNewline cs with
      | l :: ls => (c :: l) :: ls
      | [] => [[c]]

/-- The call `s.split('\n')`. -/
def jsSplitLines (s : String) : List String :=
  (splitNewline s.data).map String.mk

/-- A call site of the structured stack trace API, with the three methods the
script calls.  `getEvalOrigin` is only called on eval frames, where the engine
returns a string; `getFileName` may return `null` or `undefined`. -/
structure CallSite where
  isEval : Bool
  getEvalOrigin : String
  getFileName : Val
  deriving DecidableEq, Repr

/-- What `getStackTrace()` returns (lines 93-109): the structured stack trace
handed to `prepareStackTrace`, or a string when the engine formatted it. -/
inductive StackTrace where
  | structured (frames : List CallSite)
  | text (s : String)
  deriving DecidableEq, Repr

/-- What `getStackTraceFirefox()` returns (lines 76-86) for the `stack` string
of the caught error. -/
def getStackTraceFirefox (stack : String) : List String :=
  jsSplitLines stack

/-- Lines 116-118. -/
def stripLineAndColumnNumbers (script_url : String) : String :=
  jsReplaceEmpty lineColumnRe script_url

/-- Lines 125-139; `trace` is the value of `getStackTraceFirefox()`. -/
def getOriginatingScriptUrlFirefox (trace : List String) : String :=
  if trace.length < 4 then ""
  else
    match trace.get? 3 with
    | none => ""
    | some callSite =>
      match jsMatch geckoCallSiteRe callSite with
      | none => ""
      | some scriptUrlMatches =>
        match scriptUrlMatches.group 3 with
        | none => ""
        | some url => if url = "" then "" else url

/-- The expression
`script_url_matches && stripLineAndColumnNumbers(script_url_matches[1]) || stripLineAndColumnNumbers(s)`
of lines 154 and 170. -/
def urlOrStripped (s : String) : String :=
  match jsMatch httpUrlRe s with
  | none => stripLineAndColumnNumbers s
  | some script_url_matches =>
    match script_url_matches.group 1 with
    | none => stripLineAndColumnNumbers s
    | some g =>
      if stripLineAndColumnNumbers g = "" then stripLineAndColumnNumbers s
      else stripLineAndColumnNumbers g

/-- Lines 145-174; `trace` is the value of `getStackTrace()`.  Reading
`trace[4].match` or `callSite.isEval` on `undefined` raises a `TypeError`. -/
def getOriginatingScriptUrl (trace : StackTrace) : Except Exn Val :=
  match trace with
  | .text s =>
    match (jsSplitLines s).get? 4 with
    | none => .error .typeError
    | some line => .ok (.str (urlOrStripped line))
  | .structured frames =>
    if frames.length < 2 then .ok (.str "")
    else
      match frames.get? 2 with
      | none => .error .typeError
      | some callSite =>
        if callSite.isEval then .ok (.str (urlOrStripped callSite.getEvalOrigin))
        else .ok callSite.getFileName

/-! ## Objects and properties -/

/-- Own data properties of every object. -/
abbrev Heap := Nat → String → Option Val

/-- The own property `p` of `o` is created or overwritten with `v`: what an
assignment `o[p] = v` does when it is not rejected (see `assign`). -/
def Heap.set (h : Heap) (o : Nat) (p : String) (v : Val) : Heap :=
  fun o' p' => if o' = o ∧ p' = p then some v else h o' p'

/-- First own property `p` along a list of objects, `undefined` when none has it. -/
def findOwn (h : Heap) (p : String) : List Nat → Val
  | [] => .undefined
  | o :: os =>
    match h o p with
    | some v => v
    | none => findOwn h p os

/-- What the page and the browser provide.  `protoChain o` lists the prototypes
of `o`, nearest first.  `objLength` and `fnLength` give the numeric `length` of
an object or function (`none` when it has none).  `origImpl t` is the behaviour
of the function captured as `orig` by the installation for `t`: from a
receiver, the arguments and the host state it returns or throws, and changes
the host state (the canvas), not the properties modelled by the heap.
`frozen o` holds for the objects that the page has frozen (`Object.freeze`)
once the script is installed: none of their properties can be changed or
created.  `extensible o` fails for
the objects that the page has made non-extensible (`Object.preventExtensions`,
`Object.seal`): no property can be added to them. -/
structure Env (σ : Type) where
  V8_STACK_TRACE_API : Bool
  protoChain : Nat → List Nat
  objLength : Nat → Option Int
  fnLength : FnRef → Option Int
  origImpl : TrapTarget → Nat → List Val → σ → Except Exn Val × σ
  frozen : Nat → Bool
  extensible : Nat → Bool

/-- The property read `o[p]` through the prototype chain. -/
def getProp {σ : Type} (env : Env σ) (h : Heap) (o : Nat) (p : String) : Val :=
  findOwn h p (o :: env.protoChain o)

/-- First object along a list that has an own property `p`. -/
def findOwner (h : Heap) (p : String) : List Nat → Option Nat
  | [] => none
  | o :: os =>
    match h o p with
    | some _ => some o
    | none => findOwner h p os

/-- The assignment `o[p] = v` takes effect.  The property found along the
prototype chain must be writable, that is, its holder is not frozen; unless the
holder is `o` itself, a new own property is created, for which `o` must be
extensible and not frozen.  The heap holds data properties only. -/
def assignable {σ : Type} (env : Env σ) (h : Heap) (o : Nat) (p : String) : Bool :=
  match findOwner h p (o :: env.protoChain o) with
  | none => env.extensible o && !env.frozen o
  | some o' => !env.frozen o' && (decide (o' = o) || (env.extensible o && !env.frozen o))

/-- The assignment `o[p] = v` in the script, which is not in strict mode: an
assignment that cannot take effect is ignored silently.  Also used for an
assignment made by code of the page, where strict code throws instead; the
properties are the same. -/
def assign {σ : Type} (env : Env σ) (h : Heap) (o : Nat) (p : String) (v : Val) : Heap :=
  if assignable env h o p then h.set o p v else h

/-- The property read `v[p]` on an arbitrary value, for the names `width` and
`height` read by the extractors: a `TypeError` on `undefined` and `null`,
`undefined` on the other primitives and on functions. -/
def getMember (get : Nat → String → Val) : Val → String → Except Exn Val
  | .undefined, _ => .error .typeError
  | .null, _ => .error .typeError
  | .obj o, p => .ok (get o p)
  | _, _ => .ok .undefined

/-! ## Records, the trap registry and the extractors -/

/-- The object built by an `extra` function; an omitted key is `none`. -/
structure Extra where
  canvas : Bool
  width : Option Val
  height : Option Val
  deriving DecidableEq, Repr

/-- The message object `msg` of lines 208-216. -/
structure Msg where
  obj : String
  prop : String
  scriptUrl : Val
  extra : Option Extra
  deriving DecidableEq, Repr

/-- The object `CanvasRenderingContext2D.prototype`. -/
def CanvasRenderingContext2D_prototype : Nat := 0

/-- The object `HTMLCanvasElement.prototype`. -/
def HTMLCanvasElement_prototype : Nat := 1

/-- An entry of `methods`.  An `extra` function receives the property reader of
the current heap, the receiver and the arguments. -/
structure Item where
  objName : String
  propName : String
  obj : Nat
  extra : Option ((Nat → String → Val) → Nat → List Val → Except Exn Extra)

/-- The default `extra` of lines 252-256. -/
def extraCanvas (_get : Nat → String → Val) (_this : Nat) (_args : List Val) :
    Except Exn Extra :=
  .ok ⟨true, none, none⟩

/-- The `extra` of `getImageData`, lines 260-278. -/
def extraGetImageData (get : Nat → String → Val) (this : Nat) (args : List Val) :
    Except Exn Extra :=
  let width := args.getD 2 .undefined
  let height := args.getD 3 .undefined
  match (if width = .undefined then getMember get (get this "canvas") "width" else .ok width) with
  | .error e => .error e
  | .ok width =>
    match (if height = .undefined then getMember get (get this "canvas") "height"
      else .ok height) with
    | .error e => .error e
    | .ok height => .ok ⟨true, some width, some height⟩

/-- The `extra` of `toDataURL`, lines 288-295. -/
def extraToDataURL (get : Nat → String → Val) (this : Nat) (_args : List Val) :
    Except Exn Extra :=
  .ok ⟨true, some (get this "width"), some (get this "height")⟩

/-- The item built for each target by lines 247-296. -/
def item : TrapTarget → Item
  | .getImageData =>
    ⟨"CanvasRenderingContext2D.prototype", "getImageData", CanvasRenderingContext2D_prototype,
      some extraGetImageData⟩
  | .fillText =>
    ⟨"CanvasRenderingContext2D.prototype", "fillText", CanvasRenderingContext2D_prototype,
      some extraCanvas⟩
  | .strokeText =>
    ⟨"CanvasRenderingContext2D.prototype", "strokeText", CanvasRenderingContext2D_prototype,
      some extraCanvas⟩
  | .toDataURL =>
    ⟨"HTMLCanvasElement.prototype", "toDataURL", HTMLCanvasElement_prototype,
      some extraToDataURL⟩

/-- The list `methods`, in the order of lines 247 and 284. -/
def methods : List TrapTarget :=
  [.getImageData, .fillText, .strokeText, .toDataURL]

/-- The test of lines 181-183. -/
def is_canvas_write (it : Item) : Bool :=
  it.propName == "fillText" || it.propName == "strokeText"

/-! ## State -/

/-- A timer registered with `setTimeout`: its handle, when it was set and the
delay asked for. -/
structure Timer where
  id : Nat
  setAt : Int
  delay : Int
  deriving DecidableEq, Repr

/-- An invocation of a captured original: target, receiver, arguments. -/
structure OrigCall where
  target : TrapTarget
  receiver : Nat
  args : List Val
  deriving DecidableEq, Repr

/-- State of the page as far as the script reads or writes it.

* `heap`: own properties of objects;
* `skip_monitoring t`: the closure variable of the installation for `t`;
* `messages`: the queue of `send`;
* `timeout`, `timestamp`: closure variables of `debounce` (`timeout` is `none`
  for `undefined` and `null`; timer handles are positive numbers, hence truthy);
* `timers`, `nextTimer`: timers pending in the host and the next handle;
* `dispatched`: for every event dispatched so far, the content of its `detail`
  when `dispatchEvent` was called;
* `host`: the state on which the captured originals act;
* `origCalls`, `reports`: logs kept for the statements, of every invocation of
  a captured original and of the target and receiver of every call of `send`. -/
structure State (σ : Type) where
  heap : Heap
  skip_monitoring : TrapTarget → Bool
  messages : List Msg
  timeout : Option Nat
  timestamp : Int
  timers : List Timer
  nextTimer : Nat
  dispatched : List (List Msg)
  host : σ
  origCalls : List OrigCall
  reports : List (TrapTarget × Nat)

/-- What the host supplies at one call of a wrapper: the value of `DATE.now()`,
the value of `getStackTrace()` and the `stack` string of a caught error. -/
structure CallCtx where
  now : Int
  v8Trace : StackTrace
  errStack : String
  deriving DecidableEq, Repr

/-! ## The dispatcher (lines 17-70) -/

/-- The quiet period passed to `debounce` at line 62. -/
def wait : Int := 100

/-- The host function `setTimeout(later, delay)`, called at time `now`: returns
the handle. -/
def setTimeout {σ : Type} (delay now : Int) (s : State σ) : Nat × State σ :=
  (s.nextTimer,
    { s with timers := s.timers ++ [⟨s.nextTimer, now, delay⟩], nextTimer := s.nextTimer + 1 })

/-- The function passed to `debounce` (lines 55-62): dispatch the queue, then
replace it by an empty one. -/
def flush {σ : Type} (s : State σ) : State σ :=
  { s with dispatched := s.dispatched ++ [s.messages], messages := [] }

/-- The function `later` (lines 20-31), run by the host at time `now`;
`immediate` is `undefined`. -/
def later {σ : Type} (now : Int) (s : State σ) : State σ :=
  let last := now - s.timestamp
  if last < wait then
    let r := setTimeout (wait - last) now s
    { r.2 with timeout := some r.1 }
  else
    flush { s with timeout := none }

/-- The function returned by `debounce` (lines 33-47), called at time `now`;
`immediate` is `undefined`, so `callNow` is false.  The variables `context`,
`args` and `result` are left out: the debounced function reads neither its
receiver nor its arguments and returns `undefined`. -/
def debounced {σ : Type} (now : Int) (s : State σ) : State σ :=
  let s1 := { s with timestamp := now }
  match s1.timeout with
  | none =>
    let r := setTimeout wait now s1
    { r.2 with timeout := some r.1 }
  | some _ => s1

/-- The function `send` (lines 64-69). -/
def send {σ : Type} (msg : Msg) (now : Int) (s : State σ) : State σ :=
  debounced now { s with messages := s.messages ++ [msg] }

/-! ## The wrapper (lines 180-243) -/

/-- The call `apply(orig, this, args)` (lines 12-14) for the `orig` of target `t`. -/
def applyOrig {σ : Type} (env : Env σ) (t : TrapTarget) (this : Nat) (args : List Val)
    (s : State σ) : Except Exn Val × State σ :=
  let r := env.origImpl t this args s.host
  (r.1, { s with host := r.2, origCalls := s.origCalls ++ [⟨t, this, args⟩] })

/-- The conversion to a boolean. -/
def truthy : Val → Bool
  | .undefined => false
  | .null => false
  | .bool b => b
  | .num n => decide (n ≠ 0)
  | .str s => decide (s ≠ "")
  | .obj _ => true
  | .fn _ => true

/-- Length of a string in UTF-16 code units. -/
def utf16Length (s : String) : Nat :=
  (s.data.map (fun c => if c.toNat < 0x10000 then 1 else 2)).sum

/-- The numeric value of `v.length` for a truthy `v`, `none` when it is
`undefined`. -/
def lengthOf {σ : Type} (env : Env σ) : Val → Option Int
  | .str s => some (utf16Length s)
  | .obj o => env.objLength o
  | .fn f => env.fnLength f
  | _ => none

/-- The test `!args[0] || args[0].length < 5` of line 198; a comparison with
`undefined` is false. -/
def tooShort {σ : Type} (env : Env σ) (a0 : Val) : Bool :=
  !truthy a0 ||
    (match lengthOf env a0 with
     | some n => decide (n < 5)
     | none => false)

/-- The choice of lines 203-207. -/
def resolve {σ : Type} (env : Env σ) (ctx : CallCtx) : Except Exn Val :=
  if env.V8_STACK_TRACE_API then getOriginatingScriptUrl ctx.v8Trace
  else .ok (.str (getOriginatingScriptUrlFirefox (getStackTraceFirefox ctx.errStack)))

/-- Lines 214-216: `hasOwn(item, 'extra')` and the call of `item.extra`. -/
def runExtra (it : Item) (get : Nat → String → Val) (this : Nat) (args : List Val) :
    Except Exn (Option Extra) :=
  match it.extra with
  | none => .ok none
  | some f =>
    match f get this args with
    | .error e => .error e
    | .ok x => .ok (some x)

/-- Lines 220-231, run after `send` on a text-draw target. -/
def restoreOrSkip {σ : Type} (env : Env σ) (t : TrapTarget) (this : Nat) (s : State σ) :
    State σ :=
  if getProp env s.heap this (item t).propName = .fn (.wrapped t) then
    { s with heap := assign env s.heap this (item t).propName (.fn (.orig t)) }
  else
    { s with skip_monitoring := fun t' => if t' = t then true else s.skip_monitoring t' }

/-- The function `wrapped` of the installation for `t` (lines 191-234), called
with receiver `this` and arguments `args`.  An exception of the resolver or of
the extractor leaves the function at that point. -/
def wrapped {σ : Type} (env : Env σ) (t : TrapTarget) (this : Nat) (args : List Val)
    (ctx : CallCtx) (s : State σ) : Except Exn Val × State σ :=
  if is_canvas_write (item t) &&
      (s.skip_monitoring t || tooShort env (args.getD 0 .undefined)) then
    applyOrig env t this args s
  else
    match resolve env ctx with
    | .error e => (.error e, s)
    | .ok script_url =>
      match runExtra (item t) (getProp env s.heap) this args with
      | .error e => (.error e, s)
      | .ok extra =>
        let s1 := send ⟨(item t).objName, (item t).propName, script_url, extra⟩ ctx.now
          { s with reports := s.reports ++ [(t, this)] }
        let s2 := if is_canvas_write (item t) then restoreOrSkip env t this s1 else s1
        applyOrig env t this args s2

/-- The function `trapInstanceMethod` (lines 180-243): the owner's property is
replaced by `wrapped`, with a fresh `skip_monitoring`.  The script is loaded
before any code of the page runs: the owner is the host's prototype as the
browser made it, extensible and not frozen, so the assignment of line 185
takes effect. -/
def trapInstanceMethod {σ : Type} (t : TrapTarget) (s : State σ) : State σ :=
  { s with
    heap := s.heap.set (item t).obj (item t).propName (.fn (.wrapped t))
    skip_monitoring := fun t' => if t' = t then false else s.skip_monitoring t' }

/-- Heap of a page before the script runs: each owner holds the original method. -/
def pristineHeap : Heap :=
  fun o p =>
    if o = CanvasRenderingContext2D_prototype ∧ p = "getImageData" then some (.fn (.orig .getImageData))
    else if o = CanvasRenderingContext2D_prototype ∧ p = "fillText" then some (.fn (.orig .fillText))
    else if o = CanvasRenderingContext2D_prototype ∧ p = "strokeText" then
      some (.fn (.orig .strokeText))
    else if o = HTMLCanvasElement_prototype ∧ p = "toDataURL" then some (.fn (.orig .toDataURL))
    else none

/-- State of a page before the script runs. -/
def pristine {σ : Type} (host : σ) : State σ :=
  { heap := pristineHeap, skip_monitoring := fun _ => false, messages := [], timeout := none,
    timestamp := 0, timers := [], nextTimer := 1, dispatched := [], host := host,
    origCalls := [], reports := [] }

/-- The loop of lines 298-300 on a page in state `pristine host`. -/
def installed {σ : Type} (host : σ) : State σ :=
  methods.foldl (fun s t => trapInstanceMethod t s) (pristine host)

/-! ## Events of a page -/

/-- The method call `this[p](...args)` for the property name `p` of target `t`.
A foreign function is not part of the script: its body is not modelled, and
the calls it makes to a wrapper are events of their own. -/
def callMethod {σ : Type} (env : Env σ) (t : TrapTarget) (this : Nat) (args : List Val)
    (ctx : CallCtx) (s : State σ) : Except Exn Val × State σ :=
  match getProp env s.heap this (item t).propName with
  | .fn (.wrapped t') => wrapped env t' this args ctx s
  | .fn (.orig t') => applyOrig env t' this args s
  | .fn (.foreign _) => (.ok .undefined, s)
  | _ => (.error .typeError, s)

/-- What can happen on a page: a wrapper is applied to a receiver
(`wrapped.apply(this, args)`, however the caller obtained `wrapped`), a method
is called through a receiver's property, another actor assigns a property, the
host runs a pending timer. -/
inductive Event where
  | direct (t : TrapTarget) (this : Nat) (args : List Val) (ctx : CallCtx)
  | viaProp (t : TrapTarget) (this : Nat) (args : List Val) (ctx : CallCtx)
  | assign (o : Nat) (p : String) (v : Val)
  | fire (id : Nat) (now : Int)

/-- The host runs timer `id` at time `now`, if it is pending. -/
def fireTimer {σ : Type} (id : Nat) (now : Int) (s : State σ) : State σ :=
  if s.timers.any (fun tm => tm.id == id) then
    later now { s with timers := s.timers.filter (fun tm => !(tm.id == id)) }
  else s

/-- One event. -/
def step {σ : Type} (env : Env σ) (e : Event) (s : State σ) : State σ :=
  match e with
  | .direct t this args ctx => (wrapped env t this args ctx s).2
  | .viaProp t this args ctx => (callMethod env t this args ctx s).2
  | .assign o p v => { s with heap := assign env s.heap o p v }
  | .fire id now => fireTimer id now s

/-- A sequence of events. -/
def run {σ : Type} (env : Env σ) (es : List Event) (s : State σ) : State σ :=
  es.foldl (fun s e => step env e s) s

/-! ## A concrete page, for the examples -/

/-- A page with the structured stack trace API: even objects from 2 on are
drawing contexts, odd objects from 3 on are canvas elements; an original
returns a number made of the host state and the number of its arguments, and
advances the host state. -/
def sampleEnv : Env Nat where
  V8_STACK_TRACE_API := true
  protoChain := fun o =>
    if o = CanvasRenderingContext2D_prototype ∨ o = HTMLCanvasElement_prototype then []
    else if o % 2 = 0 then [CanvasRenderingContext2D_prototype]
    else [HTMLCanvasElement_prototype]
  objLength := fun _ => none
  fnLength := fun _ => some 0
  origImpl := fun _ _ args h => (.ok (.num (h + args.length)), h + 1)
  frozen := fun _ => false
  extensible := fun _ => true

/-- The same page without the structured stack trace API. -/
def sampleEnvFirefox : Env Nat :=
  { sampleEnv with V8_STACK_TRACE_API := false }

/-- The same page after it has frozen the drawing context 6. -/
def frozenEnv : Env Nat :=
  { sampleEnv with frozen := fun o => decide (o = 6), extensible := fun o => decide (o ≠ 6) }

/-- A call site of the script itself. -/
def ownFrame : CallSite := ⟨false, "", .str "chrome-extension://x/work.js"⟩

/-- A call made by `http://h/a.js` at time 1000. -/
def sampleCtx : CallCtx :=
  { now := 1000
    v8Trace := .structured [ownFrame, ownFrame, ⟨false, "", .str "http://h/a.js"⟩]
    errStack := "getStackTraceFirefox@x:1:1\nresolver@x:2:2\nwrapped@x:3:3\nf@http://h/a.js:10:5" }

/-- A call made by the host itself (a timer running a bound method): the
structured trace holds the two frames of the script only. -/
def shallowCtx : CallCtx :=
  { now := 1000, v8Trace := .structured [ownFrame, ownFrame], errStack := "" }

/-! ## Counting reports -/

/-- Number of records produced so far by the installation for `t` on receiver `r`. -/
def reportCount {σ : Type} (t : TrapTarget) (r : Nat) (s : State σ) : Nat :=
  s.reports.count (t, r)

/-- A call of the text method `"hello world"`. -/
def helloArgs : List Val := [.str "hello world"]

/-- The installed page after another actor has put its own function on
context 4 and that function has passed a long text on to the wrapper: the
installation for `fillText` is suppressed. -/
def suppressedState : State Nat :=
  run sampleEnv
    [.assign 4 "fillText" (.fn (.foreign 7)), .direct .fillText 4 helloArgs sampleCtx]
    (installed 0)

/-! ## The dispatcher in time -/

/-- The time at which a timer is due. -/
def Timer.due (tm : Timer) : Int := tm.setAt + tm.delay

/-- The function passed to `debounce` (lines 55-62) when listeners of the
dispatched event call `send` while `dispatchEvent` runs, with the messages and
times of `during`.  The event is built and handed to the listeners with the
queue as it is when `dispatchEvent` is called: that content is the batch
recorded.  The calls of `send` made by the listeners then run (each pushes on
the array `messages`, which is the `detail` of the event already handed out,
and calls the debounced function), and line 61 replaces the queue by a new
empty array. -/
def flushWith {σ : Type} (during : List (Msg × Int)) (s : State σ) : State σ :=
  let s0 := { s with dispatched := s.dispatched ++ [s.messages] }
  let s1 := during.foldl (fun st c => send c.1 c.2 st) s0
  { s1 with messages := [] }

/-- The function `later` (lines 20-31) at time `now`, with the calls of `send`
made by listeners in case an event is dispatched. -/
def laterWith {σ : Type} (during : List (Msg × Int)) (now : Int) (s : State σ) : State σ :=
  let last := now - s.timestamp
  if last < wait then
    let r := setTimeout (wait - last) now s
    { r.2 with timeout := some r.1 }
  else
    flushWith during { s with timeout := none }

/-- The host runs timer `id` at time `now`, if it is pending. -/
def expire {σ : Type} (id : Nat) (now : Int) (during : List (Msg × Int)) (s : State σ) :
    State σ :=
  if s.timers.any (fun tm => tm.id == id) then
    laterWith during now { s with timers := s.timers.filter (fun tm => !(tm.id == id)) }
  else s

/-- What happens to the dispatcher: `send(msg)` at time `now`, or the host
running timer `id` at time `now`, during whose event (if one is dispatched)
listeners call `send` with `during`. -/
inductive DispatcherEvent where
  | send (msg : Msg) (now : Int)
  | expire (id : Nat) (now : Int) (during : List (Msg × Int))
  deriving DecidableEq, Repr

/-- One event of the dispatcher. -/
def dstep {σ : Type} (e : DispatcherEvent) (s : State σ) : State σ :=
  match e with
  | .send msg now => send msg now s
  | .expire id now during => expire id now during s

/-- A sequence of events of the dispatcher. -/
def drun {σ : Type} (es : List DispatcherEvent) (s : State σ) : State σ :=
  es.foldl (fun s e => dstep e s) s

/-- The event dispatches an event of the page in state `s`. -/
def flushes {σ : Type} (e : DispatcherEvent) (s : State σ) : Bool :=
  match e with
  | .send _ _ => false
  | .expire id now _ =>
    s.timers.any (fun tm => tm.id == id) && !decide (now - s.timestamp < wait)

/-- The messages passed to `send` by one event in state `s`. -/
def sentBy {σ : Type} (e : DispatcherEvent) (s : State σ) : List Msg :=
  match e with
  | .send msg _ => [msg]
  | .expire _ _ during => if flushes e s then during.map (fun c => c.1) else []

/-- The messages passed to `send` along a sequence of events, in order. -/
def sentAlong {σ : Type} : List DispatcherEvent → State σ → List Msg
  | [], _ => []
  | e :: es, s => sentBy e s ++ sentAlong es (dstep e s)

/-- The message that the event passes to `send` outside of any dispatch. -/
def DispatcherEvent.queued : DispatcherEvent → List Msg
  | .send msg _ => [msg]
  | .expire _ _ _ => []

/-- The messages passed to `send` along a sequence of events by calls that are
not made while an event is dispatched, in order. -/
def sentOutside : List DispatcherEvent → List Msg
  | [] => []
  | e :: es => e.queued ++ sentOutside es

/-- No listener calls `send` while an event is dispatched. -/
def DispatcherEvent.plain : DispatcherEvent → Bool
  | .send _ _ => true
  | .expire _ _ during => during.isEmpty

/-- The event is a call of `send`. -/
def DispatcherEvent.isSend : DispatcherEvent → Bool
  | .send _ _ => true
  | .expire _ _ _ => false

/-- The pending timer that is due first among those due at `upTo` at the latest. -/
def nextDue (upTo : Int) : List Timer → Option Timer
  | [] => none
  | tm :: tms =>
    match nextDue upTo tms with
    | none => if tm.due ≤ upTo then some tm else none
    | some b => if tm.due ≤ b.due then some tm else some b

/-- The host lets time pass until `upTo`: every timer due by then runs at its
due time, the earliest first; `fuel` bounds the number of timers run. -/
def advance {σ : Type} : Nat → Int → State σ → State σ
  | 0, _, s => s
  | fuel + 1, upTo, s =>
    match nextDue upTo s.timers with
    | none => s
    | some tm => advance fuel upTo (fireTimer tm.id tm.due s)

/-- A call `send(msg)` at time `time`; a timer due at that very time runs before
the call when `timersFirst` holds and after it otherwise. -/
structure SendCall where
  msg : Msg
  time : Int
  timersFirst : Bool
  deriving DecidableEq, Repr

/-- Time passes until the call, then `send` runs. -/
def sendAt {σ : Type} (fuel : Nat) (c : SendCall) (s : State σ) : State σ :=
  send c.msg c.time (advance fuel (if c.timersFirst then c.time else c.time - 1) s)

/-- A sequence of calls of `send`, with timers running at their due times. -/
def burst {σ : Type} (fuel : Nat) (calls : List SendCall) (s : State σ) : State σ :=
  calls.foldl (fun s c => sendAt fuel c s) s

/-- Each call comes at or after the previous one (the first one at or after
`t0`) and less than the quiet period after it. -/
def closeFrom (t0 : Int) : List SendCall → Prop
  | [] => True
  | c :: cs => t0 ≤ c.time ∧ c.time - t0 < wait ∧ closeFrom c.time cs

/-- Each call of the sequence comes at or after the previous one and less than
the quiet period after it. -/
def closeCalls : List SendCall → Prop
  | [] => True
  | c :: cs => closeFrom c.time cs

/-- Time of the last call, `t0` when there is none. -/
def lastTime (t0 : Int) : List SendCall → Int
  | [] => t0
  | c :: cs => lastTime c.time cs

/-- The dispatcher is idle: no timer is pending. -/
def Idle {σ : Type} (s : State σ) : Prop :=
  s.timers = [] ∧ s.timeout = none

/-- Exactly the debounce timer is pending, due no later than the quiet period
after the last call of `send`. -/
def Armed {σ : Type} (s : State σ) : Prop :=
  ∃ tm, s.timers = [tm] ∧ s.timeout = some tm.id ∧ tm.due ≤ s.timestamp + wait

/-- A timer is pending only together with a non-empty queue: the dispatcher is
idle, or exactly the debounce timer is pending and the queue is not empty. -/
def WellQueued {σ : Type} (s : State σ) : Prop :=
  Idle s ∨ ∃ tm, s.timers = [tm] ∧ s.timeout = some tm.id ∧ s.messages ≠ []

/-- The record of a `toDataURL` call, for the examples. -/
def sampleMsg (n : Int) : Msg :=
  ⟨"HTMLCanvasElement.prototype", "toDataURL", .str "http://h/a.js",
    some ⟨true, some (.num n), some (.num n)⟩⟩

/-- Five calls of `send` within 50 ms. -/
def fiveCalls : List SendCall :=
  [⟨sampleMsg 1, 1000, true⟩, ⟨sampleMsg 2, 1010, false⟩, ⟨sampleMsg 3, 1020, true⟩,
    ⟨sampleMsg 4, 1030, false⟩, ⟨sampleMsg 5, 1040, true⟩]

/-! ## Extractor of `getImageData` -/

/-- The value of `c.width` or `c.height` for a `canvas` value `c` that is
neither `undefined` nor `null`. -/
def canvasDim (get : Nat → String → Val) (c : Val) (p : String) : Val :=
  match c with
  | .obj o => get o p
  | _ => .undefined

/-! ## Introspection of the wrapper (lines 236-238) -/

/-- The own properties of a function object that introspection reads: `name`,
`length`, and the own property `toString` when there is one.  An own
`toString` is always a function bound by `Function.prototype.bind`;
`toStringThis` is the function it is bound to. -/
structure FnObject where
  name : Val
  length : Val
  toStringThis : Option FnRef
  deriving DecidableEq, Repr

/-- The function objects of the page. -/
abbrev FnStore := FnRef → FnObject

/-- The call `f.toString()`: the own bound `toString` runs the inherited method
on the function it is bound to, otherwise the inherited method runs on `f`.
`text g` is what the inherited method returns for `g`. -/
def callToString (text : FnRef → String) (st : FnStore) (f : FnRef) : String :=
  match (st f).toStringThis with
  | some g => text g
  | none => text f

/-- The function `wrapped` as declared at line 191: named `wrapped`, without
formal parameters, without own `toString`. -/
def declaredWrapped : FnObject := ⟨.str "wrapped", .num 0, none⟩

/-- The expression `orig.toString.bind(orig)` of line 238: binding a bound
function keeps the receiver it already has. -/
def boundToString (st : FnStore) (f : FnRef) : FnRef :=
  match (st f).toStringThis with
  | some g => g
  | none => f

/-- Lines 191 and 236-238: `wrapped` is created, then `name`, `length` and
`toString` are defined on it from the captured original. -/
def defineWrapped (t : TrapTarget) (st : FnStore) : FnStore :=
  let w1 : FnObject := { declaredWrapped with name := (st (.orig t)).name }
  let w2 : FnObject := { w1 with length := (st (.orig t)).length }
  let w3 : FnObject := { w2 with toStringThis := some (boundToString st (.orig t)) }
  fun f => if f = .wrapped t then w3 else st f

/-- The store after the loop of lines 298-300. -/
def installedFns (st : FnStore) : FnStore :=
  methods.foldl (fun st t => defineWrapped t st) st

/-- The installed page on which context 2 belongs to canvas element 3, of
size 300 by 150. -/
def canvasPage : State Nat :=
  run sampleEnv
    [.assign 2 "canvas" (.obj 3), .assign 3 "width" (.num 300), .assign 3 "height" (.num 150)]
    (installed 0)

/-- The installed page where a listener of the first event calls `send` while
that event is dispatched: `send` at 1000 ms, the timer at 1100 ms. -/
def reentrantState : State Nat :=
  drun [.send (sampleMsg 1) 1000, .expire 1 1100 [(sampleMsg 2, 1100)]] (installed 0)

/-! ## What a pattern matches -/

/-- Zero or more steps of `M`, each of which consumes something. -/
inductive Iter (M : MState → MState → Prop) : MState → MState → Prop where
  | nil (s : MState) : Iter M s s
  | cons (s m t : MState) : M s m → m.pos ≠ s.pos → Iter M m t → Iter M s t

/-- The pattern takes the matcher from state `s` to state `t`: the relation
that the backtracking matcher searches. -/
def Matches : Re → MState → MState → Prop
  | .eps, s, t => t = s
  | .cls p, s, t => ∃ c cs, s.rest = c :: cs ∧ p c = true ∧ t = ⟨s.pos + 1, cs, s.caps⟩
  | .seq a b, s, t => ∃ m, Matches a s m ∧ Matches b m t
  | .alt a b, s, t => Matches a s t ∨ Matches b s t
  | .star _ r, s, t => Iter (fun x y => Matches r x y) s t
  | .cap i r, s, t =>
    ∃ m, Matches r s m ∧ t = { m with caps := (i, s.pos, m.pos) :: m.caps }
  | .bos, s, t => s.pos = 0 ∧ t = s
  | .eos, s, t => s.rest = [] ∧ t = s

/-- The matcher has consumed the word `w` between `s` and `t`. -/
def Consumed (s : MState) (w : List Char) (t : MState) : Prop :=
  s.rest = w ++ t.rest ∧ t.pos = s.pos + w.length

/-- A greedy repetition of a character test followed by `k`: the longest run
first, then shorter ones. -/
def greedyScan (p : Char → Bool) (k : MState → Option MState) :
    Nat → List Char → List (Nat × Nat × Nat) → Option MState
  | pos, [], caps => k ⟨pos, [], caps⟩
  | pos, c :: cs, caps =>
    if p c then (greedyScan p k (pos + 1) cs caps).orElse (fun _ => k ⟨pos, c :: cs, caps⟩)
    else k ⟨pos, c :: cs, caps⟩

/-- The test of the class `\d`. -/
def isDigit (c : Char) : Bool := decide ('0' ≤ c) && decide (c ≤ '9')

/-- The test of the class `.`. -/
def isDot (c : Char) : Bool :=
  !(c == '\n' || c == '\r' || c == Char.ofNat 0x2028 || c == Char.ofNat 0x2029)

/-- The test of the class `\s`. -/
def isSpace (c : Char) : Bool :=
  let n := c.toNat
  (9 ≤ n && n ≤ 13) || n == 0x20 || n == 0xA0 || n == 0x1680 || (0x2000 ≤ n && n ≤ 0x200A)
    || n == 0x2028 || n == 0x2029 || n == 0x202F || n == 0x205F || n == 0x3000 || n == 0xFEFF

/-- The end `:\d+:\d+` of the pattern of `getOriginatingScriptUrl`. -/
def lineColTail : Re :=
  Re.cat [Re.chr ':', Re.plus Re.digit, Re.chr ':', Re.plus Re.digit]

/-- A lazy repetition of a character test followed by `k`: the shortest run
first, then longer ones. -/
def lazyScan (p : Char → Bool) (k : MState → Option MState) :
    Nat → List Char → List (Nat × Nat × Nat) → Option MState
  | pos, [], caps => k ⟨pos, [], caps⟩
  | pos, c :: cs, caps =>
    (k ⟨pos, c :: cs, caps⟩).orElse
      (fun _ => if p c then lazyScan p k (pos + 1) cs caps else none)

/-- The pattern accepts the word `w` in front of any remaining input. -/
def Accepts (r : Re) (w : List Char) : Prop :=
  ∀ (pos : Nat) (rest : List Char) (caps : List (Nat × Nat × Nat)),
    ∃ t, Matches r ⟨pos, w ++ rest, caps⟩ t ∧ t.rest = rest

/-- The pattern accepts the word `w` as the whole remaining input. -/
def AcceptsAll (r : Re) (w : List Char) : Prop :=
  ∀ (pos : Nat) (caps : List (Nat × Nat × Nat)), ∃ t, Matches r ⟨pos, w, caps⟩ t

/-! ### The parts of `geckoCallSiteRe` -/

/-- The part `(?:\((.*?)\))?` of `geckoCallSiteRe`. -/
def geckoAlias : Re :=
  Re.opt (Re.cat [Re.chrI '(', .cap 2 (.star false Re.dot), Re.chrI ')'])

/-- The part `(?:file|https?|chrome)` of `geckoCallSiteRe`. -/
def geckoScheme : Re :=
  .alt (Re.wordI "file") (.alt (Re.cat [Re.wordI "http", Re.opt (Re.chrI 's')]) (Re.wordI "chrome"))

/-- The part `((?:file|https?|chrome):.*?)` of `geckoCallSiteRe`, group 3. -/
def geckoUrl : Re :=
  .cap 3 (Re.cat [geckoScheme, Re.chrI ':', .star false Re.dot])

/-- The part `:(\d+)(?::(\d+))?\s*$` of `geckoCallSiteRe`. -/
def geckoTail : Re :=
  Re.cat [Re.chrI ':', .cap 4 (Re.plus Re.digit),
    Re.opt (Re.cat [Re.chrI ':', .cap 5 (Re.plus Re.digit)]),
    .star true Re.space, .eos]

/-- The part of `geckoCallSiteRe` after the anchor `^`. -/
def geckoBody : Re :=
  Re.cat [.star true Re.space, .cap 1 (.star false Re.dot), geckoAlias,
    Re.opt (Re.chrI '@'), geckoUrl, geckoTail]

/-- The part of `geckoCallSiteRe` from group 3 on. -/
def geckoAfterAt : Re := .seq geckoUrl geckoTail

/-- The part of `geckoCallSiteRe` from `@?` on. -/
def geckoAfterAlias : Re := .seq (Re.opt (Re.chrI '@')) geckoAfterAt

/-- The part of `geckoCallSiteRe` from the optional alias on. -/
def geckoAfterName : Re := .seq geckoAlias geckoAfterAlias

/-- The part of `geckoCallSiteRe` from group 1 on. -/
def geckoAfterSpace : Re := .seq (.cap 1 (.star false Re.dot)) geckoAfterName

/-- The continuation of a match that started at position 0: group 0 is closed. -/
def closeWhole (s : MState) : Option MState :=
  some { s with caps := (0, 0, s.pos) :: s.caps }

/-! ### The form of a call-site line, in the words of the specification -/

/-- One of the words `file`, `http`, `https`, `chrome`, in any mix of capitals
and small letters. -/
def isScheme (w : List Char) : Bool :=
  decide (w.map foldCase ∈
    ["file", "http", "https", "chrome"].map (fun x : String => x.data.map foldCase))

/-- The text of the optional `(alias)`. -/
def optAlias : Option (List Char) → List Char
  | none => []
  | some a => '(' :: a ++ [')']

/-- The text of the optional `@`. -/
def optAt : Bool → List Char
  | true => ['@']
  | false => []

/-- The text of the optional `:<col>`. -/
def optColumn : Option (List Char) → List Char
  | none => []
  | some c => ':' :: c

/-- The text `<url>`: it starts with `file:`, `http:`, `https:` or `chrome:` and
stays on one line. -/
def SchemeUrl (url : List Char) : Prop :=
  ∃ scheme rest, url = scheme ++ ':' :: rest ∧ isScheme scheme = true ∧
    ∀ c ∈ rest, isDot c = true

/-- The text `:<line>[:<col>]` that ends a call-site line, white space after it
allowed. -/
def PositionTail (w : List Char) : Prop :=
  ∃ (l : List Char) (col : Option (List Char)) (ws : List Char),
    w = ':' :: l ++ optColumn col ++ ws ∧ l ≠ [] ∧ (∀ c ∈ l, isDigit c = true) ∧
    (∀ d, col = some d → d ≠ [] ∧ ∀ c ∈ d, isDigit c = true) ∧ ∀ c ∈ ws, isSpace c = true

/-- One way of reading a line as
`[white space][function name][(alias)][@]<url>:<line>[:<col>][white space]`:
the texts of the parts, `al` for the alias and `amp` for the presence of `@`;
`tail` is `:<line>[:<col>]` with the white space after it. -/
structure Reading where
  ws : List Char
  name : List Char
  al : Option (List Char)
  amp : Bool
  url : List Char
  tail : List Char

/-- The text of a reading from `<url>` on. -/
def Reading.afterAt (r : Reading) : List Char := r.url ++ r.tail

/-- The text of a reading from `[@]` on. -/
def Reading.afterAlias (r : Reading) : List Char := optAt r.amp ++ r.afterAt

/-- The text of a reading from `[(alias)]` on. -/
def Reading.afterName (r : Reading) : List Char := optAlias r.al ++ r.afterAlias

/-- The text of a reading from `[function name]` on. -/
def Reading.afterSpace (r : Reading) : List Char := r.name ++ r.afterName

/-- The line that is read. -/
def Reading.text (r : Reading) : List Char := r.ws ++ r.afterSpace

/-- The parts are what the form asks for: white space, a function name and an
alias that stay on one line, a url that starts with one of the four schemes and
stays on one line, and `:<line>[:<col>]`. -/
def Reading.ok (r : Reading) : Prop :=
  (∀ c ∈ r.ws, isSpace c = true) ∧ (∀ c ∈ r.name, isDot c = true) ∧
  (∀ a, r.al = some a → ∀ c ∈ a, isDot c = true) ∧ SchemeUrl r.url ∧ PositionTail r.tail

/-- The line has the form `[function name][(alias)][@]<url>:<line>[:<col>]`,
read with this `<url>`. -/
def GeckoForm (line url : List Char) : Prop :=
  ∃ r : Reading, r.text = line ∧ r.ok ∧ r.url = url

/-- An alias is preferred to none, and a shorter alias to a longer one. -/
def aliasBefore : Option (List Char) → Option (List Char) → Prop
  | some a, some b => a.length < b.length
  | some _, none => True
  | none, _ => False

/-- Reading `r` comes before reading `r'` of the same line: it has more
leading white space; or as much and a shorter function name; or the same name
and an alias where `r'` has none or a longer one; or the same alias and `@`
where `r'` has none; or the same `@` and a shorter url. -/
def Reading.before (r r' : Reading) : Prop :=
  r'.ws.length < r.ws.length ∨
  (r.ws.length = r'.ws.length ∧
    (r.name.length < r'.name.length ∨
    (r.name.length = r'.name.length ∧
      (aliasBefore r.al r'.al ∨
      (r.al = r'.al ∧
        ((r.amp = true ∧ r'.amp = false) ∨
        (r.amp = r'.amp ∧ r.url.length < r'.url.length)))))))

/-- The first reading of the line: a reading in the form before which no other
reading in the form comes. -/
def FirstReading (line : List Char) (r : Reading) : Prop :=
  r.text = line ∧ r.ok ∧ ∀ r' : Reading, r'.text = line → r'.ok → ¬ r'.before r

/-! ## Lemmas on the dispatcher and the wrapper -/

theorem is_canvas_write_iff (t : TrapTarget) :
    is_canvas_write (item t) = true ↔ t = .fillText ∨ t = .strokeText := by
  cases t <;> decide

theorem runExtra_text (t : TrapTarget) (ht : t = .fillText ∨ t = .strokeText)
    (get : Nat → String → Val) (this : Nat) (args : List Val) :
    runExtra (item t) get this args = .ok (some ⟨true, none, none⟩) := by
  rcases ht with rfl | rfl <;> rfl

theorem debounced_fields {σ : Type} (now : Int) (s : State σ) :
    (debounced now s).heap = s.heap ∧ (debounced now s).skip_monitoring = s.skip_monitoring ∧
    (debounced now s).messages = s.messages ∧ (debounced now s).host = s.host ∧
    (debounced now s).origCalls = s.origCalls ∧ (debounced now s).reports = s.reports ∧
    (debounced now s).dispatched = s.dispatched := by
  unfold debounced
  cases h : s.timeout <;> simp [h, setTimeout]

theorem send_fields {σ : Type} (msg : Msg) (now : Int) (s : State σ) :
    (send msg now s).heap = s.heap ∧ (send msg now s).skip_monitoring = s.skip_monitoring ∧
    (send msg now s).messages = s.messages ++ [msg] ∧ (send msg now s).host = s.host ∧
    (send msg now s).origCalls = s.origCalls ∧ (send msg now s).reports = s.reports ∧
    (send msg now s).dispatched = s.dispatched := by
  unfold send
  obtain ⟨h1, h2, h3, h4, h5, h6, h7⟩ := debounced_fields now { s with messages := s.messages ++ [msg] }
  exact ⟨h1, h2, h3, h4, h5, h6, h7⟩

theorem restoreOrSkip_fields {σ : Type} (env : Env σ) (t : TrapTarget) (this : Nat)
    (s : State σ) :
    (restoreOrSkip env t this s).messages = s.messages ∧
    (restoreOrSkip env t this s).host = s.host ∧
    (restoreOrSkip env t this s).origCalls = s.origCalls ∧
    (restoreOrSkip env t this s).reports = s.reports ∧
    (restoreOrSkip env t this s).dispatched = s.dispatched ∧
    (restoreOrSkip env t this s).timers = s.timers ∧
    (restoreOrSkip env t this s).timeout = s.timeout := by
  unfold restoreOrSkip
  split <;> simp

theorem tooShort_of {σ : Type} (env : Env σ) (a0 : Val)
    (h : truthy a0 = false ∨ ∃ n, lengthOf env a0 = some n ∧ n < 5) :
    tooShort env a0 = true := by
  unfold tooShort
  rcases h with h | ⟨n, hn, hlt⟩
  · simp [h]
  · simp [hn, hlt]

/-- On the reporting path with a resolver and an extractor that return, the
wrapper is `send`, then lines 220-231, then the call of the original. -/
theorem wrapped_report {σ : Type} (env : Env σ) (t : TrapTarget) (this : Nat)
    (args : List Val) (ctx : CallCtx) (s : State σ) (u : Val) (x : Option Extra)
    (hpath : (is_canvas_write (item t) &&
      (s.skip_monitoring t || tooShort env (args.getD 0 .undefined))) = false)
    (hres : resolve env ctx = .ok u)
    (hext : runExtra (item t) (getProp env s.heap) this args = .ok x) :
    wrapped env t this args ctx s =
      applyOrig env t this args
        (if is_canvas_write (item t) then
          restoreOrSkip env t this
            (send ⟨(item t).objName, (item t).propName, u, x⟩ ctx.now
              { s with reports := s.reports ++ [(t, this)] })
        else
          send ⟨(item t).objName, (item t).propName, u, x⟩ ctx.now
            { s with reports := s.reports ++ [(t, this)] }) := by
  unfold wrapped
  simp only [hpath, hres, hext]
  simp

/-- On the reporting path an exception of the resolver or of the extractor
leaves the wrapper. -/
theorem wrapped_propagates {σ : Type} (env : Env σ) (t : TrapTarget)
    (this : Nat) (args : List Val) (ctx : CallCtx) (s : State σ) (e : Exn)
    (hpath : (is_canvas_write (item t) &&
      (s.skip_monitoring t || tooShort env (args.getD 0 .undefined))) = false)
    (hfail : resolve env ctx = .error e ∨
      ((∃ u, resolve env ctx = .ok u) ∧
        runExtra (item t) (getProp env s.heap) this args = .error e)) :
    wrapped env t this args ctx s = (.error e, s) := by
  unfold wrapped
  simp only [hpath]
  rcases hfail with h | ⟨⟨u, hu⟩, hx⟩
  · simp [h]
  · simp [hu, hx]

/-- On the bypass path the wrapper is the call of the original. -/
theorem wrapped_bypass {σ : Type} (env : Env σ) (t : TrapTarget) (this : Nat)
    (args : List Val) (ctx : CallCtx) (s : State σ)
    (hpath : (is_canvas_write (item t) &&
      (s.skip_monitoring t || tooShort env (args.getD 0 .undefined))) = true) :
    wrapped env t this args ctx s = applyOrig env t this args s := by
  unfold wrapped
  simp only [hpath]
  simp

/-! ## The wrapper forwards to the original -/

/-- C1: for every trap target, receiver and argument list, when the resolver
and the extractor do not throw, one call of `wrapped` invokes the captured
original exactly once (the log of invocations grows by exactly the entry for
this target, receiver and arguments), on the host state of the call, and
returns exactly the original's result, on every branch. -/
theorem wrapped_forwards_once {σ : Type} (env : Env σ) (t : TrapTarget) (this : Nat)
    (args : List Val) (ctx : CallCtx) (s : State σ)
    (hres : ∃ u, resolve env ctx = .ok u)
    (hext : ∃ x, runExtra (item t) (getProp env s.heap) this args = .ok x) :
    (wrapped env t this args ctx s).2.origCalls = s.origCalls ++ [⟨t, this, args⟩] ∧
    (wrapped env t this args ctx s).1 = (env.origImpl t this args s.host).1 ∧
    (wrapped env t this args ctx s).2.host = (env.origImpl t this args s.host).2 := by
  obtain ⟨u, hu⟩ := hres
  obtain ⟨x, hx⟩ := hext
  cases hpath : (is_canvas_write (item t) &&
      (s.skip_monitoring t || tooShort env (args.getD 0 .undefined)))
  · rw [wrapped_report env t this args ctx s u x hpath hu hx]
    cases hw : is_canvas_write (item t)
    · have hs := send_fields ⟨(item t).objName, (item t).propName, u, x⟩ ctx.now
        { s with reports := s.reports ++ [(t, this)] }
      simp [applyOrig, hs.2.2.2.1, hs.2.2.2.2.1]
    · have hs := send_fields ⟨(item t).objName, (item t).propName, u, x⟩ ctx.now
        { s with reports := s.reports ++ [(t, this)] }
      have hr := restoreOrSkip_fields env t this
        (send ⟨(item t).objName, (item t).propName, u, x⟩ ctx.now
          { s with reports := s.reports ++ [(t, this)] })
      simp [applyOrig, hs.2.2.2.1, hs.2.2.2.2.1, hr.2.1, hr.2.2.1]
  · rw [wrapped_bypass env t this args ctx s hpath]
    simp [applyOrig]

/-- Witness for C1: a reported `fillText("hello world")` on a fresh context. -/
theorem wrapped_forwards_once_witness :
    (wrapped sampleEnv .fillText 2 [.str "hello world"] sampleCtx (installed 0)).2.origCalls
      = (installed 0).origCalls ++ [⟨.fillText, 2, [.str "hello world"]⟩] ∧
    (wrapped sampleEnv .fillText 2 [.str "hello world"] sampleCtx (installed 0)).1
      = (sampleEnv.origImpl .fillText 2 [.str "hello world"] (installed 0).host).1 ∧
    (wrapped sampleEnv .fillText 2 [.str "hello world"] sampleCtx (installed 0)).2.host
      = (sampleEnv.origImpl .fillText 2 [.str "hello world"] (installed 0).host).2 :=
  wrapped_forwards_once sampleEnv .fillText 2 [.str "hello world"] sampleCtx (installed 0)
    ⟨.str "http://h/a.js", by decide⟩ ⟨some ⟨true, none, none⟩, by decide⟩

/-! ## Failures of the reporting path -/

/-- C2, counterexample: `getImageData` with the width omitted on a receiver
whose `canvas` is `undefined`.  The extractor throws a `TypeError`; the call
of `wrapped` ends with that `TypeError` and the original is not invoked. -/
theorem extractor_failure_reaches_caller :
    runExtra (item .getImageData) (getProp sampleEnv (installed 0).heap) 2 [.num 0, .num 0]
      = .error .typeError ∧
    (wrapped sampleEnv .getImageData 2 [.num 0, .num 0] sampleCtx (installed 0)).1
      = .error .typeError ∧
    (wrapped sampleEnv .getImageData 2 [.num 0, .num 0] sampleCtx (installed 0)).2.origCalls
      = [] := by
  decide

/-- C2, amended: on a call that is not bypassed, when the resolver throws `e`,
or the resolver returns and the extractor throws `e`, `wrapped` ends with the
exception `e` and leaves the state as it was: the original is not invoked and
no record is enqueued. -/
theorem wrapped_propagates_reporting_failure {σ : Type} (env : Env σ) (t : TrapTarget)
    (this : Nat) (args : List Val) (ctx : CallCtx) (s : State σ) (e : Exn)
    (hpath : (is_canvas_write (item t) &&
      (s.skip_monitoring t || tooShort env (args.getD 0 .undefined))) = false)
    (hfail : resolve env ctx = .error e ∨
      ((∃ u, resolve env ctx = .ok u) ∧
        runExtra (item t) (getProp env s.heap) this args = .error e)) :
    wrapped env t this args ctx s = (.error e, s) :=
  wrapped_propagates env t this args ctx s e hpath hfail

/-- Witness for the amended C2: the failing extractor of `getImageData`. -/
theorem wrapped_propagates_reporting_failure_witness :
    wrapped sampleEnv .getImageData 2 [.num 0, .num 0] sampleCtx (installed 0)
      = (.error .typeError, installed 0) :=
  wrapped_propagates_reporting_failure sampleEnv .getImageData 2 [.num 0, .num 0] sampleCtx
    (installed 0) .typeError (by decide)
    (Or.inr ⟨⟨.str "http://h/a.js", by decide⟩, by decide⟩)

/-! ## The resolvers on short or unparsable traces -/

/-- C3, the code at the failing inputs: on a structured trace of exactly two
call sites the length test `trace.length < 2` passes and `trace[2].isEval`
raises a `TypeError`; on a string trace of fewer than five lines
`trace[4].match` raises a `TypeError`; and a `getImageData` call made with
such a two-frame trace ends with that `TypeError`. -/
theorem getOriginatingScriptUrl_throws_on_short_trace :
    (∀ a b : CallSite, getOriginatingScriptUrl (.structured [a, b]) = .error .typeError) ∧
    getOriginatingScriptUrl (.text "Error\n at a\n at b\n at c") = .error .typeError ∧
    (wrapped sampleEnv .getImageData 2 [.num 0, .num 0, .num 1, .num 1] shallowCtx
      (installed 0)).1 = .error .typeError := by
  refine ⟨fun a b => rfl, by decide, by decide⟩

/-- C4, counterexample: an eval frame whose origin holds a `file:` location has
no `(http...:<line>:<col>` match, and the structured resolver returns the whole
eval origin, not the empty string. -/
theorem unparsed_eval_origin_is_returned :
    jsMatch httpUrlRe "eval at f (file:///a.js:1:2)" = none ∧
    getOriginatingScriptUrl
        (.structured [ownFrame, ownFrame, ⟨true, "eval at f (file:///a.js:1:2)", .undefined⟩])
      = .ok (.str "eval at f (file:///a.js:1:2)") := by
  decide

/-- C4, amended: on a trace that is deep enough, when the caller's frame cannot
be parsed, the fallback resolver returns the empty string, and the structured
resolver returns the unparsed text (the eval origin of the frame at index 2, or
the line at index 4 of a string trace) after `stripLineAndColumnNumbers`. -/
theorem resolver_on_unparsed_frame (lines : List String) (line : String)
    (frames : List CallSite) (callSite : CallSite) (stack : String) (line4 : String) :
    (lines.get? 3 = some line → jsMatch geckoCallSiteRe line = none →
      getOriginatingScriptUrlFirefox lines = "") ∧
    (frames.get? 2 = some callSite → callSite.isEval = true →
      jsMatch httpUrlRe callSite.getEvalOrigin = none →
      getOriginatingScriptUrl (.structured frames)
        = .ok (.str (stripLineAndColumnNumbers callSite.getEvalOrigin))) ∧
    ((jsSplitLines stack).get? 4 = some line4 → jsMatch httpUrlRe line4 = none →
      getOriginatingScriptUrl (.text stack) = .ok (.str (stripLineAndColumnNumbers line4))) := by
  refine ⟨?_, ?_, ?_⟩
  · intro h3 hm
    unfold getOriginatingScriptUrlFirefox
    rw [h3]
    simp only [hm]
    split <;> rfl
  · intro h2 he hm
    have hlen : ¬ frames.length < 2 := by
      intro hlt
      have : frames.get? 2 = none := List.get?_eq_none.mpr (by omega)
      rw [this] at h2
      exact Option.noConfusion h2
    unfold getOriginatingScriptUrl
    simp only [hlen, if_false]
    rw [h2]
    simp only [he, if_true, urlOrStripped, hm]
  · intro h4 hm
    unfold getOriginatingScriptUrl
    simp only []
    rw [h4]
    simp only [urlOrStripped, hm]

/-- Witness for the amended C4: an unparsable fallback line, an eval origin and
a string-trace line without an `http` location. -/
theorem resolver_on_unparsed_frame_witness :
    getOriginatingScriptUrlFirefox ["a", "b", "c", "f@about:blank"] = "" ∧
    getOriginatingScriptUrl
        (.structured [ownFrame, ownFrame, ⟨true, "eval at f (file:///a.js:1:2)", .undefined⟩])
      = .ok (.str (stripLineAndColumnNumbers "eval at f (file:///a.js:1:2)")) ∧
    getOriginatingScriptUrl (.text "Error\n at a\n at b\n at c\n at d (native)")
      = .ok (.str (stripLineAndColumnNumbers " at d (native)")) :=
  ⟨(resolver_on_unparsed_frame ["a", "b", "c", "f@about:blank"] "f@about:blank"
      [] ownFrame "" "").1 (by decide) (by decide),
    (resolver_on_unparsed_frame [] ""
      [ownFrame, ownFrame, ⟨true, "eval at f (file:///a.js:1:2)", .undefined⟩]
      ⟨true, "eval at f (file:///a.js:1:2)", .undefined⟩ "" "").2.1
      (by decide) (by decide) (by decide),
    (resolver_on_unparsed_frame [] "" [] ownFrame
      "Error\n at a\n at b\n at c\n at d (native)" " at d (native)").2.2
      (by decide) (by decide)⟩

/-! ## The bypass of short text -/

/-- C5: for a text-draw trap, every receiver and every call whose first
argument is absent or falsy or has a length below 5, `wrapped` is the call of
the original and nothing else: the queue, the timers and the debounce
variables, `skip_monitoring`, every property, the events dispatched and the log
of reports are unchanged, and the result is the original's result. -/
theorem short_text_bypass {σ : Type} (env : Env σ) (t : TrapTarget) (this : Nat)
    (args : List Val) (ctx : CallCtx) (s : State σ)
    (ht : t = .fillText ∨ t = .strokeText)
    (hshort : truthy (args.getD 0 .undefined) = false ∨
      ∃ n, lengthOf env (args.getD 0 .undefined) = some n ∧ n < 5) :
    wrapped env t this args ctx s = applyOrig env t this args s ∧
    (wrapped env t this args ctx s).1 = (env.origImpl t this args s.host).1 ∧
    (wrapped env t this args ctx s).2.messages = s.messages ∧
    (wrapped env t this args ctx s).2.timers = s.timers ∧
    (wrapped env t this args ctx s).2.nextTimer = s.nextTimer ∧
    (wrapped env t this args ctx s).2.timeout = s.timeout ∧
    (wrapped env t this args ctx s).2.timestamp = s.timestamp ∧
    (wrapped env t this args ctx s).2.skip_monitoring = s.skip_monitoring ∧
    (wrapped env t this args ctx s).2.heap = s.heap ∧
    (wrapped env t this args ctx s).2.dispatched = s.dispatched ∧
    (wrapped env t this args ctx s).2.reports = s.reports := by
  have hw : is_canvas_write (item t) = true := (is_canvas_write_iff t).mpr ht
  have hs : tooShort env (args.getD 0 .undefined) = true := tooShort_of env _ hshort
  have hpath : (is_canvas_write (item t) &&
      (s.skip_monitoring t || tooShort env (args.getD 0 .undefined))) = true := by
    rw [hw, hs]
    simp
  rw [wrapped_bypass env t this args ctx s hpath]
  simp [applyOrig]

/-- Witness for C5: `strokeText("abc")` and `fillText()` on a fresh context. -/
theorem short_text_bypass_witness :
    (wrapped sampleEnv .strokeText 2 [.str "abc"] sampleCtx (installed 0)).2.messages = [] ∧
    (wrapped sampleEnv .fillText 2 [] sampleCtx (installed 0)).2.messages = [] :=
  ⟨(short_text_bypass sampleEnv .strokeText 2 [.str "abc"] sampleCtx (installed 0)
      (Or.inr rfl) (Or.inr ⟨3, by decide, by decide⟩)).2.2.1,
    (short_text_bypass sampleEnv .fillText 2 [] sampleCtx (installed 0)
      (Or.inl rfl) (Or.inl (by decide))).2.2.1⟩

/-! ## Lemmas on sequences of events -/

theorem applyOrig_fields {σ : Type} (env : Env σ) (t : TrapTarget) (this : Nat)
    (args : List Val) (s : State σ) :
    (applyOrig env t this args s).2.heap = s.heap ∧
    (applyOrig env t this args s).2.skip_monitoring = s.skip_monitoring ∧
    (applyOrig env t this args s).2.messages = s.messages ∧
    (applyOrig env t this args s).2.reports = s.reports ∧
    (applyOrig env t this args s).2.dispatched = s.dispatched ∧
    (applyOrig env t this args s).2.timers = s.timers ∧
    (applyOrig env t this args s).2.timeout = s.timeout := by
  simp [applyOrig]

/-- The state reached on the reporting path, before the original is called. -/
theorem wrapped_cases {σ : Type} (env : Env σ) (t : TrapTarget) (this : Nat)
    (args : List Val) (ctx : CallCtx) (s : State σ) :
    wrapped env t this args ctx s = applyOrig env t this args s ∨
    (∃ e, wrapped env t this args ctx s = (.error e, s)) ∨
    (∃ u x, (is_canvas_write (item t) &&
        (s.skip_monitoring t || tooShort env (args.getD 0 .undefined))) = false ∧
      wrapped env t this args ctx s =
        applyOrig env t this args
          (if is_canvas_write (item t) then
            restoreOrSkip env t this
              (send ⟨(item t).objName, (item t).propName, u, x⟩ ctx.now
                { s with reports := s.reports ++ [(t, this)] })
          else
            send ⟨(item t).objName, (item t).propName, u, x⟩ ctx.now
              { s with reports := s.reports ++ [(t, this)] })) := by
  cases hpath : (is_canvas_write (item t) &&
      (s.skip_monitoring t || tooShort env (args.getD 0 .undefined)))
  · cases hres : resolve env ctx with
    | error e =>
      exact Or.inr (Or.inl ⟨e, wrapped_propagates env t this args ctx s e hpath (Or.inl hres)⟩)
    | ok u =>
      cases hext : runExtra (item t) (getProp env s.heap) this args with
      | error e =>
        exact Or.inr (Or.inl ⟨e,
          wrapped_propagates env t this args ctx s e hpath (Or.inr ⟨⟨u, hres⟩, hext⟩)⟩)
      | ok x =>
        exact Or.inr (Or.inr ⟨u, x, rfl, wrapped_report env t this args ctx s u x hpath hres hext⟩)
  · exact Or.inl (wrapped_bypass env t this args ctx s hpath)

theorem propName_injective (t t' : TrapTarget) (h : (item t).propName = (item t').propName) :
    t = t' := by
  cases t <;> cases t' <;> first | rfl | (exact absurd h (by decide))

/-- A call of `wrapped` never resets a `skip_monitoring` that is true. -/
theorem wrapped_skip_mono {σ : Type} (env : Env σ) (t t' : TrapTarget) (this : Nat)
    (args : List Val) (ctx : CallCtx) (s : State σ) (h : s.skip_monitoring t = true) :
    (wrapped env t' this args ctx s).2.skip_monitoring t = true := by
  rcases wrapped_cases env t' this args ctx s with hw | ⟨e, hw⟩ | ⟨u, x, -, hw⟩
  · rw [hw, (applyOrig_fields env t' this args s).2.1]; exact h
  · rw [hw]; exact h
  · rw [hw, (applyOrig_fields env t' this args _).2.1]
    have hs := send_fields ⟨(item t').objName, (item t').propName, u, x⟩ ctx.now
      { s with reports := s.reports ++ [(t', this)] }
    split
    · unfold restoreOrSkip
      split
      · simp only [hs.2.1]; exact h
      · simp only [hs.2.1]
        split
        · rfl
        · exact h
    · rw [hs.2.1]; exact h

theorem later_skip {σ : Type} (now : Int) (s : State σ) :
    (later now s).skip_monitoring = s.skip_monitoring := by
  unfold later
  simp only []
  split <;> rfl

theorem step_skip_mono {σ : Type} (env : Env σ) (t : TrapTarget) (e : Event) (s : State σ)
    (h : s.skip_monitoring t = true) : (step env e s).skip_monitoring t = true := by
  cases e with
  | direct t' this args ctx => exact wrapped_skip_mono env t t' this args ctx s h
  | viaProp t' this args ctx =>
    simp only [step, callMethod]
    split
    · exact wrapped_skip_mono env t _ this args ctx s h
    · rw [(applyOrig_fields env _ this args s).2.1]; exact h
    · exact h
    · exact h
  | assign o p v => exact h
  | fire id now =>
    simp only [step, fireTimer]
    split
    · rw [later_skip]; exact h
    · exact h

theorem run_skip_mono {σ : Type} (env : Env σ) (t : TrapTarget) (es : List Event)
    (s : State σ) (h : s.skip_monitoring t = true) :
    (run env es s).skip_monitoring t = true := by
  induction es generalizing s with
  | nil => exact h
  | cons e es ih => exact ih (step env e s) (step_skip_mono env t e s h)

theorem not_tooShort_of {σ : Type} (env : Env σ) (a0 : Val)
    (h : ∃ n, lengthOf env a0 = some n ∧ 5 ≤ n) : tooShort env a0 = false := by
  obtain ⟨n, hn, hge⟩ := h
  have hlt : ¬ n < 5 := by omega
  cases a0 with
  | undefined => simp [lengthOf] at hn
  | null => simp [lengthOf] at hn
  | bool b => simp [lengthOf] at hn
  | num k => simp [lengthOf] at hn
  | str str =>
    have hne : str ≠ "" := by
      rintro rfl
      simp [lengthOf, utf16Length] at hn
      omega
    simp [tooShort, truthy, hne, hn, hlt]
  | obj o => simp [tooShort, truthy, hn, hlt]
  | fn f => simp [tooShort, truthy, hn, hlt]

theorem findOwn_set_self (h : Heap) (o : Nat) (p : String) (v : Val) (l : List Nat) :
    findOwn (h.set o p v) p (o :: l) = v := by
  simp [findOwn, Heap.set]

theorem getProp_set_self {σ : Type} (env : Env σ) (h : Heap) (o : Nat) (p : String) (v : Val) :
    getProp env (h.set o p v) o p = v :=
  findOwn_set_self h o p v _

/-- A reporting call of a text-draw wrapper whose receiver's method is `wrapped`:
the record is enqueued and the original is assigned to the receiver's property. -/
theorem wrapped_restore {σ : Type} (env : Env σ) (t : TrapTarget) (r : Nat)
    (args : List Val) (ctx : CallCtx) (s : State σ) (u : Val)
    (ht : t = .fillText ∨ t = .strokeText)
    (hpath : (s.skip_monitoring t || tooShort env (args.getD 0 .undefined)) = false)
    (hres : resolve env ctx = .ok u)
    (hself : getProp env s.heap r (item t).propName = .fn (.wrapped t)) :
    (wrapped env t r args ctx s).2.messages
      = s.messages ++ [⟨(item t).objName, (item t).propName, u, some ⟨true, none, none⟩⟩] ∧
    (wrapped env t r args ctx s).2.reports = s.reports ++ [(t, r)] ∧
    (wrapped env t r args ctx s).2.heap
      = assign env s.heap r (item t).propName (.fn (.orig t)) ∧
    (wrapped env t r args ctx s).2.skip_monitoring = s.skip_monitoring := by
  have hw : is_canvas_write (item t) = true := (is_canvas_write_iff t).mpr ht
  have hp : (is_canvas_write (item t) &&
      (s.skip_monitoring t || tooShort env (args.getD 0 .undefined))) = false := by
    rw [hpath]; simp
  rw [wrapped_report env t r args ctx s u _ hp hres (runExtra_text t ht _ r args)]
  have hs := send_fields ⟨(item t).objName, (item t).propName, u, some ⟨true, none, none⟩⟩
    ctx.now { s with reports := s.reports ++ [(t, r)] }
  obtain ⟨h1, h2, h3, h4, h5, h6, h7⟩ := hs
  simp only [hw, if_true, applyOrig]
  unfold restoreOrSkip
  rw [h1]
  simp only [hself, if_true, h1, h2, h3, h6]
  exact ⟨trivial, trivial, trivial, trivial⟩

/-- A reporting call of a text-draw wrapper whose receiver's method is not
`wrapped`: the record is enqueued, no property is written and the installation
is suppressed. -/
theorem wrapped_mismatch {σ : Type} (env : Env σ) (t : TrapTarget) (r : Nat)
    (args : List Val) (ctx : CallCtx) (s : State σ) (u : Val)
    (ht : t = .fillText ∨ t = .strokeText)
    (hpath : (s.skip_monitoring t || tooShort env (args.getD 0 .undefined)) = false)
    (hres : resolve env ctx = .ok u)
    (hmis : getProp env s.heap r (item t).propName ≠ .fn (.wrapped t)) :
    (wrapped env t r args ctx s).2.messages
      = s.messages ++ [⟨(item t).objName, (item t).propName, u, some ⟨true, none, none⟩⟩] ∧
    (wrapped env t r args ctx s).2.reports = s.reports ++ [(t, r)] ∧
    (wrapped env t r args ctx s).2.heap = s.heap ∧
    (wrapped env t r args ctx s).2.skip_monitoring t = true := by
  have hw : is_canvas_write (item t) = true := (is_canvas_write_iff t).mpr ht
  have hp : (is_canvas_write (item t) &&
      (s.skip_monitoring t || tooShort env (args.getD 0 .undefined))) = false := by
    rw [hpath]; simp
  rw [wrapped_report env t r args ctx s u _ hp hres (runExtra_text t ht _ r args)]
  have hs := send_fields ⟨(item t).objName, (item t).propName, u, some ⟨true, none, none⟩⟩
    ctx.now { s with reports := s.reports ++ [(t, r)] }
  obtain ⟨h1, h2, h3, h4, h5, h6, h7⟩ := hs
  simp only [hw, if_true, applyOrig]
  unfold restoreOrSkip
  rw [h1]
  simp only [hmis, if_false, h1, h3, h6]
  refine ⟨trivial, trivial, trivial, ?_⟩
  simp

/-- A suppressed text-draw wrapper is the call of the original. -/
theorem wrapped_suppressed {σ : Type} (env : Env σ) (t : TrapTarget) (r : Nat)
    (args : List Val) (ctx : CallCtx) (s : State σ)
    (ht : t = .fillText ∨ t = .strokeText) (hskip : s.skip_monitoring t = true) :
    wrapped env t r args ctx s = applyOrig env t r args s := by
  apply wrapped_bypass
  rw [(is_canvas_write_iff t).mpr ht, hskip]
  simp

theorem callMethod_wrapped {σ : Type} (env : Env σ) (t t' : TrapTarget) (r : Nat)
    (args : List Val) (ctx : CallCtx) (s : State σ)
    (h : getProp env s.heap r (item t).propName = .fn (.wrapped t')) :
    callMethod env t r args ctx s = wrapped env t' r args ctx s := by
  simp only [callMethod, h]

theorem callMethod_orig {σ : Type} (env : Env σ) (t t' : TrapTarget) (r : Nat)
    (args : List Val) (ctx : CallCtx) (s : State σ)
    (h : getProp env s.heap r (item t).propName = .fn (.orig t')) :
    callMethod env t r args ctx s = applyOrig env t' r args s := by
  simp only [callMethod, h]

/-- Once the receiver's method is an original, calls through the property only
run that original. -/
theorem run_viaProp_restored {σ : Type} (env : Env σ) (t t' : TrapTarget) (r : Nat)
    (calls : List (List Val × CallCtx)) (s : State σ)
    (h : getProp env s.heap r (item t).propName = .fn (.orig t')) :
    (run env (calls.map (fun c => Event.viaProp t r c.1 c.2)) s).messages = s.messages ∧
    (run env (calls.map (fun c => Event.viaProp t r c.1 c.2)) s).reports = s.reports ∧
    (run env (calls.map (fun c => Event.viaProp t r c.1 c.2)) s).heap = s.heap ∧
    (run env (calls.map (fun c => Event.viaProp t r c.1 c.2)) s).skip_monitoring
      = s.skip_monitoring := by
  induction calls generalizing s with
  | nil => exact ⟨rfl, rfl, rfl, rfl⟩
  | cons c calls ih =>
    have hstep : step env (Event.viaProp t r c.1 c.2) s = (applyOrig env t' r c.1 s).2 := by
      simp only [step, callMethod_orig env t t' r c.1 c.2 s h]
    have hf := applyOrig_fields env t' r c.1 s
    have ih' := ih (step env (Event.viaProp t r c.1 c.2) s) (by rw [hstep, hf.1]; exact h)
    simp only [List.map_cons, run, List.foldl_cons] at ih' ⊢
    rw [hstep] at ih' ⊢
    obtain ⟨i1, i2, i3, i4⟩ := ih'
    exact ⟨i1.trans hf.2.2.1, i2.trans hf.2.2.2.1, i3.trans hf.1, i4.trans hf.2.1⟩

/-! ## One report per receiver through its property -/

/-- C6, counterexample: on the suppressed page, context 2 is fresh (no own
`fillText`, its method resolves to `wrapped`), and `fillText("hello world")`
through it enqueues no record and leaves its method equal to `wrapped`. -/
theorem fresh_receiver_silent_when_suppressed :
    suppressedState.heap 2 "fillText" = none ∧
    getProp sampleEnv suppressedState.heap 2 "fillText" = .fn (.wrapped .fillText) ∧
    (callMethod sampleEnv .fillText 2 helloArgs sampleCtx suppressedState).2.messages
      = suppressedState.messages ∧
    getProp sampleEnv
        (callMethod sampleEnv .fillText 2 helloArgs sampleCtx suppressedState).2.heap 2 "fillText"
      = .fn (.wrapped .fillText) := by
  decide

/-- On the page that has frozen context 6, the assignment of line 227 is
ignored: the method of context 6 still resolves to `wrapped` after a reported
call, and three calls of `fillText("hello world")` through context 6 enqueue
three records. -/
theorem frozen_receiver_reports_every_call :
    frozenEnv.frozen 6 = true ∧
    (installed (0 : Nat)).heap 6 "fillText" = none ∧
    getProp frozenEnv (installed 0).heap 6 "fillText" = .fn (.wrapped .fillText) ∧
    getProp frozenEnv
        (callMethod frozenEnv .fillText 6 helloArgs sampleCtx (installed 0)).2.heap 6 "fillText"
      = .fn (.wrapped .fillText) ∧
    (run frozenEnv
        [.viaProp .fillText 6 helloArgs sampleCtx, .viaProp .fillText 6 helloArgs sampleCtx,
          .viaProp .fillText 6 helloArgs sampleCtx]
        (installed 0)).messages.length = 3 ∧
    (run frozenEnv
        [.viaProp .fillText 6 helloArgs sampleCtx, .viaProp .fillText 6 helloArgs sampleCtx,
          .viaProp .fillText 6 helloArgs sampleCtx]
        (installed 0)).skip_monitoring .fillText = false := by
  decide

theorem assign_of_assignable {σ : Type} (env : Env σ) (h : Heap) (o : Nat) (p : String)
    (v : Val) (hw : assignable env h o p = true) : assign env h o p v = h.set o p v := by
  unfold assign
  rw [if_pos hw]

/-- C6, amended: for a text-draw trap that is not suppressed and a receiver
whose method resolves to `wrapped` (a fresh receiver) and on which the
assignment of that method takes effect (the receiver is extensible and not
frozen, the property it inherits is writable), a call through the receiver
with a first argument of length at least 5, for which the resolver returns
`u`, enqueues exactly one record, and afterwards the receiver's method is the
original; that call followed by any further calls through the receiver's
property enqueues exactly that one record in total. -/
theorem fresh_receiver_reports_once {σ : Type} (env : Env σ) (t : TrapTarget) (r : Nat)
    (args : List Val) (ctx : CallCtx) (s : State σ) (u : Val)
    (calls : List (List Val × CallCtx))
    (ht : t = .fillText ∨ t = .strokeText)
    (hskip : s.skip_monitoring t = false)
    (hfresh : getProp env s.heap r (item t).propName = .fn (.wrapped t))
    (hwrite : assignable env s.heap r (item t).propName = true)
    (hlen : ∃ n, lengthOf env (args.getD 0 .undefined) = some n ∧ 5 ≤ n)
    (hres : resolve env ctx = .ok u) :
    (callMethod env t r args ctx s).2.messages
      = s.messages ++ [⟨(item t).objName, (item t).propName, u, some ⟨true, none, none⟩⟩] ∧
    getProp env (callMethod env t r args ctx s).2.heap r (item t).propName = .fn (.orig t) ∧
    (run env (Event.viaProp t r args ctx :: calls.map (fun c => Event.viaProp t r c.1 c.2))
        s).messages
      = s.messages ++ [⟨(item t).objName, (item t).propName, u, some ⟨true, none, none⟩⟩] ∧
    (run env (Event.viaProp t r args ctx :: calls.map (fun c => Event.viaProp t r c.1 c.2))
        s).reports
      = s.reports ++ [(t, r)] := by
  have hpath : (s.skip_monitoring t || tooShort env (args.getD 0 .undefined)) = false := by
    rw [hskip, not_tooShort_of env _ hlen]; rfl
  have hcall := callMethod_wrapped env t t r args ctx s hfresh
  obtain ⟨hm, hr, hh, -⟩ := wrapped_restore env t r args ctx s u ht hpath hres hfresh
  have horig : getProp env (callMethod env t r args ctx s).2.heap r (item t).propName
      = .fn (.orig t) := by
    rw [hcall, hh, assign_of_assignable env _ _ _ _ hwrite]
    exact getProp_set_self env _ _ _ _
  obtain ⟨rm, rr, -, -⟩ := run_viaProp_restored env t t r calls
    (callMethod env t r args ctx s).2 horig
  refine ⟨by rw [hcall]; exact hm, horig, ?_, ?_⟩
  · show (run env _ (callMethod env t r args ctx s).2).messages = _
    rw [rm, hcall]; exact hm
  · show (run env _ (callMethod env t r args ctx s).2).reports = _
    rw [rr, hcall]; exact hr

/-- Witness for the amended C6: `strokeText("hello world")` twice on the fresh
context 2 of the installed page. -/
theorem fresh_receiver_reports_once_witness :
    (run sampleEnv
        [.viaProp .strokeText 2 helloArgs sampleCtx, .viaProp .strokeText 2 helloArgs sampleCtx]
        (installed 0)).messages
      = [⟨"CanvasRenderingContext2D.prototype", "strokeText", .str "http://h/a.js",
          some ⟨true, none, none⟩⟩] :=
  (fresh_receiver_reports_once sampleEnv .strokeText 2 helloArgs sampleCtx (installed 0)
    (.str "http://h/a.js") [(helloArgs, sampleCtx)] (Or.inr rfl) (by decide) (by decide)
    (by decide) ⟨11, by decide, by decide⟩ (by decide)).2.2.1

/-! ## Suppression after a mismatch -/

/-- C7: for a text-draw installation, a reporting call that finds the
receiver's method different from `wrapped` sets `skip_monitoring` and writes no
property; after any further events (calls of any wrapper, directly or through
a property, assignments by other actors, timers) `skip_monitoring` is still
true, and every call of the installation's wrapper, on any receiver and with
any arguments, is exactly the call of the original: no record, no property
written. -/
theorem mismatch_suppresses_forever {σ : Type} (env : Env σ) (t : TrapTarget) (r : Nat)
    (args : List Val) (ctx : CallCtx) (s : State σ) (u : Val)
    (es : List Event) (r' : Nat) (args' : List Val) (ctx' : CallCtx)
    (ht : t = .fillText ∨ t = .strokeText)
    (hpath : (s.skip_monitoring t || tooShort env (args.getD 0 .undefined)) = false)
    (hres : resolve env ctx = .ok u)
    (hmis : getProp env s.heap r (item t).propName ≠ .fn (.wrapped t)) :
    (wrapped env t r args ctx s).2.skip_monitoring t = true ∧
    (wrapped env t r args ctx s).2.heap = s.heap ∧
    (run env es (wrapped env t r args ctx s).2).skip_monitoring t = true ∧
    wrapped env t r' args' ctx' (run env es (wrapped env t r args ctx s).2)
      = applyOrig env t r' args' (run env es (wrapped env t r args ctx s).2) ∧
    (wrapped env t r' args' ctx' (run env es (wrapped env t r args ctx s).2)).2.messages
      = (run env es (wrapped env t r args ctx s).2).messages ∧
    (wrapped env t r' args' ctx' (run env es (wrapped env t r args ctx s).2)).2.heap
      = (run env es (wrapped env t r args ctx s).2).heap := by
  obtain ⟨-, -, hh, hs⟩ := wrapped_mismatch env t r args ctx s u ht hpath hres hmis
  have hrun := run_skip_mono env t es _ hs
  have hw := wrapped_suppressed env t r' args' ctx' _ ht hrun
  refine ⟨hs, hh, hrun, hw, ?_, ?_⟩
  · rw [hw]; exact (applyOrig_fields env t r' args' _).2.2.1
  · rw [hw]; exact (applyOrig_fields env t r' args' _).1

/-- Witness for C7: context 4 carries a foreign `fillText`; after the reporting
call on it, a timer and a call on the fresh context 2, `fillText` is still
suppressed. -/
theorem mismatch_suppresses_forever_witness :
    (run sampleEnv [.fire 1 1200, .viaProp .fillText 2 helloArgs sampleCtx]
      (wrapped sampleEnv .fillText 4 helloArgs sampleCtx
        (step sampleEnv (.assign 4 "fillText" (.fn (.foreign 7))) (installed 0))).2).skip_monitoring
      .fillText = true :=
  (mismatch_suppresses_forever sampleEnv .fillText 4 helloArgs sampleCtx
    (step sampleEnv (.assign 4 "fillText" (.fn (.foreign 7))) (installed 0))
    (.str "http://h/a.js") [.fire 1 1200, .viaProp .fillText 2 helloArgs sampleCtx]
    2 helloArgs sampleCtx (Or.inl rfl) (by decide) (by decide) (by decide)).2.2.1

/-! ## Suppression without another actor -/

/-- C8, the code at the failing input: on the installed page no other actor
assigns anything; `fillText("hello world")` through the fresh context 2 makes
the installer write the original on context 2, and a second application of the
wrapper to context 2 then finds a method that is not `wrapped` and sets
`skip_monitoring`. -/
theorem skip_set_after_own_restore :
    (run sampleEnv [.viaProp .fillText 2 helloArgs sampleCtx] (installed 0)).heap 2 "fillText"
      = some (.fn (.orig .fillText)) ∧
    (run sampleEnv [.viaProp .fillText 2 helloArgs sampleCtx]
      (installed 0)).skip_monitoring .fillText = false ∧
    (run sampleEnv
      [.viaProp .fillText 2 helloArgs sampleCtx, .direct .fillText 2 helloArgs sampleCtx]
      (installed 0)).skip_monitoring .fillText = true := by
  decide

/-! ## Two reports for one receiver -/

/-- C9, the code at the failing input: no other actor assigns anything; the
wrapper of `fillText` applied twice to the fresh context 2 (a reference to
`CanvasRenderingContext2D.prototype.fillText` called on it twice) produces two
records for that receiver: after the first record the flag of line 198 is
still false. -/
theorem two_reports_for_one_receiver :
    reportCount .fillText 2
      (run sampleEnv
        [.direct .fillText 2 helloArgs sampleCtx, .direct .fillText 2 helloArgs sampleCtx]
        (installed 0)) = 2 ∧
    (run sampleEnv
        [.direct .fillText 2 helloArgs sampleCtx, .direct .fillText 2 helloArgs sampleCtx]
        (installed 0)).messages.length = 2 := by
  decide

/-! ## The restore on the owner prototype -/

/-- C10, the code at the failing input: the receiver is the owner prototype
itself (`CanvasRenderingContext2D.prototype.fillText("hello world")`).  The
call is reported and takes the restore branch; the assignment of line 227
writes the owner's property, which is then the original, and a call with a
long text through the fresh context 2 enqueues no further record. -/
theorem restore_on_owner_removes_trap :
    getProp sampleEnv (installed 0).heap CanvasRenderingContext2D_prototype "fillText"
      = .fn (.wrapped .fillText) ∧
    (wrapped sampleEnv .fillText CanvasRenderingContext2D_prototype helloArgs sampleCtx
      (installed 0)).2.reports = [(.fillText, CanvasRenderingContext2D_prototype)] ∧
    (wrapped sampleEnv .fillText CanvasRenderingContext2D_prototype helloArgs sampleCtx
      (installed 0)).2.heap CanvasRenderingContext2D_prototype "fillText"
      = some (.fn (.orig .fillText)) ∧
    (callMethod sampleEnv .fillText 2 helloArgs sampleCtx
      (wrapped sampleEnv .fillText CanvasRenderingContext2D_prototype helloArgs sampleCtx
        (installed 0)).2).2.messages
      = (wrapped sampleEnv .fillText CanvasRenderingContext2D_prototype helloArgs sampleCtx
        (installed 0)).2.messages := by
  decide

/-! ## One record per reporting call -/

theorem runExtra_canvas (t : TrapTarget) (get : Nat → String → Val) (this : Nat)
    (args : List Val) (x : Option Extra) (h : runExtra (item t) get this args = .ok x) :
    ∃ e, x = some e ∧ e.canvas = true := by
  cases t
  · simp only [runExtra, item, extraGetImageData] at h
    split at h
    · exact Except.noConfusion h
    · rename_i x' hx
      split at hx
      · exact Except.noConfusion hx
      · rename_i w _
        split at hx
        · exact Except.noConfusion hx
        · rename_i hgt _
          cases hx
          cases h
          exact ⟨_, rfl, rfl⟩
  · simp only [runExtra, item, extraCanvas] at h
    cases h
    exact ⟨_, rfl, rfl⟩
  · simp only [runExtra, item, extraCanvas] at h
    cases h
    exact ⟨_, rfl, rfl⟩
  · simp only [runExtra, item, extraToDataURL] at h
    cases h
    exact ⟨_, rfl, rfl⟩

theorem not_canvas_write_iff (t : TrapTarget) :
    is_canvas_write (item t) = false ↔ t = .getImageData ∨ t = .toDataURL := by
  cases t <;> decide

/-- C11, counterexample: a `getImageData` call with the width omitted on a
receiver without `canvas`: the resolver returns, the extractor throws, and no
record is appended to the queue. -/
theorem getImageData_call_without_record :
    resolve sampleEnv sampleCtx = .ok (.str "http://h/a.js") ∧
    (wrapped sampleEnv .getImageData 2 [.num 1, .num 1] sampleCtx (installed 0)).2.messages
      = (installed 0).messages ∧
    (installed 0).messages = [] := by
  decide

/-- C11, amended: on every call of `getImageData` or `toDataURL`, whatever the
state, and on every call of `fillText` or `strokeText` that is not bypassed,
when the resolver returns `u` and the extractor returns `x`, exactly one record
is appended to the queue, with `obj` and `prop` those of the target,
`scriptUrl = u` and `extra = x`, where `x.canvas` is true; and a call of a
non-text wrapper never writes a property nor `skip_monitoring`. -/
theorem reporting_call_enqueues_record {σ : Type} (env : Env σ) (t : TrapTarget) (r : Nat)
    (args : List Val) (ctx : CallCtx) (s : State σ) :
    (∀ u x, (is_canvas_write (item t) &&
        (s.skip_monitoring t || tooShort env (args.getD 0 .undefined))) = false →
      resolve env ctx = .ok u →
      runExtra (item t) (getProp env s.heap) r args = .ok x →
      (wrapped env t r args ctx s).2.messages
        = s.messages ++ [⟨(item t).objName, (item t).propName, u, x⟩] ∧
      ∃ e, x = some e ∧ e.canvas = true) ∧
    (t = .getImageData ∨ t = .toDataURL →
      (is_canvas_write (item t) &&
        (s.skip_monitoring t || tooShort env (args.getD 0 .undefined))) = false ∧
      (wrapped env t r args ctx s).2.heap = s.heap ∧
      (wrapped env t r args ctx s).2.skip_monitoring = s.skip_monitoring) := by
  constructor
  · intro u x hpath hres hext
    refine ⟨?_, runExtra_canvas t _ r args x hext⟩
    rw [wrapped_report env t r args ctx s u x hpath hres hext]
    have hs := send_fields ⟨(item t).objName, (item t).propName, u, x⟩ ctx.now
      { s with reports := s.reports ++ [(t, r)] }
    rw [(applyOrig_fields env t r args _).2.2.1]
    split
    · rw [(restoreOrSkip_fields env t r _).1]; exact hs.2.2.1
    · exact hs.2.2.1
  · intro ht
    have hicw : is_canvas_write (item t) = false := (not_canvas_write_iff t).mpr ht
    refine ⟨by rw [hicw]; rfl, ?_⟩
    rcases wrapped_cases env t r args ctx s with hw | ⟨e, hw⟩ | ⟨u, x, hpath, hw⟩
    · rw [hw]
      exact ⟨(applyOrig_fields env t r args s).1, (applyOrig_fields env t r args s).2.1⟩
    · rw [hw]
      exact ⟨rfl, rfl⟩
    · rw [hw, (applyOrig_fields env t r args _).1, (applyOrig_fields env t r args _).2.1]
      simp only [hicw, Bool.false_eq_true, if_false]
      exact ⟨(send_fields _ _ _).1, (send_fields _ _ _).2.1⟩

/-- Witness for the amended C11: `toDataURL()` on canvas element 3 and
`getImageData(0, 0, 10, 20)` on context 2. -/
theorem reporting_call_enqueues_record_witness :
    (wrapped sampleEnv .toDataURL 3 [] sampleCtx (installed 0)).2.messages
      = (installed 0).messages ++ [⟨"HTMLCanvasElement.prototype", "toDataURL",
          .str "http://h/a.js", some ⟨true, some .undefined, some .undefined⟩⟩] ∧
    (wrapped sampleEnv .getImageData 2 [.num 0, .num 0, .num 10, .num 20] sampleCtx
      (installed 0)).2.heap = (installed 0).heap :=
  ⟨((reporting_call_enqueues_record sampleEnv .toDataURL 3 [] sampleCtx (installed 0)).1
      (.str "http://h/a.js") (some ⟨true, some .undefined, some .undefined⟩)
      (by decide) (by decide) (by decide)).1,
    ((reporting_call_enqueues_record sampleEnv .getImageData 2
      [.num 0, .num 0, .num 10, .num 20] sampleCtx (installed 0)).2 (Or.inl rfl)).2.1⟩

/-! ## The extractor of `getImageData` -/

theorem getMember_canvasDim (get : Nat → String → Val) (c : Val) (p : String)
    (hu : c ≠ .undefined) (hn : c ≠ .null) :
    getMember get c p = .ok (canvasDim get c p) := by
  cases c <;> first | rfl | exact absurd rfl hu | exact absurd rfl hn

theorem extraGetImageData_eq (get : Nat → String → Val) (this : Nat) (args : List Val)
    (w h : Val) (hw : args.getD 2 .undefined = w) (hh : args.getD 3 .undefined = h)
    (hc : (w ≠ .undefined ∧ h ≠ .undefined) ∨
      (get this "canvas" ≠ .undefined ∧ get this "canvas" ≠ .null)) :
    extraGetImageData get this args =
      .ok ⟨true,
        some (if w = .undefined then canvasDim get (get this "canvas") "width" else w),
        some (if h = .undefined then canvasDim get (get this "canvas") "height" else h)⟩ := by
  unfold extraGetImageData
  rw [hw, hh]
  by_cases h1 : w = .undefined <;> by_cases h2 : h = .undefined
  · rcases hc with ⟨hc1, -⟩ | ⟨hu, hn⟩
    · exact absurd h1 hc1
    · simp only [h1, h2, if_true, getMember_canvasDim get _ _ hu hn]
  · rcases hc with ⟨hc1, -⟩ | ⟨hu, hn⟩
    · exact absurd h1 hc1
    · simp only [h1, h2, if_true, if_false, getMember_canvasDim get _ _ hu hn]
  · rcases hc with ⟨-, hc2⟩ | ⟨hu, hn⟩
    · exact absurd h2 hc2
    · simp only [h1, h2, if_true, if_false, getMember_canvasDim get _ _ hu hn]
  · simp only [h1, h2, if_false]

/-- C12, counterexample: `getImageData(0, 0)` on a receiver whose `canvas` is
`undefined`: the extractor throws a `TypeError` and returns no object. -/
theorem getImageData_extra_throws_without_canvas :
    getProp sampleEnv (installed 0).heap 2 "canvas" = .undefined ∧
    extraGetImageData (getProp sampleEnv (installed 0).heap) 2 [.num 0, .num 0]
      = .error .typeError := by
  decide

/-- C12, amended: for every `getImageData` call in which both dimensions are
provided, or the receiver's `canvas` is neither `undefined` nor `null`, the
extractor returns `canvas: true` with `width` the 3rd argument when it is
provided (not `undefined`) and otherwise the receiver's `canvas.width`, and
`height` the 4th argument when it is provided and otherwise the receiver's
`canvas.height`, each decided on its own. -/
theorem getImageData_extra_dimensions (get : Nat → String → Val) (this : Nat)
    (args : List Val)
    (hc : (args.getD 2 .undefined ≠ .undefined ∧ args.getD 3 .undefined ≠ .undefined) ∨
      (get this "canvas" ≠ .undefined ∧ get this "canvas" ≠ .null)) :
    extraGetImageData get this args =
      .ok ⟨true,
        some (if args.getD 2 .undefined = .undefined
          then canvasDim get (get this "canvas") "width" else args.getD 2 .undefined),
        some (if args.getD 3 .undefined = .undefined
          then canvasDim get (get this "canvas") "height" else args.getD 3 .undefined)⟩ :=
  extraGetImageData_eq get this args _ _ rfl rfl hc

/-- Witness for the amended C12: a call giving only the width, on context 2 of
the page where its canvas is 300 by 150, reports the explicit width and the
height of the canvas. -/
theorem getImageData_extra_dimensions_witness :
    extraGetImageData (getProp sampleEnv canvasPage.heap) 2 [.num 0, .num 0, .num 10]
      = .ok ⟨true, some (.num 10), some (.num 150)⟩ :=
  getImageData_extra_dimensions (getProp sampleEnv canvasPage.heap) 2
    [.num 0, .num 0, .num 10] (Or.inr (by decide))

/-! ## The signature of the wrapper -/

theorem callToString_bound (text : FnRef → String) (st : FnStore) (f : FnRef) :
    text (boundToString st f) = callToString text st f := by
  unfold boundToString callToString
  cases (st f).toStringThis <;> rfl

theorem defineWrapped_other (t : TrapTarget) (st : FnStore) (f : FnRef)
    (h : f ≠ .wrapped t) : defineWrapped t st f = st f := by
  simp [defineWrapped, h]

theorem defineWrapped_self (t : TrapTarget) (st : FnStore) :
    defineWrapped t st (.wrapped t) =
      ⟨(st (.orig t)).name, (st (.orig t)).length, some (boundToString st (.orig t))⟩ := by
  simp [defineWrapped, declaredWrapped]

theorem installedFns_orig (st : FnStore) (t : TrapTarget) :
    installedFns st (.orig t) = st (.orig t) := by
  simp [installedFns, methods, List.foldl, defineWrapped]

theorem installedFns_wrapped (st : FnStore) (t : TrapTarget) :
    installedFns st (.wrapped t) =
      ⟨(st (.orig t)).name, (st (.orig t)).length, some (boundToString st (.orig t))⟩ := by
  cases t <;> simp [installedFns, methods, List.foldl, defineWrapped, declaredWrapped,
    boundToString]

/-- C17: for every trap target, the wrapper made by the installer has the
`name` and the `length` of the original, and its `toString()` returns what the
original's `toString()` returns, after one installation and after the whole
loop of installations; and after installation the owner's property holds the
wrapper. -/
theorem wrapper_keeps_signature {σ : Type} (text : FnRef → String) (t : TrapTarget)
    (st : FnStore) (s : State σ) (host : σ) :
    (defineWrapped t st (.wrapped t)).name = (st (.orig t)).name ∧
    (defineWrapped t st (.wrapped t)).length = (st (.orig t)).length ∧
    callToString text (defineWrapped t st) (.wrapped t)
      = callToString text (defineWrapped t st) (.orig t) ∧
    (installedFns st (.wrapped t)).name = (installedFns st (.orig t)).name ∧
    (installedFns st (.wrapped t)).length = (installedFns st (.orig t)).length ∧
    callToString text (installedFns st) (.wrapped t)
      = callToString text (installedFns st) (.orig t) ∧
    (trapInstanceMethod t s).heap (item t).obj (item t).propName = some (.fn (.wrapped t)) ∧
    (installed host).heap (item t).obj (item t).propName = some (.fn (.wrapped t)) := by
  have horig : defineWrapped t st (.orig t) = st (.orig t) :=
    defineWrapped_other t st _ (by simp)
  refine ⟨?_, ?_, ?_, ?_, ?_, ?_, ?_, ?_⟩
  · rw [defineWrapped_self]
  · rw [defineWrapped_self]
  · have h1 : callToString text (defineWrapped t st) (.wrapped t)
        = text (boundToString st (.orig t)) := by
      unfold callToString
      rw [defineWrapped_self]
    have h2 : callToString text (defineWrapped t st) (.orig t)
        = callToString text st (.orig t) := by
      unfold callToString
      rw [horig]
    rw [h1, h2]
    exact callToString_bound text st (.orig t)
  · rw [installedFns_wrapped, installedFns_orig]
  · rw [installedFns_wrapped, installedFns_orig]
  · have h1 : callToString text (installedFns st) (.wrapped t)
        = text (boundToString st (.orig t)) := by
      unfold callToString
      rw [installedFns_wrapped]
    have h2 : callToString text (installedFns st) (.orig t)
        = callToString text st (.orig t) := by
      unfold callToString
      rw [installedFns_orig]
    rw [h1, h2]
    exact callToString_bound text st (.orig t)
  · simp [trapInstanceMethod, Heap.set]
  · cases t <;> simp [installed, methods, List.foldl, trapInstanceMethod, Heap.set, item]

/-! ## Lemmas on the dispatcher in time -/

theorem flushWith_nil {σ : Type} (s : State σ) : flushWith [] s = flush s := rfl

theorem laterWith_nil {σ : Type} (now : Int) (s : State σ) : laterWith [] now s = later now s :=
  rfl

theorem expire_nil {σ : Type} (id : Nat) (now : Int) (s : State σ) :
    expire id now [] s = fireTimer id now s := rfl

theorem send_timestamp {σ : Type} (msg : Msg) (now : Int) (s : State σ) :
    (send msg now s).timestamp = now := by
  unfold send debounced
  cases h : s.timeout <;> simp [h, setTimeout]

theorem send_of_idle {σ : Type} (msg : Msg) (now : Int) (s : State σ) (h : Idle s) :
    (send msg now s).timers = [⟨s.nextTimer, now, wait⟩] ∧
    (send msg now s).timeout = some s.nextTimer := by
  obtain ⟨h1, h2⟩ := h
  unfold send debounced
  simp [h1, h2, setTimeout]

theorem send_of_pending {σ : Type} (msg : Msg) (now : Int) (s : State σ) (id : Nat)
    (h : s.timeout = some id) :
    (send msg now s).timers = s.timers ∧ (send msg now s).timeout = some id := by
  unfold send debounced
  simp [h]

theorem nextDue_single (upTo : Int) (tm : Timer) :
    nextDue upTo [tm] = if tm.due ≤ upTo then some tm else none := rfl

theorem advance_of_none {σ : Type} (fuel : Nat) (upTo : Int) (s : State σ)
    (h : nextDue upTo s.timers = none) : advance fuel upTo s = s := by
  cases fuel with
  | zero => rfl
  | succ n => simp only [advance, h]

theorem advance_of_idle {σ : Type} (fuel : Nat) (upTo : Int) (s : State σ) (h : Idle s) :
    advance fuel upTo s = s :=
  advance_of_none fuel upTo s (by rw [h.1]; rfl)

/-- The debounce timer runs before the quiet period is over: it is set again,
due exactly one quiet period after the last call of `send`. -/
theorem fireTimer_early {σ : Type} (tm : Timer) (s : State σ)
    (ht : s.timers = [tm]) (hearly : tm.due - s.timestamp < wait) :
    (fireTimer tm.id tm.due s).timers
      = [⟨s.nextTimer, tm.due, wait - (tm.due - s.timestamp)⟩] ∧
    (fireTimer tm.id tm.due s).timeout = some s.nextTimer ∧
    (fireTimer tm.id tm.due s).timestamp = s.timestamp ∧
    (fireTimer tm.id tm.due s).messages = s.messages ∧
    (fireTimer tm.id tm.due s).dispatched = s.dispatched := by
  unfold fireTimer later
  simp [ht, hearly, setTimeout]

/-- The debounce timer runs once the quiet period is over: the queue is
dispatched and the dispatcher is idle. -/
theorem fireTimer_late {σ : Type} (tm : Timer) (s : State σ)
    (ht : s.timers = [tm]) (hlate : ¬ tm.due - s.timestamp < wait) :
    (fireTimer tm.id tm.due s).timers = [] ∧
    (fireTimer tm.id tm.due s).timeout = none ∧
    (fireTimer tm.id tm.due s).timestamp = s.timestamp ∧
    (fireTimer tm.id tm.due s).messages = [] ∧
    (fireTimer tm.id tm.due s).dispatched = s.dispatched ++ [s.messages] := by
  unfold fireTimer later
  simp [ht, hlate, flush]

/-- Time passes, but less than the quiet period since the last call of `send`:
nothing is dispatched and the debounce timer remains pending, due later than
the time reached when `fuel` is positive. -/
theorem advance_armed {σ : Type} (fuel : Nat) (upTo : Int) (s : State σ)
    (harm : Armed s) (hup : upTo < s.timestamp + wait) :
    Armed (advance fuel upTo s) ∧
    (advance fuel upTo s).timestamp = s.timestamp ∧
    (advance fuel upTo s).messages = s.messages ∧
    (advance fuel upTo s).dispatched = s.dispatched := by
  obtain ⟨tm, ht, hto, hdue⟩ := harm
  cases fuel with
  | zero => exact ⟨⟨tm, ht, hto, hdue⟩, rfl, rfl, rfl⟩
  | succ n =>
    by_cases hd : tm.due ≤ upTo
    · have hearly : tm.due - s.timestamp < wait := by omega
      obtain ⟨f1, f2, f3, f4, f5⟩ := fireTimer_early tm s ht hearly
      have hstep : advance (n + 1) upTo s = advance n upTo (fireTimer tm.id tm.due s) := by
        simp only [advance, ht, nextDue_single, hd, if_true]
      have hnone : nextDue upTo (fireTimer tm.id tm.due s).timers = none := by
        rw [f1, nextDue_single]
        have : ¬ (Timer.due ⟨s.nextTimer, tm.due, wait - (tm.due - s.timestamp)⟩ ≤ upTo) := by
          simp only [Timer.due]
          omega
        rw [if_neg this]
      rw [hstep, advance_of_none n upTo _ hnone]
      refine ⟨⟨_, f1, f2, ?_⟩, f3, f4, f5⟩
      rw [f3]
      simp only [Timer.due]
      omega
    · have hnone : nextDue upTo s.timers = none := by
        rw [ht, nextDue_single, if_neg hd]
      rw [advance_of_none (n + 1) upTo s hnone]
      exact ⟨⟨tm, ht, hto, hdue⟩, rfl, rfl, rfl⟩

/-- Time passes until the quiet period since the last call of `send` is over:
the whole queue is dispatched in one event and the dispatcher is idle. -/
theorem advance_flush {σ : Type} (fuel : Nat) (upTo : Int) (s : State σ)
    (harm : Armed s) (hup : s.timestamp + wait ≤ upTo) :
    Idle (advance (fuel + 2) upTo s) ∧
    (advance (fuel + 2) upTo s).timestamp = s.timestamp ∧
    (advance (fuel + 2) upTo s).messages = [] ∧
    (advance (fuel + 2) upTo s).dispatched = s.dispatched ++ [s.messages] := by
  obtain ⟨tm, ht, hto, hdue⟩ := harm
  have hd : tm.due ≤ upTo := by omega
  have hstep : advance (fuel + 2) upTo s
      = advance (fuel + 1) upTo (fireTimer tm.id tm.due s) := by
    simp only [advance, ht, nextDue_single, hd, if_true]
  rw [hstep]
  by_cases hearly : tm.due - s.timestamp < wait
  · obtain ⟨f1, f2, f3, f4, f5⟩ := fireTimer_early tm s ht hearly
    have hd2 : Timer.due ⟨s.nextTimer, tm.due, wait - (tm.due - s.timestamp)⟩ ≤ upTo := by
      simp only [Timer.due]
      omega
    have hstep2 : advance (fuel + 1) upTo (fireTimer tm.id tm.due s)
        = advance fuel upTo
            (fireTimer s.nextTimer
              (Timer.due ⟨s.nextTimer, tm.due, wait - (tm.due - s.timestamp)⟩)
              (fireTimer tm.id tm.due s)) := by
      simp only [advance, f1, nextDue_single, hd2, if_true]
    have hlate : ¬ (Timer.due ⟨s.nextTimer, tm.due, wait - (tm.due - s.timestamp)⟩
        - (fireTimer tm.id tm.due s).timestamp < wait) := by
      rw [f3]
      simp only [Timer.due]
      omega
    obtain ⟨g1, g2, g3, g4, g5⟩ := fireTimer_late
      ⟨s.nextTimer, tm.due, wait - (tm.due - s.timestamp)⟩ (fireTimer tm.id tm.due s) f1 hlate
    rw [hstep2, advance_of_idle fuel upTo _ ⟨g1, g2⟩]
    exact ⟨⟨g1, g2⟩, g3.trans f3, g4, by rw [g5, f4, f5]⟩
  · obtain ⟨f1, f2, f3, f4, f5⟩ := fireTimer_late tm s ht hearly
    rw [advance_of_idle (fuel + 1) upTo _ ⟨f1, f2⟩]
    exact ⟨⟨f1, f2⟩, f3, f4, f5⟩

theorem send_armed {σ : Type} (msg : Msg) (now : Int) (s : State σ)
    (h : Idle s ∨ (Armed s ∧ s.timestamp ≤ now)) :
    Armed (send msg now s) ∧
    (send msg now s).timestamp = now ∧
    (send msg now s).messages = s.messages ++ [msg] ∧
    (send msg now s).dispatched = s.dispatched := by
  have hf := send_fields msg now s
  refine ⟨?_, send_timestamp msg now s, hf.2.2.1, hf.2.2.2.2.2.2⟩
  rcases h with hidle | ⟨⟨tm, ht, hto, hdue⟩, hle⟩
  · obtain ⟨h1, h2⟩ := send_of_idle msg now s hidle
    refine ⟨_, h1, h2, ?_⟩
    rw [send_timestamp]
    simp [Timer.due]
  · obtain ⟨h1, h2⟩ := send_of_pending msg now s tm.id hto
    refine ⟨tm, h1.trans ht, h2, ?_⟩
    rw [send_timestamp]
    omega

/-- A call of `send` less than the quiet period after the previous one: nothing
is dispatched, the message joins the queue. -/
theorem sendAt_armed {σ : Type} (fuel : Nat) (c : SendCall) (s : State σ)
    (harm : Armed s) (h1 : s.timestamp ≤ c.time) (h2 : c.time - s.timestamp < wait) :
    Armed (sendAt fuel c s) ∧
    (sendAt fuel c s).timestamp = c.time ∧
    (sendAt fuel c s).messages = s.messages ++ [c.msg] ∧
    (sendAt fuel c s).dispatched = s.dispatched := by
  have hup : (if c.timersFirst then c.time else c.time - 1) < s.timestamp + wait := by
    split <;> omega
  obtain ⟨a1, a2, a3, a4⟩ := advance_armed fuel _ s harm hup
  obtain ⟨b1, b2, b3, b4⟩ := send_armed c.msg c.time _ (Or.inr ⟨a1, by rw [a2]; exact h1⟩)
  unfold sendAt
  exact ⟨b1, b2, by rw [b3, a3], by rw [b4, a4]⟩

theorem sendAt_idle {σ : Type} (fuel : Nat) (c : SendCall) (s : State σ) (hidle : Idle s) :
    Armed (sendAt fuel c s) ∧
    (sendAt fuel c s).timestamp = c.time ∧
    (sendAt fuel c s).messages = s.messages ++ [c.msg] ∧
    (sendAt fuel c s).dispatched = s.dispatched := by
  unfold sendAt
  rw [advance_of_idle fuel _ s hidle]
  exact send_armed c.msg c.time s (Or.inl hidle)

theorem burst_armed {σ : Type} (fuel : Nat) (cs : List SendCall) (s : State σ)
    (harm : Armed s) (hclose : closeFrom s.timestamp cs) :
    Armed (burst fuel cs s) ∧
    (burst fuel cs s).timestamp = lastTime s.timestamp cs ∧
    (burst fuel cs s).messages = s.messages ++ cs.map (fun c => c.msg) ∧
    (burst fuel cs s).dispatched = s.dispatched := by
  induction cs generalizing s with
  | nil => exact ⟨harm, rfl, by simp [burst], rfl⟩
  | cons c cs ih =>
    obtain ⟨h1, h2, h3⟩ := hclose
    obtain ⟨a1, a2, a3, a4⟩ := sendAt_armed fuel c s harm h1 h2
    obtain ⟨b1, b2, b3, b4⟩ := ih (sendAt fuel c s) a1 (by rw [a2]; exact h3)
    have hb : burst fuel (c :: cs) s = burst fuel cs (sendAt fuel c s) := rfl
    rw [hb]
    refine ⟨b1, ?_, ?_, ?_⟩
    · rw [b2, a2]; rfl
    · rw [b3, a3]; simp
    · rw [b4, a4]

/-- A burst of calls of `send` that starts on an idle dispatcher: nothing is
dispatched during the burst and the queue holds every message in call order. -/
theorem burst_of_idle {σ : Type} (fuel : Nat) (c : SendCall) (cs : List SendCall)
    (s : State σ) (hidle : Idle s) (hclose : closeCalls (c :: cs)) :
    Armed (burst fuel (c :: cs) s) ∧
    (burst fuel (c :: cs) s).timestamp = lastTime c.time cs ∧
    (burst fuel (c :: cs) s).messages = s.messages ++ (c :: cs).map (fun c => c.msg) ∧
    (burst fuel (c :: cs) s).dispatched = s.dispatched := by
  obtain ⟨a1, a2, a3, a4⟩ := sendAt_idle fuel c s hidle
  obtain ⟨b1, b2, b3, b4⟩ := burst_armed fuel cs (sendAt fuel c s) a1 (by rw [a2]; exact hclose)
  have hb : burst fuel (c :: cs) s = burst fuel cs (sendAt fuel c s) := rfl
  rw [hb]
  refine ⟨b1, ?_, ?_, ?_⟩
  · rw [b2, a2]
  · rw [b3, a3]; simp
  · rw [b4, a4]

/-! ## One batch per burst -/

/-- C13: for every burst of `N >= 1` calls of `send` on an idle dispatcher, each
call less than 100 ms after the previous one, with timers running at their due
time (a timer due at the very time of a call runs before or after it), no
event is dispatched during the burst, and once 100 ms have passed since the
last call exactly one event has been dispatched, whose `detail` is the queue
at the start followed by all `N` messages in call order; the queue is then
empty and no timer is pending. -/
theorem burst_gives_one_batch {σ : Type} (fuel : Nat) (c : SendCall) (cs : List SendCall)
    (s : State σ) (upTo : Int)
    (hidle : Idle s) (hclose : closeCalls (c :: cs))
    (hup : lastTime c.time cs + wait ≤ upTo) :
    (burst (fuel + 1) (c :: cs) s).dispatched = s.dispatched ∧
    (advance (fuel + 2) upTo (burst (fuel + 1) (c :: cs) s)).dispatched
      = s.dispatched ++ [s.messages ++ (c :: cs).map (fun c => c.msg)] ∧
    (advance (fuel + 2) upTo (burst (fuel + 1) (c :: cs) s)).messages = [] ∧
    Idle (advance (fuel + 2) upTo (burst (fuel + 1) (c :: cs) s)) := by
  obtain ⟨b1, b2, b3, b4⟩ := burst_of_idle (fuel + 1) c cs s hidle hclose
  obtain ⟨a1, -, a3, a4⟩ := advance_flush fuel upTo _ b1 (by rw [b2]; exact hup)
  exact ⟨b4, by rw [a4, b3, b4], a3, a1⟩

/-- Witness for C13: five calls within 50 ms on the installed page give one
batch of five records in call order. -/
theorem burst_gives_one_batch_witness :
    (advance 2 1140 (burst 1 fiveCalls (installed 0))).dispatched
      = [[sampleMsg 1, sampleMsg 2, sampleMsg 3, sampleMsg 4, sampleMsg 5]] :=
  (burst_gives_one_batch 0 ⟨sampleMsg 1, 1000, true⟩
    [⟨sampleMsg 2, 1010, false⟩, ⟨sampleMsg 3, 1020, true⟩,
      ⟨sampleMsg 4, 1030, false⟩, ⟨sampleMsg 5, 1040, true⟩]
    (installed 0) 1140 ⟨rfl, rfl⟩
    (by simp only [closeCalls, closeFrom, wait]; decide) (by decide)).2.1

/-! ## Trailing-edge debounce -/

theorem expire_early {σ : Type} (id : Nat) (now : Int) (during : List (Msg × Int))
    (s : State σ) (h : now - s.timestamp < wait) :
    (expire id now during s).dispatched = s.dispatched ∧
    (expire id now during s).messages = s.messages := by
  unfold expire laterWith
  split
  · simp [h, setTimeout]
  · exact ⟨rfl, rfl⟩

/-- Two calls of `send` more than the quiet period apart are delivered in two
events. -/
theorem two_sends_apart {σ : Type} (fuel : Nat) (c c2 : SendCall) (s : State σ) (upTo : Int)
    (hidle : Idle s) (hgap : c.time + wait < c2.time) (hup : c2.time + wait ≤ upTo) :
    (advance (fuel + 2) upTo (burst (fuel + 2) [c, c2] s)).dispatched
      = s.dispatched ++ [s.messages ++ [c.msg], [c2.msg]] := by
  obtain ⟨a1, a2, a3, a4⟩ := sendAt_idle (fuel + 2) c s hidle
  have hb : (if c2.timersFirst then c2.time else c2.time - 1)
      ≥ (sendAt (fuel + 2) c s).timestamp + wait := by
    rw [a2]
    split <;> omega
  obtain ⟨b1, b2, b3, b4⟩ := advance_flush fuel _ (sendAt (fuel + 2) c s) a1 hb
  obtain ⟨d1, d2, d3, d4⟩ := send_armed c2.msg c2.time _ (Or.inl b1)
  have hburst : burst (fuel + 2) [c, c2] s
      = send c2.msg c2.time
          (advance (fuel + 2) (if c2.timersFirst then c2.time else c2.time - 1)
            (sendAt (fuel + 2) c s)) := rfl
  obtain ⟨e1, e2, e3, e4⟩ := advance_flush fuel upTo _ d1 (by rw [d2]; exact hup)
  rw [hburst, e4, d3, d4, b3, b4, a3, a4]
  simp

/-- C14: the dispatcher is a trailing-edge debounce with a quiet period of
100 ms.  A call of `send` dispatches nothing and records its time; a timer that
runs less than 100 ms after the most recent `send` dispatches nothing; with
timers running at their due time, nothing has been dispatched before 100 ms
have passed since the last `send` of a burst and one event has been dispatched
once they have; and two calls of `send` more than 100 ms apart are delivered in
two events. -/
theorem trailing_edge_debounce {σ : Type} (fuel : Nat) (c : SendCall) (cs : List SendCall)
    (c2 : SendCall) (s : State σ) (msg : Msg) (now : Int) (id : Nat)
    (during : List (Msg × Int)) (upTo : Int) :
    (send msg now s).dispatched = s.dispatched ∧
    (send msg now s).timestamp = now ∧
    (now - s.timestamp < wait → (expire id now during s).dispatched = s.dispatched) ∧
    (Idle s → closeCalls (c :: cs) → upTo < lastTime c.time cs + wait →
      (advance (fuel + 1) upTo (burst (fuel + 1) (c :: cs) s)).dispatched = s.dispatched) ∧
    (Idle s → closeCalls (c :: cs) → lastTime c.time cs + wait ≤ upTo →
      (advance (fuel + 2) upTo (burst (fuel + 1) (c :: cs) s)).dispatched
        = s.dispatched ++ [s.messages ++ (c :: cs).map (fun c => c.msg)]) ∧
    (Idle s → c.time + wait < c2.time → c2.time + wait ≤ upTo →
      (advance (fuel + 2) upTo (burst (fuel + 2) [c, c2] s)).dispatched
        = s.dispatched ++ [s.messages ++ [c.msg], [c2.msg]]) := by
  refine ⟨(send_fields msg now s).2.2.2.2.2.2, send_timestamp msg now s,
    fun h => (expire_early id now during s h).1, ?_, ?_, ?_⟩
  · intro hidle hclose hup
    obtain ⟨b1, b2, b3, b4⟩ := burst_of_idle (fuel + 1) c cs s hidle hclose
    obtain ⟨-, -, -, a4⟩ := advance_armed (fuel + 1) upTo _ b1 (by rw [b2]; exact hup)
    rw [a4, b4]
  · intro hidle hclose hup
    obtain ⟨b1, b2, b3, b4⟩ := burst_of_idle (fuel + 1) c cs s hidle hclose
    obtain ⟨-, -, -, a4⟩ := advance_flush fuel upTo _ b1 (by rw [b2]; exact hup)
    rw [a4, b3, b4]
  · exact two_sends_apart fuel c c2 s upTo

/-- Witness for C14: on the installed page, a call at 1000 ms and one at
1200 ms are delivered in two events; 99 ms after a burst of five calls nothing
has been dispatched. -/
theorem trailing_edge_debounce_witness :
    (advance 2 1300
      (burst 2 [⟨sampleMsg 1, 1000, true⟩, ⟨sampleMsg 2, 1200, false⟩] (installed 0))).dispatched
      = [[sampleMsg 1], [sampleMsg 2]] ∧
    (advance 1 1139 (burst 1 fiveCalls (installed 0))).dispatched = [] :=
  ⟨(trailing_edge_debounce 0 ⟨sampleMsg 1, 1000, true⟩ [] ⟨sampleMsg 2, 1200, false⟩
      (installed 0) (sampleMsg 1) 0 0 [] 1300).2.2.2.2.2 ⟨rfl, rfl⟩ (by decide) (by decide),
    (trailing_edge_debounce 0 ⟨sampleMsg 1, 1000, true⟩
      [⟨sampleMsg 2, 1010, false⟩, ⟨sampleMsg 3, 1020, true⟩,
        ⟨sampleMsg 4, 1030, false⟩, ⟨sampleMsg 5, 1040, true⟩]
      ⟨sampleMsg 2, 1200, false⟩ (installed 0) (sampleMsg 1) 0 0 [] 1139).2.2.2.1 ⟨rfl, rfl⟩
      (by simp only [closeCalls, closeFrom, wait]; decide) (by decide)⟩

/-! ## The batches and the queue -/

theorem foldl_send_fields {σ : Type} (during : List (Msg × Int)) (s : State σ) :
    (during.foldl (fun st c => send c.1 c.2 st) s).messages
      = s.messages ++ during.map (fun c => c.1) ∧
    (during.foldl (fun st c => send c.1 c.2 st) s).dispatched = s.dispatched := by
  induction during generalizing s with
  | nil => simp
  | cons c cs ih =>
    obtain ⟨h1, h2⟩ := ih (send c.1 c.2 s)
    have hf := send_fields c.1 c.2 s
    simp only [List.foldl_cons, List.map_cons]
    rw [h1, h2, hf.2.2.1, hf.2.2.2.2.2.2]
    simp

/-- An event that dispatches: the batch is the whole queue as it is when the
event is dispatched, and the queue is left empty. -/
theorem dstep_flushes {σ : Type} (e : DispatcherEvent) (s : State σ)
    (h : flushes e s = true) :
    (dstep e s).messages = [] ∧
    (dstep e s).dispatched = s.dispatched ++ [s.messages] := by
  cases e with
  | send msg now => simp [flushes] at h
  | expire id now during =>
    simp only [flushes, Bool.and_eq_true, Bool.not_eq_true', decide_eq_false_iff_not] at h
    obtain ⟨hp, hl⟩ := h
    simp only [dstep, expire, hp, if_true, laterWith, hl, if_false, flushWith]
    obtain ⟨-, f2⟩ := foldl_send_fields during
      { s with timers := s.timers.filter (fun tm => !(tm.id == id)), timeout := none,
               dispatched := s.dispatched ++ [s.messages] }
    exact ⟨trivial, f2⟩

/-- An event that does not dispatch: nothing is dispatched and the messages it
passes to `send` join the queue. -/
theorem dstep_keeps {σ : Type} (e : DispatcherEvent) (s : State σ)
    (h : flushes e s = false) :
    (dstep e s).messages = s.messages ++ sentBy e s ∧
    (dstep e s).dispatched = s.dispatched := by
  cases e with
  | send msg now =>
    have hf := send_fields msg now s
    exact ⟨hf.2.2.1, hf.2.2.2.2.2.2⟩
  | expire id now during =>
    have hs : sentBy (DispatcherEvent.expire id now during) s = [] := by
      simp [sentBy, h]
    rw [hs]
    simp only [flushes, Bool.and_eq_false_iff, Bool.not_eq_false', decide_eq_true_eq] at h
    simp only [dstep, expire, List.append_nil]
    rcases h with hp | hl
    · simp [hp]
    · split
      · simp [laterWith, hl, setTimeout]
      · exact ⟨rfl, rfl⟩

theorem sentBy_of_keeps {σ : Type} (e : DispatcherEvent) (s : State σ)
    (h : flushes e s = false) : sentBy e s = e.queued := by
  cases e with
  | send msg now => rfl
  | expire id now during => simp [sentBy, h, DispatcherEvent.queued]

theorem queued_of_flushes {σ : Type} (e : DispatcherEvent) (s : State σ)
    (h : flushes e s = true) : e.queued = [] := by
  cases e with
  | send msg now => simp [flushes] at h
  | expire id now during => rfl

theorem sentBy_of_plain {σ : Type} (e : DispatcherEvent) (s : State σ)
    (h : e.plain = true) : sentBy e s = e.queued := by
  cases e with
  | send msg now => rfl
  | expire id now during =>
    have hd : during = [] := by simpa [DispatcherEvent.plain] using h
    subst hd
    simp [sentBy, DispatcherEvent.queued]

theorem sentAlong_of_plain {σ : Type} (es : List DispatcherEvent) (s : State σ)
    (h : ∀ e ∈ es, e.plain = true) : sentAlong es s = sentOutside es := by
  induction es generalizing s with
  | nil => rfl
  | cons e es ih =>
    simp only [sentAlong, sentOutside]
    rw [sentBy_of_plain e s (h e (List.mem_cons_self _ _)),
      ih (dstep e s) (fun e' h' => h e' (List.mem_cons_of_mem _ h'))]

theorem dstep_conserves {σ : Type} (e : DispatcherEvent) (s : State σ) :
    (dstep e s).dispatched.flatten ++ (dstep e s).messages
      = s.dispatched.flatten ++ s.messages ++ e.queued := by
  cases h : flushes e s
  · obtain ⟨h1, h2⟩ := dstep_keeps e s h
    rw [h1, h2, sentBy_of_keeps e s h, List.append_assoc]
  · obtain ⟨h1, h2⟩ := dstep_flushes e s h
    rw [h1, h2, queued_of_flushes e s h]
    simp

theorem drun_conserves {σ : Type} (es : List DispatcherEvent) (s : State σ) :
    (drun es s).dispatched.flatten ++ (drun es s).messages
      = s.dispatched.flatten ++ s.messages ++ sentOutside es := by
  induction es generalizing s with
  | nil => simp [drun, sentOutside]
  | cons e es ih =>
    have h := ih (dstep e s)
    have hd : drun (e :: es) s = drun es (dstep e s) := rfl
    rw [hd, h, dstep_conserves e s]
    simp [sentOutside]

/-- C15, counterexample: a listener of the first event calls `send` with a
second message while that event is dispatched.  The event was handed to the
listeners with the first message only; the queue is replaced when the dispatch
is over, and the event of the timer set by that call carries an empty batch.
Two messages were passed to `send`, one is in the batches and the queue. -/
theorem reentrant_send_is_lost :
    sentAlong [.send (sampleMsg 1) 1000, .expire 1 1100 [(sampleMsg 2, 1100)],
        .expire 2 1200 []] (installed (0 : Nat))
      = [sampleMsg 1, sampleMsg 2] ∧
    (drun [.send (sampleMsg 1) 1000, .expire 1 1100 [(sampleMsg 2, 1100)]]
      (installed (0 : Nat))).dispatched = [[sampleMsg 1]] ∧
    (drun [.send (sampleMsg 1) 1000, .expire 1 1100 [(sampleMsg 2, 1100)]]
      (installed (0 : Nat))).messages = [] ∧
    (drun [.send (sampleMsg 1) 1000, .expire 1 1100 [(sampleMsg 2, 1100)], .expire 2 1200 []]
      (installed (0 : Nat))).dispatched = [[sampleMsg 1], []] ∧
    (drun [.send (sampleMsg 1) 1000, .expire 1 1100 [(sampleMsg 2, 1100)], .expire 2 1200 []]
      (installed (0 : Nat))).messages = [] := by
  decide

/-- C15, amended: for every interleaving of calls of `send` and timer
expiries, an event that dispatches carries the whole queue, in insertion
order, as it is when the event is dispatched and leaves the queue empty, and
an event that does not dispatch only appends to the queue; the concatenation
of all dispatched batches followed by the queue is always the batches and
queue at the start followed by the messages passed to `send` outside of a
dispatch, in order; when no call of `send` is made while an event is being
dispatched, these are all the messages passed to `send`. -/
theorem dispatched_then_queue_is_sent {σ : Type} (es : List DispatcherEvent) (s : State σ) :
    (drun es s).dispatched.flatten ++ (drun es s).messages
      = s.dispatched.flatten ++ s.messages ++ sentOutside es ∧
    ((∀ e ∈ es, e.plain = true) →
      (drun es s).dispatched.flatten ++ (drun es s).messages
        = s.dispatched.flatten ++ s.messages ++ sentAlong es s) ∧
    (∀ e (s' : State σ), flushes e s' = true →
      (dstep e s').messages = [] ∧
      (dstep e s').dispatched = s'.dispatched ++ [s'.messages]) ∧
    (∀ e (s' : State σ), flushes e s' = false →
      (dstep e s').messages = s'.messages ++ sentBy e s' ∧
      (dstep e s').dispatched = s'.dispatched) := by
  refine ⟨drun_conserves es s, ?_, dstep_flushes, dstep_keeps⟩
  intro hplain
  rw [sentAlong_of_plain es s hplain]
  exact drun_conserves es s

/-- Witness for the amended C15: two calls of `send`, the timer set again at
its due time, a third call, and the timer once the quiet period is over: the
three messages are dispatched in one batch, in order. -/
theorem dispatched_then_queue_is_sent_witness :
    (drun [.send (sampleMsg 1) 1000, .send (sampleMsg 2) 1050, .expire 1 1100 [],
        .send (sampleMsg 3) 1120, .expire 2 1150 [], .expire 3 1220 []]
      (installed (0 : Nat))).dispatched.flatten
      ++ (drun [.send (sampleMsg 1) 1000, .send (sampleMsg 2) 1050, .expire 1 1100 [],
        .send (sampleMsg 3) 1120, .expire 2 1150 [], .expire 3 1220 []]
      (installed (0 : Nat))).messages
      = [sampleMsg 1, sampleMsg 2, sampleMsg 3] :=
  ((dispatched_then_queue_is_sent
      [.send (sampleMsg 1) 1000, .send (sampleMsg 2) 1050, .expire 1 1100 [],
        .send (sampleMsg 3) 1120, .expire 2 1150 [], .expire 3 1220 []]
      (installed (0 : Nat))).2.1 (by decide)).trans (by decide)

/-! ## Timers and the queue -/

/-- C16, counterexample: a listener of the first event calls `send` while that
event is dispatched.  The debounce timer is then pending although the queue is
empty, and when it runs an event with an empty batch is dispatched. -/
theorem timer_pending_with_empty_queue :
    reentrantState.timers = [⟨2, 1100, 100⟩] ∧
    reentrantState.timeout = some 2 ∧
    reentrantState.messages = [] ∧
    reentrantState.dispatched = [[sampleMsg 1]] ∧
    (drun [.expire 2 1200 []] reentrantState).dispatched
      = [[sampleMsg 1], []] := by
  decide

theorem dstep_wellQueued {σ : Type} (e : DispatcherEvent) (s : State σ)
    (hplain : e.plain = true) (hq : WellQueued s) (hb : ∀ b ∈ s.dispatched, b ≠ []) :
    WellQueued (dstep e s) ∧ (∀ b ∈ (dstep e s).dispatched, b ≠ []) ∧
    (e.isSend = false → Idle s → Idle (dstep e s) ∧ (dstep e s).dispatched = s.dispatched) := by
  cases e with
  | send msg now =>
    have hf := send_fields msg now s
    have hd : dstep (DispatcherEvent.send msg now) s = send msg now s := rfl
    rw [hd]
    refine ⟨?_, by rw [hf.2.2.2.2.2.2]; exact hb,
      fun h => absurd h (by simp [DispatcherEvent.isSend])⟩
    right
    rcases hq with hidle | ⟨tm, ht, hto, -⟩
    · obtain ⟨h1, h2⟩ := send_of_idle msg now s hidle
      exact ⟨_, h1, h2, by rw [hf.2.2.1]; simp⟩
    · obtain ⟨h1, h2⟩ := send_of_pending msg now s tm.id hto
      exact ⟨tm, h1.trans ht, h2, by rw [hf.2.2.1]; simp⟩
  | expire id now during =>
    have hd : during = [] := by
      simpa [DispatcherEvent.plain] using hplain
    subst hd
    rcases hq with hidle | ⟨tm, ht, hto, hne⟩
    · have hsame : dstep (DispatcherEvent.expire id now []) s = s := by
        simp [dstep, expire, hidle.1]
      rw [hsame]
      exact ⟨Or.inl hidle, hb, fun _ _ => ⟨hidle, rfl⟩⟩
    · refine ⟨?_, ?_, fun _ hidle => absurd (ht ▸ hidle.1) (by simp)⟩
      · by_cases hid : tm.id = id
        · by_cases hl : now - s.timestamp < wait
          · right
            refine ⟨⟨s.nextTimer, now, wait - (now - s.timestamp)⟩, ?_, ?_, ?_⟩ <;>
              simp [dstep, expire, laterWith, ht, hid, hl, setTimeout, hne]
          · left
            constructor <;> simp [dstep, expire, laterWith, flushWith, ht, hid, hl]
        · right
          refine ⟨tm, ?_, ?_, ?_⟩ <;> simp [dstep, expire, ht, hid, hto, hne]
      · by_cases hid : tm.id = id
        · by_cases hl : now - s.timestamp < wait
          · have : (dstep (DispatcherEvent.expire id now []) s).dispatched = s.dispatched := by
              simp [dstep, expire, laterWith, ht, hid, hl, setTimeout]
            rw [this]; exact hb
          · have : (dstep (DispatcherEvent.expire id now []) s).dispatched
                = s.dispatched ++ [s.messages] := by
              simp [dstep, expire, laterWith, flushWith, ht, hid, hl]
            rw [this]
            intro b hbm
            rcases List.mem_append.mp hbm with h1 | h1
            · exact hb b h1
            · rw [List.mem_singleton.mp h1]; exact hne
        · have : (dstep (DispatcherEvent.expire id now []) s).dispatched = s.dispatched := by
            simp [dstep, expire, ht, hid]
          rw [this]; exact hb

theorem drun_wellQueued {σ : Type} (es : List DispatcherEvent) (s : State σ)
    (hplain : ∀ e ∈ es, e.plain = true) (hq : WellQueued s)
    (hb : ∀ b ∈ s.dispatched, b ≠ []) :
    WellQueued (drun es s) ∧ (∀ b ∈ (drun es s).dispatched, b ≠ []) := by
  induction es generalizing s with
  | nil => exact ⟨hq, hb⟩
  | cons e es ih =>
    obtain ⟨h1, h2, -⟩ := dstep_wellQueued e s (hplain e (List.mem_cons_self _ _)) hq hb
    exact ih (dstep e s) (fun e' h' => hplain e' (List.mem_cons_of_mem _ h')) h1 h2

theorem dstep_idle {σ : Type} (e : DispatcherEvent) (s : State σ)
    (hsend : e.isSend = false) (hidle : Idle s) : dstep e s = s := by
  cases e with
  | send msg now => simp [DispatcherEvent.isSend] at hsend
  | expire id now during => simp [dstep, expire, hidle.1]

theorem drun_idle {σ : Type} (es : List DispatcherEvent) (s : State σ)
    (hsend : ∀ e ∈ es, e.isSend = false) (hidle : Idle s) : drun es s = s := by
  induction es generalizing s with
  | nil => rfl
  | cons e es ih =>
    have hd : drun (e :: es) s = drun es (dstep e s) := rfl
    rw [hd, dstep_idle e s (hsend e (List.mem_cons_self _ _)) hidle]
    exact ih s (fun e' h' => hsend e' (List.mem_cons_of_mem _ h')) hidle

theorem installed_idle {σ : Type} (host : σ) :
    Idle (installed host) ∧ (installed host).dispatched = [] ∧ (installed host).messages = [] :=
  ⟨⟨rfl, rfl⟩, rfl, rfl⟩

/-- C16, amended: in every state reached from the installed page by calls of
`send` and timer expiries, none of the calls being made while an event is
dispatched, a debounce timer is pending only if the queue is non-empty and
every dispatched event carries a non-empty batch; no timer is pending and
nothing is dispatched before the first `send`; and from a state without
pending timer no event is dispatched as long as `send` is not called. -/
theorem timer_only_with_queue {σ : Type} (host : σ) (es es' : List DispatcherEvent)
    (hplain : ∀ e ∈ es, e.plain = true) (hquiet : ∀ e ∈ es', e.isSend = false) :
    ((drun es (installed host)).timers ≠ [] → (drun es (installed host)).messages ≠ []) ∧
    ((drun es (installed host)).timeout ≠ none → (drun es (installed host)).messages ≠ []) ∧
    (∀ b ∈ (drun es (installed host)).dispatched, b ≠ []) ∧
    ((∀ e ∈ es, e.isSend = false) →
      (drun es (installed host)).timers = [] ∧ (drun es (installed host)).dispatched = []) ∧
    (Idle (drun es (installed host)) →
      (drun es' (drun es (installed host))).dispatched
        = (drun es (installed host)).dispatched) := by
  obtain ⟨hi, hd, -⟩ := installed_idle host
  obtain ⟨hq, hb⟩ := drun_wellQueued es (installed host) hplain (Or.inl hi)
    (by rw [hd]; exact fun _ h => absurd h (List.not_mem_nil _))
  refine ⟨?_, ?_, hb, ?_, ?_⟩
  · intro hne
    rcases hq with hidle | ⟨tm, -, -, hm⟩
    · exact absurd hidle.1 hne
    · exact hm
  · intro hne
    rcases hq with hidle | ⟨tm, -, -, hm⟩
    · exact absurd hidle.2 hne
    · exact hm
  · intro hsend
    rw [drun_idle es (installed host) hsend hi]
    exact ⟨hi.1, hd⟩
  · intro hidle
    rw [drun_idle es' _ hquiet hidle]

/-- Witness for the amended C16: on the installed page two calls of `send`,
then the timer at its due time (set again), then the timer once the quiet
period is over; afterwards further expiries dispatch nothing. -/
theorem timer_only_with_queue_witness :
    (∀ b ∈ (drun [.send (sampleMsg 1) 1000, .send (sampleMsg 2) 1050, .expire 1 1100 [],
        .expire 2 1150 []] (installed 0)).dispatched, b ≠ []) ∧
    (drun [.expire 3 1300 []]
      (drun [.send (sampleMsg 1) 1000, .send (sampleMsg 2) 1050, .expire 1 1100 [],
        .expire 2 1150 []] (installed 0))).dispatched
      = [[sampleMsg 1, sampleMsg 2]] :=
  ⟨(timer_only_with_queue 0
      [.send (sampleMsg 1) 1000, .send (sampleMsg 2) 1050, .expire 1 1100 [], .expire 2 1150 []]
      [.expire 3 1300 []] (by decide) (by decide)).2.2.1,
    (timer_only_with_queue 0
      [.send (sampleMsg 1) 1000, .send (sampleMsg 2) 1050, .expire 1 1100 [], .expire 2 1150 []]
      [.expire 3 1300 []] (by decide) (by decide)).2.2.2.2 ⟨by decide, by decide⟩⟩

/-! ## The matcher and the relation it searches -/

theorem orElse_eq_some {α : Type} (o : Option α) (f : Unit → Option α) (x : α)
    (h : o.orElse f = some x) : o = some x ∨ (o = none ∧ f () = some x) := by
  cases o with
  | none => exact Or.inr ⟨rfl, h⟩
  | some y => exact Or.inl h

theorem orElse_isSome {α : Type} (o : Option α) (f : Unit → Option α)
    (h : o.isSome = true ∨ (f ()).isSome = true) : (o.orElse f).isSome = true := by
  cases o with
  | none =>
    rcases h with h | h
    · exact absurd h (by simp)
    · exact h
  | some y => rfl

theorem orElse_none {α : Type} (o : Option α) (f : Unit → Option α) (h : o = none) :
    o.orElse f = f () := by
  subst h; rfl

theorem starLoop_sound (M : MState → MState → Prop)
    (step : MState → (MState → Option MState) → Option MState) (g : Bool)
    (hstep : ∀ s k res, step s k = some res → ∃ t, M s t ∧ k t = some res) :
    ∀ (n : Nat) (s : MState) (k : MState → Option MState) (res : MState),
      starLoop step g n s k = some res → ∃ t, Iter M s t ∧ k t = some res := by
  intro n
  induction n with
  | zero =>
    intro s k res h
    exact ⟨s, Iter.nil s, h⟩
  | succ n ih =>
    intro s k res h
    have hmore : ∀ res', step s (fun s' => if s'.pos = s.pos then none
        else starLoop step g n s' k) = some res' → ∃ t, Iter M s t ∧ k t = some res' := by
      intro res' h'
      obtain ⟨m, hm, hk⟩ := hstep s _ res' h'
      by_cases hp : m.pos = s.pos
      · simp [hp] at hk
      · simp only [hp, if_false] at hk
        obtain ⟨t, ht, hkt⟩ := ih m k res' hk
        exact ⟨t, Iter.cons s m t hm hp ht, hkt⟩
    simp only [starLoop] at h
    cases g with
    | true =>
      simp only [if_true] at h
      rcases orElse_eq_some _ _ _ h with h1 | ⟨-, h2⟩
      · exact hmore res h1
      · exact ⟨s, Iter.nil s, h2⟩
    | false =>
      simp only [Bool.false_eq_true, if_false] at h
      rcases orElse_eq_some _ _ _ h with h1 | ⟨-, h2⟩
      · exact ⟨s, Iter.nil s, h1⟩
      · exact hmore res h2

/-- Soundness of the matcher: a result comes from a state that the pattern
reaches and on which the continuation gives that result. -/
theorem run_sound (r : Re) :
    ∀ (s : MState) (k : MState → Option MState) (res : MState),
      r.run s k = some res → ∃ t, Matches r s t ∧ k t = some res := by
  induction r with
  | eps =>
    intro s k res h
    exact ⟨s, rfl, h⟩
  | cls p =>
    intro s k res h
    simp only [Re.run] at h
    split at h
    · rename_i c cs hrest
      split at h
      · rename_i hp
        exact ⟨_, ⟨c, cs, hrest, hp, rfl⟩, h⟩
      · exact Option.noConfusion h
    · exact Option.noConfusion h
  | seq a b iha ihb =>
    intro s k res h
    simp only [Re.run] at h
    obtain ⟨m, hm, hk⟩ := iha s _ res h
    obtain ⟨t, ht, hkt⟩ := ihb m k res hk
    exact ⟨t, ⟨m, hm, ht⟩, hkt⟩
  | alt a b iha ihb =>
    intro s k res h
    simp only [Re.run] at h
    rcases orElse_eq_some _ _ _ h with h1 | ⟨-, h2⟩
    · obtain ⟨t, ht, hkt⟩ := iha s k res h1
      exact ⟨t, Or.inl ht, hkt⟩
    · obtain ⟨t, ht, hkt⟩ := ihb s k res h2
      exact ⟨t, Or.inr ht, hkt⟩
  | star g r ih =>
    intro s k res h
    simp only [Re.run] at h
    exact starLoop_sound (fun x y => Matches r x y) _ g (fun s k res h => ih s k res h)
      _ s k res h
  | cap i r ih =>
    intro s k res h
    simp only [Re.run] at h
    obtain ⟨m, hm, hk⟩ := ih s _ res h
    exact ⟨_, ⟨m, hm, rfl⟩, hk⟩
  | bos =>
    intro s k res h
    simp only [Re.run] at h
    split at h
    · rename_i hp
      exact ⟨s, ⟨hp, rfl⟩, h⟩
    · exact Option.noConfusion h
  | eos =>
    intro s k res h
    simp only [Re.run] at h
    split at h
    · rename_i hp
      exact ⟨s, ⟨by simpa using hp, rfl⟩, h⟩
    · exact Option.noConfusion h

theorem Consumed.refl (s : MState) : Consumed s [] s := ⟨rfl, rfl⟩

theorem Consumed.trans {s m t : MState} {w v : List Char}
    (h1 : Consumed s w m) (h2 : Consumed m v t) : Consumed s (w ++ v) t := by
  obtain ⟨a1, a2⟩ := h1
  obtain ⟨b1, b2⟩ := h2
  refine ⟨by rw [a1, b1, List.append_assoc], ?_⟩
  rw [b2, a2, List.length_append]
  omega

theorem iter_consumed (M : MState → MState → Prop)
    (hM : ∀ s t, M s t → ∃ w, Consumed s w t) (s t : MState) (h : Iter M s t) :
    ∃ w, Consumed s w t := by
  induction h with
  | nil s => exact ⟨[], Consumed.refl s⟩
  | cons s m t hm _ _ ih =>
    obtain ⟨w, hw⟩ := hM s m hm
    obtain ⟨v, hv⟩ := ih
    exact ⟨w ++ v, hw.trans hv⟩

/-- Every match consumes a word of the input. -/
theorem matches_consumed (r : Re) : ∀ (s t : MState), Matches r s t → ∃ w, Consumed s w t := by
  induction r with
  | eps =>
    intro s t h
    simp only [Matches] at h
    subst h
    exact ⟨[], Consumed.refl _⟩
  | cls p =>
    intro s t h
    obtain ⟨c, cs, hrest, -, rfl⟩ := h
    exact ⟨[c], by simpa using hrest, rfl⟩
  | seq a b iha ihb =>
    intro s t h
    obtain ⟨m, hm, ht⟩ := h
    obtain ⟨w, hw⟩ := iha s m hm
    obtain ⟨v, hv⟩ := ihb m t ht
    exact ⟨w ++ v, hw.trans hv⟩
  | alt a b iha ihb =>
    intro s t h
    rcases h with h | h
    · exact iha s t h
    · exact ihb s t h
  | star g r ih =>
    intro s t h
    exact iter_consumed _ ih s t h
  | cap i r ih =>
    intro s t h
    obtain ⟨m, hm, rfl⟩ := h
    obtain ⟨w, hw⟩ := ih s m hm
    exact ⟨w, hw.1, hw.2⟩
  | bos =>
    intro s t h
    obtain ⟨-, rfl⟩ := h
    exact ⟨[], Consumed.refl _⟩
  | eos =>
    intro s t h
    obtain ⟨-, rfl⟩ := h
    exact ⟨[], Consumed.refl _⟩

theorem consumed_progress {s t : MState} {w : List Char} (h : Consumed s w t)
    (hp : t.pos ≠ s.pos) : t.rest.length < s.rest.length := by
  obtain ⟨h1, h2⟩ := h
  have hw : w.length ≠ 0 := by
    intro h0
    exact hp (by rw [h2, h0]; rfl)
  rw [h1, List.length_append]
  omega

theorem starLoop_complete (M : MState → MState → Prop)
    (step : MState → (MState → Option MState) → Option MState) (g : Bool)
    (hstep : ∀ s t k, M s t → (k t).isSome = true → (step s k).isSome = true)
    (hM : ∀ s t, M s t → ∃ w, Consumed s w t)
    (s t : MState) (h : Iter M s t) :
    ∀ (n : Nat) (k : MState → Option MState), s.rest.length < n → (k t).isSome = true →
      (starLoop step g n s k).isSome = true := by
  induction h with
  | nil s =>
    intro n k hn hk
    cases n with
    | zero => exact absurd hn (by omega)
    | succ n =>
      simp only [starLoop]
      cases g with
      | true => exact orElse_isSome _ _ (Or.inr hk)
      | false => exact orElse_isSome _ _ (Or.inl hk)
  | cons s m t hm hp _ ih =>
    intro n k hn hk
    cases n with
    | zero => exact absurd hn (by omega)
    | succ n =>
      obtain ⟨w, hw⟩ := hM s m hm
      have hlt := consumed_progress hw hp
      have hrec := ih n k (by omega) hk
      have hmore : (step s (fun s' => if s'.pos = s.pos then none
          else starLoop step g n s' k)).isSome = true := by
        apply hstep s m _ hm
        simp only [hp, if_false]
        exact hrec
      simp only [starLoop]
      cases g with
      | true => exact orElse_isSome _ _ (Or.inl hmore)
      | false => exact orElse_isSome _ _ (Or.inr hmore)

/-- Completeness of the matcher: when the pattern reaches a state on which the
continuation succeeds, the matcher succeeds. -/
theorem run_complete (r : Re) :
    ∀ (s t : MState) (k : MState → Option MState),
      Matches r s t → (k t).isSome = true → (r.run s k).isSome = true := by
  induction r with
  | eps =>
    intro s t k h hk
    simp only [Matches] at h
    subst h
    exact hk
  | cls p =>
    intro s t k h hk
    obtain ⟨c, cs, hrest, hp, rfl⟩ := h
    simp only [Re.run, hrest, hp, if_true]
    exact hk
  | seq a b iha ihb =>
    intro s t k h hk
    obtain ⟨m, hm, ht⟩ := h
    simp only [Re.run]
    exact iha s m _ hm (ihb m t k ht hk)
  | alt a b iha ihb =>
    intro s t k h hk
    simp only [Re.run]
    rcases h with h | h
    · exact orElse_isSome _ _ (Or.inl (iha s t k h hk))
    · exact orElse_isSome _ _ (Or.inr (ihb s t k h hk))
  | star g r ih =>
    intro s t k h hk
    simp only [Re.run]
    exact starLoop_complete (fun x y => Matches r x y) _ g (fun s t k h hk => ih s t k h hk)
      (matches_consumed r) s t h _ k (by omega) hk
  | cap i r ih =>
    intro s t k h hk
    obtain ⟨m, hm, rfl⟩ := h
    simp only [Re.run]
    exact ih s m _ hm hk
  | bos =>
    intro s t k h hk
    obtain ⟨hp, rfl⟩ := h
    simp only [Re.run, hp, if_true]
    exact hk
  | eos =>
    intro s t k h hk
    obtain ⟨hp, rfl⟩ := h
    simp only [Re.run, hp, List.isEmpty_nil, if_true]
    exact hk

/-! ## Character classes, repetitions and the search for a start -/

theorem digit_eq : Re.digit = .cls isDigit := rfl

theorem dot_eq : Re.dot = .cls isDot := rfl

theorem space_eq : Re.space = .cls isSpace := rfl

theorem matches_cls (p : Char → Bool) (s t : MState) :
    Matches (.cls p) s t ↔ ∃ c cs, s.rest = c :: cs ∧ p c = true ∧ t = ⟨s.pos + 1, cs, s.caps⟩ :=
  Iff.rfl

theorem matches_chr (c : Char) (s t : MState) :
    Matches (Re.chr c) s t ↔ ∃ cs, s.rest = c :: cs ∧ t = ⟨s.pos + 1, cs, s.caps⟩ := by
  constructor
  · rintro ⟨c', cs, hrest, hp, rfl⟩
    have : c' = c := by simpa using hp
    subst this
    exact ⟨cs, hrest, rfl⟩
  · rintro ⟨cs, hrest, rfl⟩
    exact ⟨c, cs, hrest, by simp, rfl⟩

/-- A repetition of a character test consumes a run of characters that pass
the test and leaves the captures as they are. -/
theorem iter_cls (p : Char → Bool) (s t : MState)
    (h : Iter (fun x y => Matches (.cls p) x y) s t) :
    ∃ w, (∀ c ∈ w, p c = true) ∧ s.rest = w ++ t.rest ∧ t.pos = s.pos + w.length ∧
      t.caps = s.caps := by
  induction h with
  | nil s => exact ⟨[], by simp, rfl, rfl, rfl⟩
  | cons s m t hm _ _ ih =>
    obtain ⟨c, cs, hrest, hp, rfl⟩ := hm
    obtain ⟨w, hw, h1, h2, h3⟩ := ih
    refine ⟨c :: w, ?_, ?_, ?_, h3⟩
    · intro x hx
      rcases List.mem_cons.mp hx with rfl | hx
      · exact hp
      · exact hw x hx
    · rw [hrest]
      simp only at h1
      rw [h1]
      rfl
    · rw [h2]
      simp only [List.length_cons]
      omega

theorem iter_cls_intro (p : Char → Bool) (w : List Char) (hw : ∀ c ∈ w, p c = true) :
    ∀ (pos : Nat) (rest : List Char) (caps : List (Nat × Nat × Nat)),
      Iter (fun x y => Matches (.cls p) x y) ⟨pos, w ++ rest, caps⟩
        ⟨pos + w.length, rest, caps⟩ := by
  induction w with
  | nil =>
    intro pos rest caps
    exact Iter.nil _
  | cons c w ih =>
    intro pos rest caps
    have h1 := ih (fun x hx => hw x (List.mem_cons_of_mem _ hx)) (pos + 1) rest caps
    have heq : pos + (c :: w).length = pos + 1 + w.length := by
      simp only [List.length_cons]; omega
    rw [heq]
    refine Iter.cons _ ⟨pos + 1, w ++ rest, caps⟩ _ ?_ ?_ h1
    · exact ⟨c, w ++ rest, rfl, hw c (List.mem_cons_self _ _), rfl⟩
    · simp

theorem matches_star_cls (g : Bool) (p : Char → Bool) (s t : MState) :
    Matches (.star g (.cls p)) s t ↔
      ∃ w, (∀ c ∈ w, p c = true) ∧ s.rest = w ++ t.rest ∧ t.pos = s.pos + w.length ∧
        t.caps = s.caps := by
  constructor
  · intro h
    exact iter_cls p s t h
  · rintro ⟨w, hw, h1, h2, h3⟩
    have := iter_cls_intro p w hw s.pos t.rest s.caps
    have hs : s = ⟨s.pos, w ++ t.rest, s.caps⟩ := by rw [← h1]
    have ht : t = ⟨s.pos + w.length, t.rest, s.caps⟩ := by rw [← h2, ← h3]
    rw [hs, ht]
    exact this

theorem matches_plus_cls (p : Char → Bool) (s t : MState) :
    Matches (Re.plus (.cls p)) s t ↔
      ∃ w, w ≠ [] ∧ (∀ c ∈ w, p c = true) ∧ s.rest = w ++ t.rest ∧
        t.pos = s.pos + w.length ∧ t.caps = s.caps := by
  constructor
  · rintro ⟨m, ⟨c, cs, hrest, hp, rfl⟩, hm⟩
    obtain ⟨w, hw, h1, h2, h3⟩ := (matches_star_cls true p _ t).mp hm
    refine ⟨c :: w, by simp, ?_, ?_, ?_, h3⟩
    · intro x hx
      rcases List.mem_cons.mp hx with rfl | hx
      · exact hp
      · exact hw x hx
    · rw [hrest]
      simp only at h1
      rw [h1]
      rfl
    · rw [h2]
      simp only [List.length_cons]
      omega
  · rintro ⟨w, hne, hw, h1, h2, h3⟩
    cases w with
    | nil => exact absurd rfl hne
    | cons c w =>
      refine ⟨⟨s.pos + 1, w ++ t.rest, s.caps⟩, ⟨c, w ++ t.rest, h1, hw c (List.mem_cons_self _ _),
        rfl⟩, ?_⟩
      refine (matches_star_cls true p _ t).mpr ⟨w, fun x hx => hw x (List.mem_cons_of_mem _ hx),
        rfl, ?_, h3⟩
      rw [h2]
      simp only [List.length_cons]
      omega

theorem starLoop_greedy_scan (p : Char → Bool) (k : MState → Option MState)
    (step : MState → (MState → Option MState) → Option MState)
    (hstep : ∀ pos c cs caps k', step ⟨pos, c :: cs, caps⟩ k'
      = if p c = true then k' ⟨pos + 1, cs, caps⟩ else none)
    (hnil : ∀ pos caps k', step ⟨pos, [], caps⟩ k' = none) :
    ∀ (rest : List Char) (n pos : Nat) (caps : List (Nat × Nat × Nat)), rest.length < n →
      starLoop step true n ⟨pos, rest, caps⟩ k = greedyScan p k pos rest caps := by
  intro rest
  induction rest with
  | nil =>
    intro n pos caps hn
    cases n with
    | zero => exact absurd hn (by simp)
    | succ n =>
      simp only [starLoop, hnil, if_true, greedyScan]
      rfl
  | cons c cs ih =>
    intro n pos caps hn
    cases n with
    | zero => exact absurd hn (by simp)
    | succ n =>
      have hlen : cs.length < n := by
        simp only [List.length_cons] at hn
        omega
      simp only [starLoop, hstep, if_true, greedyScan]
      by_cases hp : p c = true
      · simp only [hp, if_true]
        have hne : ¬ (pos + 1 = pos) := by omega
        simp only [hne, if_false, ih n (pos + 1) caps hlen]
      · simp only [hp]
        rfl

/-- The greedy repetition of a character test is the scan from the longest run. -/
theorem run_star_greedy_cls (p : Char → Bool) (s : MState) (k : MState → Option MState) :
    (Re.star true (.cls p)).run s k = greedyScan p k s.pos s.rest s.caps := by
  simp only [Re.run]
  exact starLoop_greedy_scan p k _ (fun pos c cs caps k' => rfl) (fun pos caps k' => rfl)
    s.rest _ s.pos s.caps (by omega)

theorem greedyScan_none (p : Char → Bool) (k : MState → Option MState)
    (caps : List (Nat × Nat × Nat)) :
    ∀ (rest : List Char) (pos : Nat),
      (∀ a b, rest = a ++ b → (∀ c ∈ a, p c = true) → k ⟨pos + a.length, b, caps⟩ = none) →
      greedyScan p k pos rest caps = none := by
  intro rest
  induction rest with
  | nil =>
    intro pos h
    simpa [greedyScan] using h [] [] rfl (by simp)
  | cons c cs ih =>
    intro pos h
    have h0 : k ⟨pos, c :: cs, caps⟩ = none := by
      simpa using h [] (c :: cs) rfl (by simp)
    by_cases hp : p c = true
    · have hin : greedyScan p k (pos + 1) cs caps = none := by
        apply ih
        intro a b hab ha
        have := h (c :: a) b (by rw [hab]; rfl) (by
          intro x hx
          rcases List.mem_cons.mp hx with rfl | hx
          · exact hp
          · exact ha x hx)
        simpa [Nat.add_assoc, Nat.add_comm 1] using this
      simp [greedyScan, hp, hin, h0]
    · simp [greedyScan, hp, h0]

/-- A greedy scan stops at the last place where the continuation succeeds. -/
theorem greedyScan_last (p : Char → Bool) (k : MState → Option MState)
    (caps : List (Nat × Nat × Nat)) (b : List Char) (res : MState) :
    ∀ (a : List Char) (pos : Nat), (∀ c ∈ a, p c = true) →
      k ⟨pos + a.length, b, caps⟩ = some res →
      (∀ b1 b2, b = b1 ++ b2 → b1 ≠ [] → (∀ c ∈ b1, p c = true) →
        k ⟨pos + a.length + b1.length, b2, caps⟩ = none) →
      greedyScan p k pos (a ++ b) caps = some res := by
  intro a
  induction a with
  | nil =>
    intro pos _ hk hdeep
    simp only [List.length_nil, Nat.add_zero] at hk hdeep
    cases b with
    | nil => simpa [greedyScan] using hk
    | cons c cs =>
      by_cases hp : p c = true
      · have hin : greedyScan p k (pos + 1) cs caps = none := by
          apply greedyScan_none
          intro a' b' hab ha
          have := hdeep (c :: a') b' (by rw [hab]; rfl) (by simp) (by
            intro x hx
            rcases List.mem_cons.mp hx with rfl | hx
            · exact hp
            · exact ha x hx)
          simpa [Nat.add_assoc, Nat.add_comm 1] using this
        simp [greedyScan, hp, hin, hk]
      · simp [greedyScan, hp, hk]
  | cons c a ih =>
    intro pos ha hk hdeep
    have hp : p c = true := ha c (List.mem_cons_self _ _)
    have hin : greedyScan p k (pos + 1) (a ++ b) caps = some res := by
      apply ih (pos + 1) (fun x hx => ha x (List.mem_cons_of_mem _ hx))
      · simpa [Nat.add_assoc, Nat.add_comm 1] using hk
      · intro b1 b2 hb hne hb1
        have := hdeep b1 b2 hb hne hb1
        simpa [Nat.add_assoc, Nat.add_comm 1] using this
    simp [greedyScan, hp, hin]

/-- The search for a start skips the positions at which the pattern fails. -/
theorem execFrom_found (re : Re) (rest : List Char) (res : MState) :
    ∀ (w : List Char) (pos : Nat),
      (∀ a b, w = a ++ b → b ≠ [] → re.run ⟨pos + a.length, b ++ rest, []⟩ some = none) →
      re.run ⟨pos + w.length, rest, []⟩ some = some res →
      execFrom re pos (w ++ rest) = some res := by
  intro w
  induction w with
  | nil =>
    intro pos _ hrun
    simp only [List.length_nil, Nat.add_zero] at hrun
    cases rest with
    | nil => simpa [execFrom] using hrun
    | cons c cs => simp [execFrom, hrun]
  | cons c w ih =>
    intro pos hfail hrun
    have h0 : re.run ⟨pos, (c :: w) ++ rest, []⟩ some = none := by
      simpa using hfail [] (c :: w) rfl (by simp)
    have hin : execFrom re (pos + 1) (w ++ rest) = some res := by
      apply ih (pos + 1)
      · intro a b hab hne
        have := hfail (c :: a) b (by rw [hab]; rfl) hne
        simpa [Nat.add_assoc, Nat.add_comm 1] using this
      · simpa [Nat.add_assoc, Nat.add_comm 1] using hrun
    show ((re.run ⟨pos, c :: (w ++ rest), []⟩ some).orElse
      fun _ => execFrom re (pos + 1) (w ++ rest)) = some res
    simp only [List.cons_append] at h0
    rw [h0]
    exact hin

/-- When no start position succeeds, the search fails. -/
theorem execFrom_none (re : Re) :
    ∀ (w : List Char) (pos : Nat),
      (∀ a b, w = a ++ b → re.run ⟨pos + a.length, b, []⟩ some = none) →
      execFrom re pos w = none := by
  intro w
  induction w with
  | nil =>
    intro pos h
    simpa [execFrom] using h [] [] rfl
  | cons c w ih =>
    intro pos h
    have h0 : re.run ⟨pos, c :: w, []⟩ some = none := by simpa using h [] (c :: w) rfl
    have hin : execFrom re (pos + 1) w = none := by
      apply ih
      intro a b hab
      have := h (c :: a) b (by rw [hab]; rfl)
      simpa [Nat.add_assoc, Nat.add_comm 1] using this
    simp only [execFrom, h0]
    exact hin

/-- A result of the search comes from some start position. -/
theorem execFrom_some (re : Re) (res : MState) :
    ∀ (w : List Char) (pos : Nat), execFrom re pos w = some res →
      ∃ a b, w = a ++ b ∧ re.run ⟨pos + a.length, b, []⟩ some = some res := by
  intro w
  induction w with
  | nil =>
    intro pos h
    exact ⟨[], [], rfl, by simpa [execFrom] using h⟩
  | cons c w ih =>
    intro pos h
    simp only [execFrom] at h
    rcases orElse_eq_some _ _ _ h with h1 | ⟨-, h2⟩
    · exact ⟨[], c :: w, rfl, by simpa using h1⟩
    · obtain ⟨a, b, hab, hrun⟩ := ih (pos + 1) h2
      refine ⟨c :: a, b, by rw [hab]; rfl, ?_⟩
      simpa [Nat.add_assoc, Nat.add_comm 1] using hrun

/-! ## The pattern of `stripLineAndColumnNumbers` -/

theorem digit_ne_colon (c : Char) (h : isDigit c = true) : c ≠ ':' := by
  rintro rfl
  exact absurd h (by decide)

theorem count_colon_digits (w : List Char) (h : ∀ c ∈ w, isDigit c = true) :
    w.count ':' = 0 := by
  rw [List.count_eq_zero]
  intro hm
  exact digit_ne_colon ':' (h ':' hm) rfl

theorem matches_lineColumn (s t : MState) :
    Matches lineColumnRe s t ↔
      ∃ d1 d2, d1 ≠ [] ∧ d2 ≠ [] ∧ (∀ c ∈ d1, isDigit c = true) ∧
        (∀ c ∈ d2, isDigit c = true) ∧ s.rest = ':' :: d1 ++ ':' :: d2 ∧
        t = ⟨s.pos + (d1.length + d2.length + 2), [], s.caps⟩ := by
  simp only [lineColumnRe, Re.cat, digit_eq]
  constructor
  · rintro ⟨m1, h1, m2, h2, m3, h3, m4, h4, h5, rfl⟩
    obtain ⟨cs1, e1, rfl⟩ := (matches_chr ':' s m1).mp h1
    obtain ⟨d1, n1, p1, r1, q1, c1⟩ := (matches_plus_cls isDigit _ m2).mp h2
    obtain ⟨cs3, e3, rfl⟩ := (matches_chr ':' m2 m3).mp h3
    obtain ⟨d2, n2, p2, r2, q2, c2⟩ := (matches_plus_cls isDigit _ t).mp h4
    simp only at r1 q1 c1 r2 q2 c2
    refine ⟨d1, d2, n1, n2, p1, p2, ?_, ?_⟩
    · rw [e1, r1, e3, r2, h5]
      simp
    · cases t with
      | mk tp tr tc =>
        simp only at h5 q2 c2
        subst h5
        simp only [MState.mk.injEq, true_and]
        exact ⟨by omega, by rw [c2, c1]⟩
  · rintro ⟨d1, d2, n1, n2, p1, p2, hrest, rfl⟩
    refine ⟨⟨s.pos + 1, d1 ++ ':' :: d2, s.caps⟩, (matches_chr ':' s _).mpr ⟨_, hrest, rfl⟩,
      ⟨s.pos + 1 + d1.length, ':' :: d2, s.caps⟩,
      (matches_plus_cls isDigit _ _).mpr ⟨d1, n1, p1, rfl, rfl, rfl⟩,
      ⟨s.pos + 1 + d1.length + 1, d2, s.caps⟩, (matches_chr ':' _ _).mpr ⟨_, rfl, rfl⟩,
      ⟨s.pos + (d1.length + d2.length + 2), [], s.caps⟩,
      (matches_plus_cls isDigit _ _).mpr ⟨d2, n2, p2, by simp, by simp only; omega, rfl⟩,
      rfl, rfl⟩

theorem no_lineColumn_before (x l c d1 d2 : List Char) (hx : x ≠ [])
    (hl : ∀ a ∈ l, isDigit a = true) (hc : ∀ a ∈ c, isDigit a = true)
    (h1 : ∀ a ∈ d1, isDigit a = true) (h2 : ∀ a ∈ d2, isDigit a = true)
    (h : x ++ ':' :: l ++ ':' :: c = ':' :: d1 ++ ':' :: d2) : False := by
  have hcount := congrArg (List.count ':') h
  simp only [List.count_append, List.count_cons_self, List.cons_append,
    count_colon_digits l hl, count_colon_digits c hc, count_colon_digits d1 h1,
    count_colon_digits d2 h2] at hcount
  cases x with
  | nil => exact hx rfl
  | cons a x =>
    simp only [List.cons_append, List.cons.injEq] at h
    obtain ⟨rfl, -⟩ := h
    simp only [List.count_cons_self] at hcount
    omega

/-- A trailing `:<line>:<col>` is what `stripLineAndColumnNumbers` removes. -/
theorem strip_line_column (u l c : List Char) (hl0 : l ≠ []) (hc0 : c ≠ [])
    (hl : ∀ a ∈ l, isDigit a = true) (hc : ∀ a ∈ c, isDigit a = true) :
    stripLineAndColumnNumbers (String.mk (u ++ ':' :: l ++ ':' :: c)) = String.mk u := by
  have hfail : ∀ a b, u = a ++ b → b ≠ [] →
      (Re.cap 0 lineColumnRe).run ⟨0 + a.length, b ++ (':' :: l ++ ':' :: c), []⟩ some
        = none := by
    intro a b _ hb
    cases hrun : (Re.cap 0 lineColumnRe).run ⟨0 + a.length, b ++ (':' :: l ++ ':' :: c), []⟩
      some with
    | none => rfl
    | some res =>
      exfalso
      obtain ⟨t, ⟨m, hm, -⟩, -⟩ := run_sound _ _ _ _ hrun
      obtain ⟨d1, d2, -, -, p1, p2, hrest, -⟩ := (matches_lineColumn _ m).mp hm
      exact no_lineColumn_before b l c d1 d2 hb hl hc p1 p2 (by simpa using hrest)
  have hm : Matches (Re.cap 0 lineColumnRe) ⟨0 + u.length, ':' :: l ++ ':' :: c, []⟩
      ⟨0 + u.length + (l.length + c.length + 2), [],
        [(0, 0 + u.length, 0 + u.length + (l.length + c.length + 2))]⟩ :=
    ⟨_, (matches_lineColumn _ _).mpr ⟨l, c, hl0, hc0, hl, hc, rfl, rfl⟩, rfl⟩
  have hsome := run_complete _ _ _ some hm rfl
  obtain ⟨res, hres⟩ := Option.isSome_iff_exists.mp hsome
  obtain ⟨t, ⟨m, hmm, ht⟩, hk⟩ := run_sound _ _ _ _ hres
  obtain ⟨d1, d2, -, -, -, -, hrest, hmeq⟩ := (matches_lineColumn _ m).mp hmm
  have hlen : d1.length + d2.length = l.length + c.length := by
    have := congrArg List.length hrest
    simp only [List.length_cons, List.length_append] at this
    omega
  have hexec := execFrom_found (Re.cap 0 lineColumnRe) (':' :: l ++ ':' :: c) res u 0 hfail hres
  have hcaps : res.caps = [(0, u.length, u.length + (l.length + c.length + 2))] := by
    have : res = t := (Option.some.inj hk).symm
    rw [this, ht, hmeq]
    simp only [Nat.zero_add, hlen]
  unfold stripLineAndColumnNumbers jsReplaceEmpty jsMatch
  have hdata : (String.mk (u ++ ':' :: l ++ ':' :: c)).data = u ++ (':' :: l ++ ':' :: c) := by
    simp
  rw [hdata, hexec]
  simp only [Option.map_some', Match.span, hcaps, List.find?_cons_of_pos, beq_self_eq_true]
  congr 1
  have h1 : (u ++ (':' :: l ++ ':' :: c)).take u.length = u := by simp
  have h2 : (u ++ (':' :: l ++ ':' :: c)).drop (u.length + (l.length + c.length + 2)) = [] := by
    apply List.drop_eq_nil_of_le
    simp only [List.length_append, List.length_cons]
    omega
  rw [h1, h2, List.append_nil]

/-! ## The pattern of `getOriginatingScriptUrl` -/

theorem httpUrlRe_eq :
    httpUrlRe = .seq (Re.chr '(')
      (.cap 1 (.seq (Re.word "http") (.seq (.star true (.cls isDot)) lineColTail))) := rfl

theorem matches_word_http (s t : MState) :
    Matches (Re.word "http") s t ↔
      ∃ r, s.rest = 'h' :: 't' :: 't' :: 'p' :: r ∧ t = ⟨s.pos + 4, r, s.caps⟩ := by
  have hw : Re.word "http"
      = .seq (Re.chr 'h') (.seq (Re.chr 't') (.seq (Re.chr 't') (Re.chr 'p'))) := rfl
  rw [hw]
  constructor
  · rintro ⟨m1, h1, m2, h2, m3, h3, h4⟩
    obtain ⟨c1, e1, rfl⟩ := (matches_chr _ _ _).mp h1
    obtain ⟨c2, e2, rfl⟩ := (matches_chr _ _ _).mp h2
    obtain ⟨c3, e3, rfl⟩ := (matches_chr _ _ _).mp h3
    obtain ⟨c4, e4, rfl⟩ := (matches_chr _ _ _).mp h4
    simp only at e2 e3 e4
    exact ⟨c4, by rw [e1, e2, e3, e4], rfl⟩
  · rintro ⟨r, hr, rfl⟩
    exact ⟨⟨s.pos + 1, 't' :: 't' :: 'p' :: r, s.caps⟩, (matches_chr _ _ _).mpr ⟨_, hr, rfl⟩,
      ⟨s.pos + 1 + 1, 't' :: 'p' :: r, s.caps⟩, (matches_chr _ _ _).mpr ⟨_, rfl, rfl⟩,
      ⟨s.pos + 1 + 1 + 1, 'p' :: r, s.caps⟩, (matches_chr _ _ _).mpr ⟨_, rfl, rfl⟩,
      (matches_chr _ _ _).mpr ⟨_, rfl, rfl⟩⟩

theorem matches_lineColTail (s t : MState) :
    Matches lineColTail s t ↔
      ∃ d1 d2, d1 ≠ [] ∧ d2 ≠ [] ∧ (∀ c ∈ d1, isDigit c = true) ∧
        (∀ c ∈ d2, isDigit c = true) ∧ s.rest = ':' :: d1 ++ ':' :: d2 ++ t.rest ∧
        t.pos = s.pos + (d1.length + d2.length + 2) ∧ t.caps = s.caps := by
  simp only [lineColTail, Re.cat, digit_eq]
  constructor
  · rintro ⟨m1, h1, m2, h2, m3, h3, h4⟩
    obtain ⟨cs1, e1, rfl⟩ := (matches_chr ':' s m1).mp h1
    obtain ⟨d1, n1, p1, r1, q1, c1⟩ := (matches_plus_cls isDigit _ m2).mp h2
    obtain ⟨cs3, e3, rfl⟩ := (matches_chr ':' m2 m3).mp h3
    obtain ⟨d2, n2, p2, r2, q2, c2⟩ := (matches_plus_cls isDigit _ t).mp h4
    simp only at r1 q1 c1 r2 q2 c2
    refine ⟨d1, d2, n1, n2, p1, p2, ?_, by omega, by rw [c2, c1]⟩
    rw [e1, r1, e3, r2]
    simp
  · rintro ⟨d1, d2, n1, n2, p1, p2, hrest, hpos, hcaps⟩
    refine ⟨⟨s.pos + 1, d1 ++ ':' :: d2 ++ t.rest, s.caps⟩,
      (matches_chr ':' s _).mpr ⟨_, by simpa using hrest, rfl⟩,
      ⟨s.pos + 1 + d1.length, ':' :: d2 ++ t.rest, s.caps⟩,
      (matches_plus_cls isDigit _ _).mpr ⟨d1, n1, p1, by simp, rfl, rfl⟩,
      ⟨s.pos + 1 + d1.length + 1, d2 ++ t.rest, s.caps⟩,
      (matches_chr ':' _ _).mpr ⟨_, by simp, rfl⟩,
      (matches_plus_cls isDigit _ _).mpr ⟨d2, n2, p2, rfl, by simp only; omega, hcaps⟩⟩

/-- When the pattern matches, the text at the start is `(http`. -/
theorem matches_httpUrl_start (s t : MState) (h : Matches (Re.cap 0 httpUrlRe) s t) :
    ∃ r, s.rest = '(' :: 'h' :: 't' :: 't' :: 'p' :: r := by
  rw [httpUrlRe_eq] at h
  obtain ⟨m, ⟨m1, h1, m2, ⟨m3, h3, -⟩, -⟩, -⟩ := h
  obtain ⟨cs, e1, rfl⟩ := (matches_chr _ _ _).mp h1
  obtain ⟨r, e2, -⟩ := (matches_word_http _ _).mp h3
  simp only at e2
  exact ⟨r, by rw [e1, e2]⟩

/-- The run of a digit string up to a colon is determined. -/
theorem digits_before_colon (d l x y : List Char)
    (hd : ∀ a ∈ d, isDigit a = true) (hl : ∀ a ∈ l, isDigit a = true)
    (h : d ++ ':' :: x = l ++ ':' :: y) : d = l ∧ x = y := by
  induction d generalizing l with
  | nil =>
    cases l with
    | nil => simpa using h
    | cons b l =>
      simp only [List.nil_append, List.cons_append, List.cons.injEq] at h
      exact absurd h.1.symm (digit_ne_colon b (hl b (List.mem_cons_self _ _)))
  | cons a d ih =>
    cases l with
    | nil =>
      simp only [List.nil_append, List.cons_append, List.cons.injEq] at h
      exact absurd h.1 (digit_ne_colon a (hd a (List.mem_cons_self _ _)))
    | cons b l =>
      simp only [List.cons_append, List.cons.injEq] at h
      obtain ⟨rfl, h⟩ := h
      obtain ⟨rfl, rfl⟩ := ih l (fun c hc => hd c (List.mem_cons_of_mem _ hc))
        (fun c hc => hl c (List.mem_cons_of_mem _ hc)) h
      exact ⟨rfl, rfl⟩

theorem prefix_of_straddle (b r y : List Char) (hb : b ≠ [])
    (h : b ++ '(' :: r = '(' :: 'h' :: 't' :: 't' :: 'p' :: y) :
    ['(', 'h', 't', 't', 'p'] <+: b := by
  rcases b with _ | ⟨c1, _ | ⟨c2, _ | ⟨c3, _ | ⟨c4, _ | ⟨c5, b⟩⟩⟩⟩⟩
  · exact absurd rfl hb
  · simp at h
  · simp at h
  · simp at h
  · simp at h
  · simp only [List.cons_append, List.cons.injEq] at h
    obtain ⟨rfl, rfl, rfl, rfl, rfl, -⟩ := h
    exact ⟨b, rfl⟩

theorem run_httpUrl_at (p : Nat) (r : List Char) :
    (Re.cap 0 httpUrlRe).run ⟨p, '(' :: 'h' :: 't' :: 't' :: 'p' :: r, []⟩ some
      = greedyScan isDot
          (fun s' => lineColTail.run s'
            (fun s'' => some ⟨s''.pos, s''.rest,
              (0, p, s''.pos) :: (1, p + 1, s''.pos) :: s''.caps⟩))
          (p + 5) r [] := by
  rw [← run_star_greedy_cls isDot ⟨p + 5, r, []⟩]
  rfl

theorem count_colon_none (w : List Char) (h : ':' ∉ w) : w.count ':' = 0 :=
  List.count_eq_zero.mpr h

/-- The match of the pattern on `pre ( http u' : l : c post`: the state reached
and the digits taken for the column. -/
theorem exec_httpUrl (pre u' l c post : List Char)
    (hdot : ∀ a ∈ u', isDot a = true)
    (hl0 : l ≠ []) (hc0 : c ≠ [])
    (hl : ∀ a ∈ l, isDigit a = true) (hc : ∀ a ∈ c, isDigit a = true)
    (hpre : ¬ ['(', 'h', 't', 't', 'p'] <:+: pre) (hpost : ':' ∉ post) :
    ∃ d2 rest' e, d2 ≠ [] ∧ (∀ a ∈ d2, isDigit a = true) ∧ c ++ post = d2 ++ rest' ∧
      e = pre.length + 5 + u'.length + (l.length + d2.length + 2) ∧
      execFrom (Re.cap 0 httpUrlRe) 0
          (pre ++ '(' :: 'h' :: 't' :: 't' :: 'p' :: (u' ++ (':' :: l ++ ':' :: (c ++ post))))
        = some ⟨e, rest', [(0, pre.length, e), (1, pre.length + 1, e)]⟩ := by
  have hmt : Matches lineColTail ⟨pre.length + 5 + u'.length, ':' :: l ++ ':' :: (c ++ post), []⟩
      ⟨pre.length + 5 + u'.length + (l.length + c.length + 2), post, []⟩ :=
    (matches_lineColTail _ _).mpr ⟨l, c, hl0, hc0, hl, hc, by simp, rfl, rfl⟩
  have hsome := run_complete lineColTail _ _
    (fun s'' => some ⟨s''.pos, s''.rest,
      (0, pre.length, s''.pos) :: (1, pre.length + 1, s''.pos) :: s''.caps⟩) hmt rfl
  obtain ⟨res, hres⟩ := Option.isSome_iff_exists.mp hsome
  obtain ⟨t, ht, hk⟩ := run_sound _ _ _ _ hres
  obtain ⟨d1, d2, -, n2, p1, p2, hrest, hpos, hcaps⟩ := (matches_lineColTail _ t).mp ht
  simp only at hrest hpos hcaps
  have hsplit : d1 ++ ':' :: (d2 ++ t.rest) = l ++ ':' :: (c ++ post) := by
    have := hrest
    simp only [List.cons_append, List.cons.injEq, true_and, List.append_assoc] at this
    exact this.symm
  obtain ⟨rfl, hrest2⟩ := digits_before_colon d1 l _ _ p1 hl hsplit
  have hdeep : ∀ b1 b2, ':' :: d1 ++ ':' :: (c ++ post) = b1 ++ b2 → b1 ≠ [] →
      (∀ a ∈ b1, isDot a = true) →
      lineColTail.run ⟨pre.length + 5 + u'.length + b1.length, b2, []⟩
        (fun s'' => some ⟨s''.pos, s''.rest,
          (0, pre.length, s''.pos) :: (1, pre.length + 1, s''.pos) :: s''.caps⟩) = none := by
    intro b1 b2 hb hne _
    cases hrun : lineColTail.run ⟨pre.length + 5 + u'.length + b1.length, b2, []⟩
      (fun s'' => some ⟨s''.pos, s''.rest,
        (0, pre.length, s''.pos) :: (1, pre.length + 1, s''.pos) :: s''.caps⟩) with
    | none => rfl
    | some r =>
      exfalso
      obtain ⟨t', ht', -⟩ := run_sound _ _ _ _ hrun
      obtain ⟨e1, e2, -, -, q1, q2, hr, -, -⟩ := (matches_lineColTail _ t').mp ht'
      simp only at hr
      cases b1 with
      | nil => exact hne rfl
      | cons x b1 =>
        simp only [List.cons_append, List.cons.injEq] at hb
        obtain ⟨-, hb⟩ := hb
        have hcount := congrArg (List.count ':') hb
        rw [hr] at hcount
        simp only [List.count_append, List.count_cons_self, List.cons_append,
          count_colon_digits d1 hl, count_colon_digits c hc, count_colon_none post hpost,
          count_colon_digits e1 q1, count_colon_digits e2 q2] at hcount
        omega
  have hscan := greedyScan_last isDot
    (fun s' => lineColTail.run s'
      (fun s'' => some ⟨s''.pos, s''.rest,
        (0, pre.length, s''.pos) :: (1, pre.length + 1, s''.pos) :: s''.caps⟩))
    [] (':' :: d1 ++ ':' :: (c ++ post)) res u' (pre.length + 5) hdot hres hdeep
  have hrun : (Re.cap 0 httpUrlRe).run
      ⟨0 + pre.length, '(' :: 'h' :: 't' :: 't' :: 'p' :: (u' ++ (':' :: d1 ++ ':' :: (c ++ post))),
        []⟩ some = some res := by
    rw [Nat.zero_add, run_httpUrl_at]
    exact hscan
  have hfail : ∀ a b, pre = a ++ b → b ≠ [] →
      (Re.cap 0 httpUrlRe).run
        ⟨0 + a.length,
          b ++ '(' :: 'h' :: 't' :: 't' :: 'p' :: (u' ++ (':' :: d1 ++ ':' :: (c ++ post))), []⟩
        some = none := by
    intro a b hab hb
    cases hr : (Re.cap 0 httpUrlRe).run
        ⟨0 + a.length,
          b ++ '(' :: 'h' :: 't' :: 't' :: 'p' :: (u' ++ (':' :: d1 ++ ':' :: (c ++ post))), []⟩
        some with
    | none => rfl
    | some r =>
      exfalso
      obtain ⟨t', ht', -⟩ := run_sound _ _ _ _ hr
      obtain ⟨y, hy⟩ := matches_httpUrl_start _ _ ht'
      obtain ⟨z, hz⟩ := prefix_of_straddle b _ y hb hy
      exact hpre ⟨a, z, by rw [hab, ← hz]; simp⟩
  have hexec := execFrom_found (Re.cap 0 httpUrlRe) _ res pre 0 hfail hrun
  have hreseq : res = ⟨t.pos, t.rest,
      (0, pre.length, t.pos) :: (1, pre.length + 1, t.pos) :: t.caps⟩ :=
    (Option.some.inj hk).symm
  refine ⟨d2, t.rest, t.pos, n2, p2, hrest2.symm, hpos, ?_⟩
  rw [hexec, hreseq, hcaps]

/-- The expression of lines 154 and 170 on a text `pre ( http u' : l : c post`:
the result is `http u'`. -/
theorem urlOrStripped_http (s : String) (pre u' l c post : List Char)
    (hs : s.data
      = pre ++ '(' :: 'h' :: 't' :: 't' :: 'p' :: (u' ++ (':' :: l ++ ':' :: (c ++ post))))
    (hdot : ∀ a ∈ u', isDot a = true)
    (hl0 : l ≠ []) (hc0 : c ≠ [])
    (hl : ∀ a ∈ l, isDigit a = true) (hc : ∀ a ∈ c, isDigit a = true)
    (hpre : ¬ ['(', 'h', 't', 't', 'p'] <:+: pre) (hpost : ':' ∉ post) :
    urlOrStripped s = String.mk ('h' :: 't' :: 't' :: 'p' :: u') := by
  obtain ⟨d2, rest', e, n2, p2, hsplit, he, hexec⟩ :=
    exec_httpUrl pre u' l c post hdot hl0 hc0 hl hc hpre hpost
  have hinp : s.data = (pre ++ ['(']) ++
      (('h' :: 't' :: 't' :: 'p' :: u' ++ ':' :: l ++ ':' :: d2) ++ rest') := by
    rw [hs, hsplit]
    simp
  have hdrop : (s.data.drop (pre.length + 1))
      = ('h' :: 't' :: 't' :: 'p' :: u' ++ ':' :: l ++ ':' :: d2) ++ rest' := by
    rw [hinp]
    exact List.drop_left' (by simp)
  have htake : (s.data.drop (pre.length + 1)).take (e - (pre.length + 1))
      = 'h' :: 't' :: 't' :: 'p' :: u' ++ ':' :: l ++ ':' :: d2 := by
    rw [hdrop]
    apply List.take_left'
    rw [he]
    simp only [List.length_append, List.length_cons]
    omega
  have hgroup : (jsMatch httpUrlRe s).bind (fun m => m.group 1)
      = some (String.mk ('h' :: 't' :: 't' :: 'p' :: u' ++ ':' :: l ++ ':' :: d2)) := by
    unfold jsMatch
    rw [hs, hexec]
    simp only [Option.map_some', Option.some_bind, Match.group, Match.span]
    have hfind : List.find? (fun c : Nat × Nat × Nat => c.1 == 1)
        [(0, pre.length, e), (1, pre.length + 1, e)] = some (1, pre.length + 1, e) := by
      simp [List.find?]
    rw [hfind]
    simp only [Option.map_some']
    rw [← hs, htake]
  have hstrip := strip_line_column ('h' :: 't' :: 't' :: 'p' :: u') l d2 hl0 n2 hl p2
  unfold urlOrStripped
  cases hm : jsMatch httpUrlRe s with
  | none => rw [hm] at hgroup; exact Option.noConfusion hgroup
  | some m =>
    rw [hm] at hgroup
    simp only [Option.some_bind] at hgroup
    simp only [hgroup, hstrip]
    have hne : (String.mk ('h' :: 't' :: 't' :: 'p' :: u') = "") = False := by
      apply eq_false
      intro h
      have := congrArg String.data h
      simp at this
    simp only [hne, if_false]

/-! ## The structured resolver on the caller's frame -/

/-- C19, counterexample: the eval origin of a nested eval holds `(` followed by
the URL `http://h/a.js` and `:10:5`, then a second position `:1:1`; the greedy
`.*` of the pattern runs to the last position, and the resolver returns
`http://h/a.js:10:5), <anonymous>`, not the URL. -/
theorem nested_eval_origin_keeps_position :
    getOriginatingScriptUrl
        (.structured [ownFrame, ownFrame,
          ⟨true, "eval at g (eval at f (http://h/a.js:10:5), <anonymous>:1:1)", .undefined⟩])
      = .ok (.str "http://h/a.js:10:5), <anonymous>") ∧
    getOriginatingScriptUrl
        (.structured [ownFrame, ownFrame,
          ⟨true, "eval at g (eval at f (http://h/a.js:10:5), <anonymous>:1:1)", .undefined⟩])
      ≠ .ok (.str "http://h/a.js") := by
  decide

/-- C19, amended: on a structured trace with a call site at index 2 the result
is decided by that call site only.  When it is not an eval frame the result is
exactly its `getFileName()` value.  When it is an eval frame whose eval origin
reads `pre ( u :l:c post`, where `u` starts with lowercase `http` and holds no
line terminator, `l` and `c` are non-empty digit strings, `(http` does not
occur inside `pre` and no colon occurs in `post`, the result is `u`. -/
theorem structured_resolver_result (frames : List CallSite) (callSite : CallSite)
    (h2 : frames.get? 2 = some callSite) :
    (callSite.isEval = false →
      getOriginatingScriptUrl (.structured frames) = .ok callSite.getFileName) ∧
    (callSite.isEval = true → ∀ pre u' l c post : List Char,
      callSite.getEvalOrigin.data
        = pre ++ '(' :: 'h' :: 't' :: 't' :: 'p' :: (u' ++ (':' :: l ++ ':' :: (c ++ post))) →
      (∀ a ∈ u', isDot a = true) → l ≠ [] → c ≠ [] →
      (∀ a ∈ l, isDigit a = true) → (∀ a ∈ c, isDigit a = true) →
      ¬ ['(', 'h', 't', 't', 'p'] <:+: pre → ':' ∉ post →
      getOriginatingScriptUrl (.structured frames)
        = .ok (.str (String.mk ('h' :: 't' :: 't' :: 'p' :: u')))) ∧
    (∀ frames' : List CallSite, frames'.get? 2 = some callSite →
      getOriginatingScriptUrl (.structured frames')
        = getOriginatingScriptUrl (.structured frames)) := by
  have hres : ∀ fs : List CallSite, fs.get? 2 = some callSite →
      getOriginatingScriptUrl (.structured fs)
        = if callSite.isEval then .ok (.str (urlOrStripped callSite.getEvalOrigin))
          else .ok callSite.getFileName := by
    intro fs hfs
    have hlen : ¬ fs.length < 2 := by
      intro hlt
      have : fs.get? 2 = none := List.get?_eq_none.mpr (by omega)
      rw [this] at hfs
      exact Option.noConfusion hfs
    unfold getOriginatingScriptUrl
    simp only [hlen, if_false]
    rw [hfs]
  refine ⟨?_, ?_, ?_⟩
  · intro he
    rw [hres frames h2]
    simp [he]
  · intro he pre u' l c post hs hdot hl0 hc0 hl hc hpre hpost
    rw [hres frames h2]
    simp only [he, if_true]
    rw [urlOrStripped_http callSite.getEvalOrigin pre u' l c post hs hdot hl0 hc0 hl hc
      hpre hpost]
  · intro frames' h2'
    rw [hres frames h2, hres frames' h2']

/-- Witness for the amended C19: the eval origin
`eval at f (http://h/a.js:10:5)` gives `http://h/a.js`. -/
theorem structured_resolver_result_witness :
    getOriginatingScriptUrl
        (.structured [ownFrame, ownFrame, ⟨true, "eval at f (http://h/a.js:10:5)", .undefined⟩])
      = .ok (.str "http://h/a.js") :=
  (structured_resolver_result
      [ownFrame, ownFrame, ⟨true, "eval at f (http://h/a.js:10:5)", .undefined⟩]
      ⟨true, "eval at f (http://h/a.js:10:5)", .undefined⟩ rfl).2.1 rfl
    "eval at f ".data "://h/a.js".data "10".data "5".data ")".data rfl
    (by decide) (by decide) (by decide) (by decide) (by decide) (by decide) (by decide)

/-! ## The pattern of the fallback resolver -/

theorem geckoCallSiteRe_eq : geckoCallSiteRe = .seq .bos geckoBody := rfl

theorem geckoBody_eq : geckoBody
    = .seq (.star true Re.space) (.seq (.cap 1 (.star false Re.dot)) (.seq geckoAlias
        (.seq (Re.opt (Re.chrI '@')) (.seq geckoUrl geckoTail)))) := rfl

theorem geckoUrl_eq : geckoUrl
    = .cap 3 (.seq geckoScheme (.seq (Re.chrI ':') (.star false Re.dot))) := rfl

theorem starLoop_lazy_scan (p : Char → Bool) (k : MState → Option MState)
    (step : MState → (MState → Option MState) → Option MState)
    (hstep : ∀ pos c cs caps k', step ⟨pos, c :: cs, caps⟩ k'
      = if p c = true then k' ⟨pos + 1, cs, caps⟩ else none)
    (hnil : ∀ pos caps k', step ⟨pos, [], caps⟩ k' = none) :
    ∀ (rest : List Char) (n pos : Nat) (caps : List (Nat × Nat × Nat)), rest.length < n →
      starLoop step false n ⟨pos, rest, caps⟩ k = lazyScan p k pos rest caps := by
  intro rest
  induction rest with
  | nil =>
    intro n pos caps hn
    cases n with
    | zero => exact absurd hn (by simp)
    | succ n =>
      simp only [starLoop, hnil, lazyScan]
      cases k ⟨pos, [], caps⟩ <;> rfl
  | cons c cs ih =>
    intro n pos caps hn
    cases n with
    | zero => exact absurd hn (by simp)
    | succ n =>
      have hlen : cs.length < n := by
        simp only [List.length_cons] at hn
        omega
      simp only [starLoop, hstep, lazyScan]
      by_cases hp : p c = true
      · simp only [hp, if_true]
        have hne : ¬ (pos + 1 = pos) := by omega
        simp only [hne, if_false, ih n (pos + 1) caps hlen]
        rfl
      · simp only [hp]
        rfl

/-- The lazy repetition of a character test is the scan from the shortest run. -/
theorem run_star_lazy_cls (p : Char → Bool) (s : MState) (k : MState → Option MState) :
    (Re.star false (.cls p)).run s k = lazyScan p k s.pos s.rest s.caps := by
  simp only [Re.run]
  exact starLoop_lazy_scan p k _ (fun pos c cs caps k' => rfl) (fun pos caps k' => rfl)
    s.rest _ s.pos s.caps (by omega)

/-- A lazy scan stops at the first place where the continuation succeeds. -/
theorem lazyScan_first (p : Char → Bool) (k : MState → Option MState)
    (caps : List (Nat × Nat × Nat)) (res : MState) :
    ∀ (rest : List Char) (pos : Nat), lazyScan p k pos rest caps = some res →
      ∃ a b, rest = a ++ b ∧ (∀ c ∈ a, p c = true) ∧
        k ⟨pos + a.length, b, caps⟩ = some res ∧
        ∀ a1 a2, a = a1 ++ a2 → a2 ≠ [] → k ⟨pos + a1.length, a2 ++ b, caps⟩ = none := by
  intro rest
  induction rest with
  | nil =>
    intro pos h
    refine ⟨[], [], rfl, by simp, by simpa [lazyScan] using h, ?_⟩
    intro a1 a2 h12 hne
    have := List.append_eq_nil.mp h12.symm
    exact absurd this.2 hne
  | cons c cs ih =>
    intro pos h
    simp only [lazyScan] at h
    rcases orElse_eq_some _ _ _ h with h0 | ⟨h0, h1⟩
    · refine ⟨[], c :: cs, rfl, by simp, by simpa using h0, ?_⟩
      intro a1 a2 h12 hne
      have := List.append_eq_nil.mp h12.symm
      exact absurd this.2 hne
    · by_cases hp : p c = true
      · simp only [hp, if_true] at h1
        obtain ⟨a, b, hab, ha, hk, hmin⟩ := ih (pos + 1) h1
        refine ⟨c :: a, b, by rw [hab]; rfl, ?_, ?_, ?_⟩
        · intro x hx
          rcases List.mem_cons.mp hx with rfl | hx
          · exact hp
          · exact ha x hx
        · simpa [Nat.add_assoc, Nat.add_comm 1] using hk
        · intro a1 a2 h12 hne
          cases a1 with
          | nil =>
            simp only [List.nil_append] at h12
            rw [← h12]
            simpa [hab] using h0
          | cons x a1 =>
            simp only [List.cons_append, List.cons.injEq] at h12
            have := hmin a1 a2 h12.2 hne
            simpa [Nat.add_assoc, Nat.add_comm 1] using this
      · simp only [hp] at h1
        exact absurd h1 (by simp)

theorem foldCase_punct (x c : Char) (hc : c.toNat < 65) :
    foldCase x = foldCase c ↔ x = c := by
  constructor
  · intro h
    have hx : x.toNat = c.toNat := by
      unfold foldCase at h
      split at h <;> split at h <;> omega
    have := congrArg Char.ofNat hx
    simpa using this
  · rintro rfl
    rfl

theorem matches_chrI (c : Char) (s t : MState) :
    Matches (Re.chrI c) s t ↔
      ∃ x cs, s.rest = x :: cs ∧ foldCase x = foldCase c ∧ t = ⟨s.pos + 1, cs, s.caps⟩ := by
  constructor
  · rintro ⟨x, cs, hrest, hp, rfl⟩
    exact ⟨x, cs, hrest, by simpa using hp, rfl⟩
  · rintro ⟨x, cs, hrest, hp, rfl⟩
    exact ⟨x, cs, hrest, by simpa using hp, rfl⟩

theorem matches_chrI_punct (c : Char) (hc : c.toNat < 65) (s t : MState) :
    Matches (Re.chrI c) s t ↔ ∃ cs, s.rest = c :: cs ∧ t = ⟨s.pos + 1, cs, s.caps⟩ := by
  rw [matches_chrI]
  constructor
  · rintro ⟨x, cs, hrest, hp, rfl⟩
    have := (foldCase_punct x c hc).mp hp
    subst this
    exact ⟨cs, hrest, rfl⟩
  · rintro ⟨cs, hrest, rfl⟩
    exact ⟨c, cs, hrest, rfl, rfl⟩

theorem matches_cat_cons (r : Re) (rs : List Re) (s t : MState) :
    Matches (Re.cat (r :: rs)) s t ↔ ∃ m, Matches r s m ∧ Matches (Re.cat rs) m t := by
  cases rs with
  | nil =>
    constructor
    · intro h
      exact ⟨t, h, rfl⟩
    · rintro ⟨m, h, hm⟩
      have : t = m := hm
      rw [this]
      exact h
  | cons r' rs => exact Iff.rfl

/-- A word under the flag `i` matches the texts that fold to the same codes. -/
theorem matches_chrI_list (w : List Char) :
    ∀ (s t : MState), Matches (Re.cat (w.map Re.chrI)) s t ↔
      ∃ v, v.map foldCase = w.map foldCase ∧ s.rest = v ++ t.rest ∧
        t.pos = s.pos + v.length ∧ t.caps = s.caps := by
  induction w with
  | nil =>
    intro s t
    constructor
    · intro h
      have : t = s := h
      subst this
      exact ⟨[], rfl, rfl, rfl, rfl⟩
    · rintro ⟨v, hv, h1, h2, h3⟩
      have hv0 : v = [] := by simpa using hv
      subst hv0
      show t = s
      cases s
      cases t
      simp only [List.nil_append, List.length_nil, Nat.add_zero] at h1 h2 h3
      simp only [MState.mk.injEq]
      exact ⟨h2, h1.symm, h3⟩
  | cons c w ih =>
    intro s t
    rw [List.map_cons, matches_cat_cons]
    constructor
    · rintro ⟨m, hm, hrest⟩
      obtain ⟨x, cs, hx, hp, rfl⟩ := (matches_chrI c s m).mp hm
      obtain ⟨v, hv, h1, h2, h3⟩ := (ih _ t).mp hrest
      simp only at h1 h2 h3
      refine ⟨x :: v, ?_, ?_, ?_, h3⟩
      · simp only [List.map_cons, hp, hv]
      · rw [hx, h1]
        rfl
      · rw [h2]
        simp only [List.length_cons]
        omega
    · rintro ⟨v, hv, h1, h2, h3⟩
      cases v with
      | nil => simp at hv
      | cons x v =>
        simp only [List.map_cons, List.cons.injEq] at hv
        refine ⟨⟨s.pos + 1, v ++ t.rest, s.caps⟩, (matches_chrI c s _).mpr ⟨x, _, h1, hv.1, rfl⟩,
          (ih _ t).mpr ⟨v, hv.2, rfl, ?_, h3⟩⟩
        rw [h2]
        simp only [List.length_cons]
        omega

theorem isScheme_cases (w : List Char) (h : isScheme w = true) :
    w.map foldCase = "file".data.map foldCase ∨ w.map foldCase = "http".data.map foldCase ∨
      w.map foldCase = "https".data.map foldCase ∨
      w.map foldCase = "chrome".data.map foldCase := by
  unfold isScheme at h
  simpa using h

theorem isScheme_no_colon (w : List Char) (h : isScheme w = true) : ':' ∉ w := by
  intro hmem
  have hm : foldCase ':' ∈ w.map foldCase := List.mem_map_of_mem _ hmem
  rcases isScheme_cases w h with h1 | h1 | h1 | h1 <;>
  · rw [h1] at hm
    revert hm
    decide

/-- The alternatives `file|https?|chrome` under the flag `i` match the four
scheme words in any mix of capitals and small letters. -/
theorem matches_geckoScheme (s t : MState) :
    Matches geckoScheme s t ↔
      ∃ w, isScheme w = true ∧ s.rest = w ++ t.rest ∧ t.pos = s.pos + w.length ∧
        t.caps = s.caps := by
  constructor
  · rintro (h | h | h)
    · obtain ⟨v, hv, h1, h2, h3⟩ := (matches_chrI_list "file".data s t).mp h
      refine ⟨v, ?_, h1, h2, h3⟩
      unfold isScheme
      rw [hv]
      decide
    · obtain ⟨m, hm, hopt⟩ := h
      obtain ⟨v, hv, h1, h2, h3⟩ := (matches_chrI_list "http".data s m).mp hm
      rcases hopt with hs | he
      · obtain ⟨x, cs, hx, hp, rfl⟩ := (matches_chrI 's' m t).mp hs
        refine ⟨v ++ [x], ?_, ?_, ?_, h3⟩
        · unfold isScheme
          rw [List.map_append, hv, List.map_singleton, hp]
          decide
        · rw [h1, hx]
          simp
        · simp only [List.length_append, List.length_singleton]
          omega
      · have : t = m := he
        subst this
        refine ⟨v, ?_, h1, h2, h3⟩
        unfold isScheme
        rw [hv]
        decide
    · obtain ⟨v, hv, h1, h2, h3⟩ := (matches_chrI_list "chrome".data s t).mp h
      refine ⟨v, ?_, h1, h2, h3⟩
      unfold isScheme
      rw [hv]
      decide
  · rintro ⟨w, hw, h1, h2, h3⟩
    rcases isScheme_cases w hw with hc | hc | hc | hc
    · exact Or.inl ((matches_chrI_list "file".data s t).mpr ⟨w, hc, h1, h2, h3⟩)
    · exact Or.inr (Or.inl ⟨t, (matches_chrI_list "http".data s t).mpr ⟨w, hc, h1, h2, h3⟩,
        Or.inr rfl⟩)
    · have hlen : w.length = 5 := by
        have := congrArg List.length hc
        simpa using this
      have htake : (w.take 4).map foldCase = "http".data.map foldCase := by
        rw [List.map_take, hc]
        rfl
      have hdrop : (w.drop 4).map foldCase = [foldCase 's'] := by
        rw [List.map_drop, hc]
        rfl
      obtain ⟨x, hx, hxs⟩ : ∃ x, w.drop 4 = [x] ∧ foldCase x = foldCase 's' := by
        cases hd : w.drop 4 with
        | nil => rw [hd] at hdrop; simp at hdrop
        | cons x l =>
          rw [hd] at hdrop
          simp only [List.map_cons, List.cons.injEq, List.map_eq_nil_iff] at hdrop
          exact ⟨x, by rw [hdrop.2], hdrop.1⟩
      have hsplit : w = w.take 4 ++ [x] := by
        rw [← hx]
        exact (List.take_append_drop 4 w).symm
      have hl4 : (w.take 4).length = 4 := by
        rw [List.length_take]
        omega
      refine Or.inr (Or.inl ⟨⟨s.pos + 4, x :: t.rest, s.caps⟩,
        (matches_chrI_list "http".data s _).mpr ⟨w.take 4, htake, ?_, ?_, rfl⟩,
        Or.inl ((matches_chrI 's' _ t).mpr ⟨x, t.rest, rfl, hxs, ?_⟩)⟩)
      · rw [h1]
        nth_rewrite 1 [hsplit]
        simp
      · rw [hl4]
      · cases t
        simp only at h2 h3
        rw [h2, h3, hlen]
    · exact Or.inr (Or.inr ((matches_chrI_list "chrome".data s t).mpr ⟨w, hc, h1, h2, h3⟩))

/-! ### Words that the parts of the pattern accept -/

theorem accepts_eps : Accepts .eps [] := fun pos rest caps => ⟨⟨pos, rest, caps⟩, rfl, rfl⟩

theorem accepts_cls (p : Char → Bool) (c : Char) (h : p c = true) : Accepts (.cls p) [c] :=
  fun pos rest caps => ⟨⟨pos + 1, rest, caps⟩, ⟨c, rest, rfl, h, rfl⟩, rfl⟩

theorem accepts_chrI (c : Char) : Accepts (Re.chrI c) [c] :=
  accepts_cls _ c (by simp)

theorem accepts_seq {a b : Re} {w1 w2 : List Char} (ha : Accepts a w1) (hb : Accepts b w2) :
    Accepts (.seq a b) (w1 ++ w2) := by
  intro pos rest caps
  obtain ⟨m, hm, hmr⟩ := ha pos (w2 ++ rest) caps
  obtain ⟨t, ht, htr⟩ := hb m.pos rest m.caps
  refine ⟨t, ⟨m, ?_, ?_⟩, htr⟩
  · rw [List.append_assoc]
    exact hm
  · have : m = ⟨m.pos, w2 ++ rest, m.caps⟩ := by rw [← hmr]
    rw [this]
    exact ht

theorem accepts_alt_left {a : Re} (b : Re) {w : List Char} (ha : Accepts a w) :
    Accepts (.alt a b) w := by
  intro pos rest caps
  obtain ⟨t, ht, htr⟩ := ha pos rest caps
  exact ⟨t, Or.inl ht, htr⟩

theorem accepts_opt_none (r : Re) : Accepts (Re.opt r) [] :=
  fun pos rest caps => ⟨⟨pos, rest, caps⟩, Or.inr rfl, rfl⟩

theorem accepts_cap (i : Nat) {r : Re} {w : List Char} (h : Accepts r w) :
    Accepts (.cap i r) w := by
  intro pos rest caps
  obtain ⟨t, ht, htr⟩ := h pos rest caps
  exact ⟨_, ⟨t, ht, rfl⟩, htr⟩

theorem accepts_star_cls (g : Bool) (p : Char → Bool) (w : List Char)
    (hw : ∀ c ∈ w, p c = true) : Accepts (.star g (.cls p)) w :=
  fun pos rest caps => ⟨⟨pos + w.length, rest, caps⟩,
    (matches_star_cls g p _ _).mpr ⟨w, hw, rfl, rfl, rfl⟩, rfl⟩

theorem accepts_plus_cls (p : Char → Bool) (w : List Char) (hne : w ≠ [])
    (hw : ∀ c ∈ w, p c = true) : Accepts (Re.plus (.cls p)) w :=
  fun pos rest caps => ⟨⟨pos + w.length, rest, caps⟩,
    (matches_plus_cls p _ _).mpr ⟨w, hne, hw, rfl, rfl, rfl⟩, rfl⟩

theorem accepts_geckoScheme (w : List Char) (hw : isScheme w = true) :
    Accepts geckoScheme w :=
  fun pos rest caps => ⟨⟨pos + w.length, rest, caps⟩,
    (matches_geckoScheme _ _).mpr ⟨w, hw, rfl, rfl, rfl⟩, rfl⟩

theorem acceptsAll_seq {a b : Re} {w1 w2 : List Char} (ha : Accepts a w1)
    (hb : AcceptsAll b w2) : AcceptsAll (.seq a b) (w1 ++ w2) := by
  intro pos caps
  obtain ⟨m, hm, hmr⟩ := ha pos w2 caps
  obtain ⟨t, ht⟩ := hb m.pos m.caps
  refine ⟨t, ⟨m, hm, ?_⟩⟩
  have : m = ⟨m.pos, w2, m.caps⟩ := by rw [← hmr]
  rw [this]
  exact ht

theorem acceptsAll_eos : AcceptsAll .eos [] :=
  fun pos caps => ⟨⟨pos, [], caps⟩, rfl, rfl⟩

theorem accepts_optColumn (col : Option (List Char))
    (hcol : ∀ d, col = some d → d ≠ [] ∧ ∀ c ∈ d, isDigit c = true) :
    Accepts (Re.opt (Re.cat [Re.chrI ':', .cap 5 (Re.plus Re.digit)])) (optColumn col) := by
  cases col with
  | none => exact accepts_opt_none _
  | some d =>
    obtain ⟨hne, hd⟩ := hcol d rfl
    exact accepts_alt_left _
      (accepts_seq (accepts_chrI ':') (accepts_cap 5 (accepts_plus_cls isDigit d hne hd)))

theorem accepts_geckoAlias (al : Option (List Char))
    (hal : ∀ a, al = some a → ∀ c ∈ a, isDot c = true) : Accepts geckoAlias (optAlias al) := by
  cases al with
  | none => exact accepts_opt_none _
  | some a =>
    have := accepts_seq (accepts_chrI '(')
      (accepts_seq (accepts_cap 2 (accepts_star_cls false isDot a (hal a rfl)))
        (accepts_chrI ')'))
    exact accepts_alt_left _ this

theorem accepts_optAt (amp : Bool) : Accepts (Re.opt (Re.chrI '@')) (optAt amp) := by
  cases amp with
  | false => exact accepts_opt_none _
  | true => exact accepts_alt_left _ (accepts_chrI '@')

theorem acceptsAll_geckoTail (w : List Char) (h : PositionTail w) : AcceptsAll geckoTail w := by
  obtain ⟨l, col, ws, rfl, hne, hl, hcol, hws⟩ := h
  have := acceptsAll_seq (accepts_chrI ':')
    (acceptsAll_seq (accepts_cap 4 (accepts_plus_cls isDigit l hne hl))
      (acceptsAll_seq (accepts_optColumn col hcol)
        (acceptsAll_seq (accepts_star_cls true isSpace ws hws) acceptsAll_eos)))
  simpa using this

theorem accepts_geckoUrl (url : List Char) (h : SchemeUrl url) : Accepts geckoUrl url := by
  obtain ⟨scheme, rest, rfl, hs, hrest⟩ := h
  have := accepts_cap 3 (accepts_seq (accepts_geckoScheme scheme hs)
    (accepts_seq (accepts_chrI ':') (accepts_star_cls false isDot rest hrest)))
  simpa using this

/-! ### What the parts of the pattern consume -/

/-- The end of the pattern consumes a `:<line>[:<col>]` text up to the end of
the input, and closes groups 4 and 5 only. -/
theorem matches_geckoTail (s t : MState) (h : Matches geckoTail s t) :
    PositionTail s.rest ∧
      ∃ cs, t.caps = cs ++ s.caps ∧ ∀ c ∈ cs, (c.1 == 3) = false := by
  obtain ⟨m1, h1, m2, ⟨m2', h2, hm2⟩, m3, h3, m4, h4, h5⟩ := h
  obtain ⟨cs1, e1, hm1⟩ := (matches_chrI_punct ':' (by decide) s m1).mp h1
  obtain ⟨l, hne, hl, r2, q2, c2⟩ := (matches_plus_cls isDigit _ m2').mp h2
  obtain ⟨ws, hws, r4, q4, c4⟩ := (matches_star_cls true isSpace m3 m4).mp h4
  obtain ⟨hend, ht⟩ : m4.rest = [] ∧ t = m4 := h5
  subst ht
  subst hm1
  simp only at r2 q2 c2
  have hm2r : m2.rest = m2'.rest := by rw [hm2]
  have hm2c : m2.caps = (4, s.pos + 1, m2'.pos) :: s.caps := by rw [hm2, c2]
  rcases h3 with ⟨n1, hn1, n2', hn2, hm3⟩ | h3
  · obtain ⟨cs3, e3, hn1e⟩ := (matches_chrI_punct ':' (by decide) m2 n1).mp hn1
    obtain ⟨d, hdne, hd, r5, q5, c5⟩ := (matches_plus_cls isDigit _ n2').mp hn2
    subst hn1e
    simp only at r5 q5 c5
    have hm3r : m3.rest = n2'.rest := by rw [hm3]
    have hm3c : m3.caps = (5, m2.pos + 1, n2'.pos) :: m2.caps := by rw [hm3, c5]
    refine ⟨⟨l, some d, ws, ?_, hne, hl, ?_, hws⟩,
      ⟨[(5, m2.pos + 1, n2'.pos), (4, s.pos + 1, m2'.pos)], ?_, ?_⟩⟩
    · rw [e1, r2, ← hm2r, e3, r5, ← hm3r, r4, hend]
      simp [optColumn]
    · intro d' hd'
      have : d' = d := by
        have := Option.some.inj hd'
        exact this.symm
      subst this
      exact ⟨hdne, hd⟩
    · rw [c4, hm3c, hm2c]
      rfl
    · intro c hc
      simp only [List.mem_cons, List.mem_singleton, List.not_mem_nil, or_false] at hc
      rcases hc with rfl | rfl <;> rfl
  · have h3e : m3 = m2 := h3
    refine ⟨⟨l, none, ws, ?_, hne, hl, ?_, hws⟩, ⟨[(4, s.pos + 1, m2'.pos)], ?_, ?_⟩⟩
    · rw [e1, r2, ← hm2r, ← h3e, r4, hend]
      simp [optColumn]
    · intro d' hd'
      exact Option.noConfusion hd'
    · rw [c4, h3e, hm2c]
      rfl
    · intro c hc
      simp only [List.mem_singleton] at hc
      subst hc
      rfl

/-! ### The run of the whole pattern -/

theorem run_seq_sound (a b : Re) (s : MState) (k : MState → Option MState) (res : MState)
    (h : (Re.seq a b).run s k = some res) : ∃ m, Matches a s m ∧ b.run m k = some res :=
  run_sound a s (fun s' => b.run s' k) res h

theorem run_cap_eq (i : Nat) (r : Re) (s : MState) (k : MState → Option MState) :
    (Re.cap i r).run s k
      = r.run s (fun s' => k { s' with caps := (i, s.pos, s'.pos) :: s'.caps }) := rfl

theorem split_first {α : Type} (c : α) :
    ∀ (a b x y : List α), a ++ c :: x = b ++ c :: y → c ∉ a → c ∉ b → a = b ∧ x = y := by
  intro a
  induction a with
  | nil =>
    intro b x y h _ hb
    cases b with
    | nil =>
      simp only [List.nil_append, List.cons.injEq, true_and] at h
      exact ⟨rfl, h⟩
    | cons d b =>
      simp only [List.nil_append, List.cons_append, List.cons.injEq] at h
      exact absurd (by rw [h.1]; exact List.mem_cons_self _ _) hb
  | cons e a ih =>
    intro b x y h ha hb
    cases b with
    | nil =>
      simp only [List.nil_append, List.cons_append, List.cons.injEq] at h
      exact absurd (by rw [← h.1]; exact List.mem_cons_self _ _) ha
    | cons d b =>
      simp only [List.cons_append, List.cons.injEq] at h
      obtain ⟨h1, h2⟩ := ih b x y h.2 (fun hm => ha (List.mem_cons_of_mem _ hm))
        (fun hm => hb (List.mem_cons_of_mem _ hm))
      exact ⟨by rw [h.1, h1], h2⟩

theorem find_group3 (x : Nat × Nat) (rest : List (Nat × Nat × Nat)) (e0 : Nat × Nat) :
    ∀ cs : List (Nat × Nat × Nat), (∀ c ∈ cs, (c.1 == 3) = false) →
      ((0, e0) :: (cs ++ (3, x) :: rest)).find? (fun c => c.1 == 3) = some (3, x) := by
  intro cs
  induction cs with
  | nil =>
    intro _
    rfl
  | cons c cs ih =>
    intro h
    have hc := h c (List.mem_cons_self _ _)
    have := ih (fun d hd => h d (List.mem_cons_of_mem _ hd))
    simp only [List.find?, List.cons_append, hc] at this ⊢
    exact this

/-- The pattern is anchored: the search only tries the start of the line. -/
theorem gecko_exec (inp : List Char) :
    execFrom (.cap 0 geckoCallSiteRe) 0 inp
      = (Re.cap 0 geckoCallSiteRe).run ⟨0, inp, []⟩ some := by
  cases inp with
  | nil => rfl
  | cons c cs =>
    have hn : execFrom (.cap 0 geckoCallSiteRe) (0 + 1) cs = none := by
      apply execFrom_none
      intro a b _
      rw [run_cap_eq, geckoCallSiteRe_eq]
      simp only [Re.run]
      simp
    show ((Re.cap 0 geckoCallSiteRe).run ⟨0, c :: cs, []⟩ some).orElse
      (fun _ => execFrom (.cap 0 geckoCallSiteRe) (0 + 1) cs) = _
    rw [hn]
    cases (Re.cap 0 geckoCallSiteRe).run ⟨0, c :: cs, []⟩ some <;> rfl

theorem schemeUrl_ne_nil (url : List Char) (h : SchemeUrl url) : String.mk url ≠ "" := by
  obtain ⟨scheme, rest, rfl, _, _⟩ := h
  intro he
  have := congrArg String.data he
  simp at this

/-- The fallback resolver on a trace with a line at index 3. -/
theorem firefox_resolver_line (lines : List String) (line : String)
    (h3 : lines.get? 3 = some line) :
    getOriginatingScriptUrlFirefox lines
      = match jsMatch geckoCallSiteRe line with
        | none => ""
        | some m =>
          match m.group 3 with
          | none => ""
          | some url => if url = "" then "" else url := by
  have hlen : ¬ lines.length < 4 := by
    intro hlt
    have : lines.get? 3 = none := List.get?_eq_none.mpr (by omega)
    rw [this] at h3
    exact Option.noConfusion h3
  unfold getOriginatingScriptUrlFirefox
  simp only [hlen, if_false]
  rw [h3]

/-! ### The order in which the pattern tries the readings of a line -/

theorem geckoBody_split : geckoBody = .seq (.star true Re.space) geckoAfterSpace := rfl

theorem orElse_eq_none {α : Type} (o : Option α) (f : Unit → Option α)
    (h : o.orElse f = none) : o = none ∧ f () = none := by
  cases o with
  | none => exact ⟨rfl, h⟩
  | some y => exact Option.noConfusion h

theorem greedyScan_eq_none (p : Char → Bool) (k : MState → Option MState)
    (caps : List (Nat × Nat × Nat)) :
    ∀ (rest : List Char) (pos : Nat), greedyScan p k pos rest caps = none →
      ∀ a b, rest = a ++ b → (∀ c ∈ a, p c = true) → k ⟨pos + a.length, b, caps⟩ = none := by
  intro rest
  induction rest with
  | nil =>
    intro pos h a b hab _
    obtain ⟨rfl, rfl⟩ := List.append_eq_nil.mp hab.symm
    simpa [greedyScan] using h
  | cons c cs ih =>
    intro pos h a b hab ha
    by_cases hp : p c = true
    · simp only [greedyScan, hp, if_true] at h
      obtain ⟨hin, h0⟩ := orElse_eq_none _ _ h
      cases a with
      | nil =>
        simp only [List.nil_append] at hab
        rw [← hab]
        simpa using h0
      | cons x a =>
        simp only [List.cons_append, List.cons.injEq] at hab
        have := ih (pos + 1) hin a b hab.2 (fun y hy => ha y (List.mem_cons_of_mem _ hy))
        simpa [Nat.add_assoc, Nat.add_comm 1] using this
    · simp only [greedyScan, hp] at h
      cases a with
      | nil =>
        simp only [List.nil_append] at hab
        rw [← hab]
        simpa using h
      | cons x a =>
        simp only [List.cons_append, List.cons.injEq] at hab
        have := ha x (List.mem_cons_self _ _)
        rw [← hab.1] at this
        exact absurd this hp

/-- A greedy scan stops at the longest run after which the continuation
succeeds. -/
theorem greedyScan_some (p : Char → Bool) (k : MState → Option MState)
    (caps : List (Nat × Nat × Nat)) (res : MState) :
    ∀ (rest : List Char) (pos : Nat), greedyScan p k pos rest caps = some res →
      ∃ a b, rest = a ++ b ∧ (∀ c ∈ a, p c = true) ∧
        k ⟨pos + a.length, b, caps⟩ = some res ∧
        ∀ b1 b2, b = b1 ++ b2 → b1 ≠ [] → (∀ c ∈ b1, p c = true) →
          k ⟨pos + a.length + b1.length, b2, caps⟩ = none := by
  intro rest
  induction rest with
  | nil =>
    intro pos h
    refine ⟨[], [], rfl, by simp, by simpa [greedyScan] using h, ?_⟩
    intro b1 b2 hb hne _
    exact absurd (List.append_eq_nil.mp hb.symm).1 hne
  | cons c cs ih =>
    intro pos h
    by_cases hp : p c = true
    · simp only [greedyScan, hp, if_true] at h
      rcases orElse_eq_some _ _ _ h with hin | ⟨hin, h0⟩
      · obtain ⟨a, b, hab, ha, hk, hmax⟩ := ih (pos + 1) hin
        refine ⟨c :: a, b, by rw [hab]; rfl, ?_, ?_, ?_⟩
        · intro x hx
          rcases List.mem_cons.mp hx with rfl | hx
          · exact hp
          · exact ha x hx
        · simpa [Nat.add_assoc, Nat.add_comm 1] using hk
        · intro b1 b2 hb hne hb1
          have := hmax b1 b2 hb hne hb1
          simpa [Nat.add_assoc, Nat.add_comm 1] using this
      · refine ⟨[], c :: cs, rfl, by simp, by simpa using h0, ?_⟩
        intro b1 b2 hb hne hb1
        cases b1 with
        | nil => exact absurd rfl hne
        | cons x b1 =>
          simp only [List.cons_append, List.cons.injEq] at hb
          have := greedyScan_eq_none p k caps cs (pos + 1) hin b1 b2 hb.2
            (fun y hy => hb1 y (List.mem_cons_of_mem _ hy))
          simpa [Nat.add_assoc, Nat.add_comm 1] using this
    · simp only [greedyScan, hp] at h
      refine ⟨[], c :: cs, rfl, by simp, by simpa using h, ?_⟩
      intro b1 b2 hb hne hb1
      cases b1 with
      | nil => exact absurd rfl hne
      | cons x b1 =>
        simp only [List.cons_append, List.cons.injEq] at hb
        have := hb1 x (List.mem_cons_self _ _)
        rw [← hb.1] at this
        exact absurd this hp

theorem run_of_acceptsAll (R : Re) (w : List Char) (h : AcceptsAll R w) (pos : Nat)
    (caps : List (Nat × Nat × Nat)) : (R.run ⟨pos, w, caps⟩ closeWhole).isSome = true := by
  obtain ⟨t, ht⟩ := h pos caps
  exact run_complete R _ t closeWhole ht rfl

theorem run_of_accepts (X : Re) (w rest : List Char) (h : Accepts X w)
    (K : MState → Option MState) (pos : Nat) (caps : List (Nat × Nat × Nat))
    (hK : ∀ m : MState, m.rest = rest → (K m).isSome = true) :
    (X.run ⟨pos, w ++ rest, caps⟩ K).isSome = true := by
  obtain ⟨t, ht, hr⟩ := h pos rest caps
  exact run_complete X _ t K ht (hK t hr)

theorem run_rest_of_acceptsAll (R : Re) (w : List Char) (h : AcceptsAll R w) (m : MState)
    (hm : m.rest = w) : (R.run m closeWhole).isSome = true := by
  obtain ⟨p, r, c⟩ := m
  simp only at hm
  subst hm
  exact run_of_acceptsAll R _ h p c

theorem acceptsAll_afterAt (r : Reading) (h : r.ok) : AcceptsAll geckoAfterAt r.afterAt :=
  acceptsAll_seq (accepts_geckoUrl r.url h.2.2.2.1) (acceptsAll_geckoTail r.tail h.2.2.2.2)

theorem acceptsAll_afterAlias (r : Reading) (h : r.ok) :
    AcceptsAll geckoAfterAlias r.afterAlias :=
  acceptsAll_seq (accepts_optAt r.amp) (acceptsAll_afterAt r h)

theorem acceptsAll_afterName (r : Reading) (h : r.ok) :
    AcceptsAll geckoAfterName r.afterName :=
  acceptsAll_seq (accepts_geckoAlias r.al h.2.2.1) (acceptsAll_afterAlias r h)

theorem acceptsAll_afterSpace (r : Reading) (h : r.ok) :
    AcceptsAll geckoAfterSpace r.afterSpace :=
  acceptsAll_seq (accepts_cap 1 (accepts_star_cls false isDot r.name h.2.1))
    (acceptsAll_afterName r h)

theorem acceptsAll_body (r : Reading) (h : r.ok) : AcceptsAll geckoBody r.text := by
  rw [geckoBody_split]
  exact acceptsAll_seq (accepts_star_cls true isSpace r.ws h.1) (acceptsAll_afterSpace r h)

/-- The run from group 3 on: the text splits into a url with a scheme and a
`:<line>[:<col>]` end, no shorter url leaves such an end, and group 3 is closed
on the url. -/
theorem run_afterAt (pos : Nat) (w : List Char) (caps : List (Nat × Nat × Nat))
    (res : MState) (h : geckoAfterAt.run ⟨pos, w, caps⟩ closeWhole = some res) :
    ∃ url tail cs e, w = url ++ tail ∧ SchemeUrl url ∧ PositionTail tail ∧
      (∀ u1 u2, url = u1 ++ u2 → u2 ≠ [] → SchemeUrl u1 → ¬ PositionTail (u2 ++ tail)) ∧
      res.caps = (0, 0, e) :: (cs ++ (3, pos, pos + url.length) :: caps) ∧
      ∀ c ∈ cs, (c.1 == 3) = false := by
  have h0 : (Re.seq geckoUrl geckoTail).run ⟨pos, w, caps⟩ closeWhole = some res := h
  rw [geckoUrl_eq] at h0
  obtain ⟨m6, h6, h1⟩ := run_seq_sound geckoScheme _ ⟨pos, w, caps⟩ _ res h0
  obtain ⟨m7, h7, h2⟩ := run_seq_sound (Re.chrI ':') _ m6 _ res h1
  rw [dot_eq, run_star_lazy_cls] at h2
  obtain ⟨a, b, hab, ha, hk, hmin⟩ := lazyScan_first isDot _ m7.caps res m7.rest m7.pos h2
  obtain ⟨t, hT, hk0⟩ := run_sound geckoTail _ _ _ hk
  obtain ⟨htail, cs, hcs, hkeys⟩ := matches_geckoTail _ t hT
  obtain ⟨sch, hsch, r6, q6, c6⟩ := (matches_geckoScheme _ m6).mp h6
  obtain ⟨cs7, e7, hm7⟩ := (matches_chrI_punct ':' (by decide) m6 m7).mp h7
  have hm7r : m7.rest = cs7 := by rw [hm7]
  have hm7p : m7.pos = m6.pos + 1 := by rw [hm7]
  have hm7c : m7.caps = m6.caps := by rw [hm7]
  simp only at r6 q6 c6 hcs
  have hw : w = (sch ++ ':' :: a) ++ b := by
    rw [r6, e7, ← hm7r, hab]
    simp
  have hq : m7.pos + a.length = pos + (sch ++ ':' :: a).length := by
    simp only [List.length_append, List.length_cons]
    omega
  refine ⟨sch ++ ':' :: a, b, cs, t.pos, hw, ⟨sch, a, rfl, hsch, ha⟩, htail, ?_, ?_, hkeys⟩
  · rintro u1 u2 hu hne ⟨sch', rest', hu1, hsch', _⟩ htl
    have heq : sch ++ ':' :: a = sch' ++ ':' :: (rest' ++ u2) := by
      rw [hu, hu1]
      simp
    obtain ⟨_, ha2⟩ := split_first ':' sch sch' a (rest' ++ u2) heq
      (isScheme_no_colon sch hsch) (isScheme_no_colon sch' hsch')
    have hnone := hmin rest' u2 ha2 hne
    have hsome := run_of_acceptsAll geckoTail (u2 ++ b) (acceptsAll_geckoTail _ htl)
      (m7.pos + rest'.length) ((3, pos, m7.pos + rest'.length) :: m7.caps)
    simp only at hnone
    rw [hnone] at hsome
    exact absurd hsome (by simp)
  · have := Option.some.inj hk0
    rw [← this, hcs, hq, hm7c, c6]

/-- The run from `@?` on: `@` is taken when it is there. -/
theorem run_afterAlias (pos : Nat) (w : List Char) (caps : List (Nat × Nat × Nat))
    (res : MState) (h : geckoAfterAlias.run ⟨pos, w, caps⟩ closeWhole = some res) :
    ∃ amp w', w = optAt amp ++ w' ∧
      geckoAfterAt.run ⟨pos + (optAt amp).length, w', caps⟩ closeWhole = some res ∧
      (amp = false → ∀ w'', w = '@' :: w'' → ¬ AcceptsAll geckoAfterAt w'') := by
  have h1 : ((Re.chrI '@').run ⟨pos, w, caps⟩ (fun s' => geckoAfterAt.run s' closeWhole)).orElse
      (fun _ => geckoAfterAt.run ⟨pos, w, caps⟩ closeWhole) = some res := h
  rcases orElse_eq_some _ _ _ h1 with hA | ⟨hA, hB⟩
  · obtain ⟨t, ht, hk⟩ := run_sound (Re.chrI '@') _ _ _ hA
    obtain ⟨cs, e, rfl⟩ := (matches_chrI_punct '@' (by decide) _ t).mp ht
    simp only at e hk
    exact ⟨true, cs, e, hk, fun hf => absurd hf (by simp)⟩
  · refine ⟨false, w, rfl, hB, ?_⟩
    intro _ w'' hw hacc
    have hsome := run_of_accepts (Re.chrI '@') ['@'] w'' (accepts_chrI '@')
      (fun s' => geckoAfterAt.run s' closeWhole) pos caps
      (fun m hm => run_rest_of_acceptsAll _ _ hacc m hm)
    rw [hw] at hA
    have hA' : (Re.chrI '@').run ⟨pos, ['@'] ++ w'', caps⟩
        (fun s' => geckoAfterAt.run s' closeWhole) = none := hA
    rw [hA'] at hsome
    exact absurd hsome (by simp)

/-- The run from the optional alias on: an alias is taken when the rest can be
read after it, the shortest such alias. -/
theorem run_afterName (pos : Nat) (w : List Char) (caps : List (Nat × Nat × Nat))
    (res : MState) (h : geckoAfterName.run ⟨pos, w, caps⟩ closeWhole = some res) :
    ∃ (al : Option (List Char)) (w' : List Char) (caps' : List (Nat × Nat × Nat)),
      w = optAlias al ++ w' ∧ (∀ a, al = some a → ∀ c ∈ a, isDot c = true) ∧
      geckoAfterAlias.run ⟨pos + (optAlias al).length, w', caps'⟩ closeWhole = some res ∧
      (al = none → ∀ a' w'', (∀ c ∈ a', isDot c = true) → w = '(' :: a' ++ ')' :: w'' →
        ¬ AcceptsAll geckoAfterAlias w'') ∧
      (∀ a, al = some a → ∀ a1 a2 w'', a = a1 ++ a2 → a2 ≠ [] →
        a2 ++ ')' :: w' = ')' :: w'' → ¬ AcceptsAll geckoAfterAlias w'') := by
  have h1 : ((Re.seq (Re.chrI '(') (.seq (.cap 2 (.star false Re.dot)) (Re.chrI ')'))).run
        ⟨pos, w, caps⟩ (fun s' => geckoAfterAlias.run s' closeWhole)).orElse
      (fun _ => geckoAfterAlias.run ⟨pos, w, caps⟩ closeWhole) = some res := h
  rcases orElse_eq_some _ _ _ h1 with hA | ⟨hA, hB⟩
  · obtain ⟨m, hm, h2⟩ := run_seq_sound (Re.chrI '(') _ _ _ res hA
    obtain ⟨c1, e1, rfl⟩ := (matches_chrI_punct '(' (by decide) _ m).mp hm
    simp only at e1
    have h3 : (Re.star false (.cls isDot)).run ⟨pos + 1, c1, caps⟩
        (fun s' => (Re.chrI ')').run { s' with caps := (2, pos + 1, s'.pos) :: s'.caps }
          (fun s'' => geckoAfterAlias.run s'' closeWhole)) = some res := h2
    rw [run_star_lazy_cls] at h3
    obtain ⟨a, d, hc1, ha, hk, hmin⟩ := lazyScan_first isDot _ caps res c1 (pos + 1) h3
    simp only at hk hmin
    obtain ⟨t, ht, hkt⟩ := run_sound (Re.chrI ')') _ _ _ hk
    obtain ⟨e, hd, rfl⟩ := (matches_chrI_punct ')' (by decide) _ t).mp ht
    simp only at hd hkt
    have hpos : pos + (optAlias (some a)).length = pos + 1 + a.length + 1 := by
      simp only [optAlias, List.length_cons, List.length_append, List.length_singleton,
        List.length_nil]
      omega
    refine ⟨some a, e, (2, pos + 1, pos + 1 + a.length) :: caps, ?_, ?_, ?_, ?_, ?_⟩
    · rw [e1, hc1, hd]
      simp [optAlias]
    · intro a0 ha0
      have : a0 = a := (Option.some.inj ha0).symm
      subst this
      exact ha
    · rw [hpos]
      exact hkt
    · intro hf
      exact Option.noConfusion hf
    · intro a0 ha0 a1 a2 w'' hsplit hne heq hacc
      have : a0 = a := (Option.some.inj ha0).symm
      subst this
      have hnone := hmin a1 a2 hsplit hne
      rw [hd, heq] at hnone
      have hsome := run_of_accepts (Re.chrI ')') [')'] w'' (accepts_chrI ')')
        (fun s'' => geckoAfterAlias.run s'' closeWhole) (pos + 1 + a1.length)
        ((2, pos + 1, pos + 1 + a1.length) :: caps)
        (fun m hm => run_rest_of_acceptsAll _ _ hacc m hm)
      have hnone' : (Re.chrI ')').run ⟨pos + 1 + a1.length, [')'] ++ w'',
          (2, pos + 1, pos + 1 + a1.length) :: caps⟩
          (fun s'' => geckoAfterAlias.run s'' closeWhole) = none := hnone
      rw [hnone'] at hsome
      exact absurd hsome (by simp)
  · refine ⟨none, w, caps, rfl, ?_, hB, ?_, ?_⟩
    · intro a hf
      exact Option.noConfusion hf
    · intro _ a' w'' ha' hw hacc
      have hacc' : Accepts (Re.seq (Re.chrI '(') (.seq (.cap 2 (.star false Re.dot))
          (Re.chrI ')'))) (['('] ++ (a' ++ [')'])) :=
        accepts_seq (accepts_chrI '(')
          (accepts_seq (accepts_cap 2 (accepts_star_cls false isDot a' ha')) (accepts_chrI ')'))
      have hsome := run_of_accepts _ _ w'' hacc'
        (fun s' => geckoAfterAlias.run s' closeWhole) pos caps
        (fun m hm => run_rest_of_acceptsAll _ _ hacc m hm)
      have hweq : w = (['('] ++ (a' ++ [')'])) ++ w'' := by
        rw [hw]
        simp
      rw [hweq] at hA
      rw [hA] at hsome
      exact absurd hsome (by simp)
    · intro a hf
      exact Option.noConfusion hf

/-- The run from group 1 on: the shortest function name after which the rest
can be read. -/
theorem run_afterSpace (pos : Nat) (w : List Char) (caps : List (Nat × Nat × Nat))
    (res : MState) (h : geckoAfterSpace.run ⟨pos, w, caps⟩ closeWhole = some res) :
    ∃ (name w' : List Char) (caps' : List (Nat × Nat × Nat)),
      w = name ++ w' ∧ (∀ c ∈ name, isDot c = true) ∧
      geckoAfterName.run ⟨pos + name.length, w', caps'⟩ closeWhole = some res ∧
      ∀ n1 n2, name = n1 ++ n2 → n2 ≠ [] → ¬ AcceptsAll geckoAfterName (n2 ++ w') := by
  have h1 : (Re.star false (.cls isDot)).run ⟨pos, w, caps⟩
      (fun s' => geckoAfterName.run { s' with caps := (1, pos, s'.pos) :: s'.caps } closeWhole)
        = some res := h
  rw [run_star_lazy_cls] at h1
  obtain ⟨name, w', hw, hname, hk, hmin⟩ := lazyScan_first isDot _ caps res w pos h1
  simp only at hk hmin
  refine ⟨name, w', (1, pos, pos + name.length) :: caps, hw, hname, hk, ?_⟩
  intro n1 n2 hsplit hne hacc
  have hnone := hmin n1 n2 hsplit hne
  have hsome := run_of_acceptsAll geckoAfterName _ hacc (pos + n1.length)
    ((1, pos, pos + n1.length) :: caps)
  rw [hnone] at hsome
  exact absurd hsome (by simp)

/-- The run after the anchor: the longest leading white space after which the
rest can be read. -/
theorem run_body (pos : Nat) (w : List Char) (caps : List (Nat × Nat × Nat))
    (res : MState) (h : geckoBody.run ⟨pos, w, caps⟩ closeWhole = some res) :
    ∃ ws w', w = ws ++ w' ∧ (∀ c ∈ ws, isSpace c = true) ∧
      geckoAfterSpace.run ⟨pos + ws.length, w', caps⟩ closeWhole = some res ∧
      ∀ b1 b2, w' = b1 ++ b2 → b1 ≠ [] → (∀ c ∈ b1, isSpace c = true) →
        ¬ AcceptsAll geckoAfterSpace b2 := by
  rw [geckoBody_split] at h
  have h1 : (Re.star true (.cls isSpace)).run ⟨pos, w, caps⟩
      (fun s' => geckoAfterSpace.run s' closeWhole) = some res := h
  rw [run_star_greedy_cls] at h1
  obtain ⟨ws, w', hw, hws, hk, hmax⟩ := greedyScan_some isSpace _ caps res w pos h1
  refine ⟨ws, w', hw, hws, hk, ?_⟩
  intro b1 b2 hb hne hb1 hacc
  have hnone := hmax b1 b2 hb hne hb1
  have hsome := run_of_acceptsAll geckoAfterSpace _ hacc (pos + ws.length + b1.length) caps
  rw [hnone] at hsome
  exact absurd hsome (by simp)

theorem append_split_lt {α : Type} (a b x y : List α) (h : a ++ x = b ++ y)
    (hlt : b.length < a.length) : ∃ b1, b1 ≠ [] ∧ a = b ++ b1 ∧ y = b1 ++ x := by
  rcases List.append_eq_append_iff.mp h with ⟨a', hb, _⟩ | ⟨c', ha, hy⟩
  · have := congrArg List.length hb
    simp only [List.length_append] at this
    omega
  · refine ⟨c', ?_, ha, hy⟩
    rintro rfl
    have := congrArg List.length ha
    simp only [List.length_append, List.length_nil] at this
    omega

/-- A reading in the form is the first one when no better choice can be read
at any of the five places where the pattern chooses. -/
theorem firstReading_of (r : Reading) (hok : r.ok)
    (H1 : ∀ b1 b2, r.afterSpace = b1 ++ b2 → b1 ≠ [] → (∀ c ∈ b1, isSpace c = true) →
      ¬ AcceptsAll geckoAfterSpace b2)
    (H2 : ∀ n1 n2, r.name = n1 ++ n2 → n2 ≠ [] →
      ¬ AcceptsAll geckoAfterName (n2 ++ r.afterName))
    (H3 : r.al = none → ∀ a' w'', (∀ c ∈ a', isDot c = true) →
      r.afterName = '(' :: a' ++ ')' :: w'' → ¬ AcceptsAll geckoAfterAlias w'')
    (H3' : ∀ a, r.al = some a → ∀ a1 a2 w'', a = a1 ++ a2 → a2 ≠ [] →
      a2 ++ ')' :: r.afterAlias = ')' :: w'' → ¬ AcceptsAll geckoAfterAlias w'')
    (H4 : r.amp = false → ∀ w'', r.afterAlias = '@' :: w'' → ¬ AcceptsAll geckoAfterAt w'')
    (H5 : ∀ u1 u2, r.url = u1 ++ u2 → u2 ≠ [] → SchemeUrl u1 →
      ¬ PositionTail (u2 ++ r.tail)) :
    FirstReading r.text r := by
  refine ⟨rfl, hok, ?_⟩
  intro r' htext hok' hbefore
  have htext' : r'.ws ++ r'.afterSpace = r.ws ++ r.afterSpace := htext
  rcases hbefore with hws | ⟨hws, hrest⟩
  · obtain ⟨b1, hne, hsplit, hafter⟩ :=
      append_split_lt r'.ws r.ws r'.afterSpace r.afterSpace htext' hws
    refine H1 b1 r'.afterSpace hafter hne ?_ (acceptsAll_afterSpace r' hok')
    intro c hc
    exact hok'.1 c (by rw [hsplit]; exact List.mem_append_right _ hc)
  · obtain ⟨_, hsp⟩ := List.append_inj htext' hws
    have hsp' : r'.name ++ r'.afterName = r.name ++ r.afterName := hsp
    rcases hrest with hname | ⟨hname, hrest⟩
    · obtain ⟨n2, hne, hsplit, hafter⟩ :=
        append_split_lt r.name r'.name r.afterName r'.afterName hsp'.symm hname
      apply H2 r'.name n2 hsplit hne
      rw [← hafter]
      exact acceptsAll_afterName r' hok'
    · obtain ⟨_, han⟩ := List.append_inj hsp' hname
      have han' : optAlias r'.al ++ r'.afterAlias = optAlias r.al ++ r.afterAlias := han
      rcases hrest with hal | ⟨hal, hrest⟩
      · cases hr' : r'.al with
        | none =>
          rw [hr'] at hal
          exact hal
        | some a' =>
          cases hr : r.al with
          | none =>
            rw [hr', hr] at han'
            refine H3 hr a' r'.afterAlias (hok'.2.2.1 a' hr') ?_ (acceptsAll_afterAlias r' hok')
            show optAlias r.al ++ r.afterAlias = _
            rw [hr, ← han']
            simp [optAlias]
          | some a =>
            rw [hr', hr] at hal han'
            have hlt : a'.length < a.length := hal
            have heq : a ++ ')' :: r.afterAlias = a' ++ ')' :: r'.afterAlias := by
              simp only [optAlias, List.cons_append, List.append_assoc, List.singleton_append,
                List.cons.injEq, true_and] at han'
              exact han'.symm
            obtain ⟨a2, hne, hsplit, hafter⟩ :=
              append_split_lt a a' (')' :: r.afterAlias) (')' :: r'.afterAlias) heq hlt
            exact H3' a hr a' a2 r'.afterAlias hsplit hne hafter.symm
              (acceptsAll_afterAlias r' hok')
      · rw [hal] at han'
        have hat : r'.afterAlias = r.afterAlias := List.append_cancel_left han'
        have hat' : optAt r'.amp ++ r'.afterAt = optAt r.amp ++ r.afterAt := hat
        rcases hrest with ⟨h1, h2⟩ | ⟨hamp, hurl⟩
        · refine H4 h2 r'.afterAt ?_ (acceptsAll_afterAt r' hok')
          show optAt r.amp ++ r.afterAt = _
          rw [← hat', h1]
          rfl
        · rw [hamp] at hat'
          have hu : r'.afterAt = r.afterAt := List.append_cancel_left hat'
          have hu' : r'.url ++ r'.tail = r.url ++ r.tail := hu
          obtain ⟨u2, hne, hsplit, hafter⟩ :=
            append_split_lt r.url r'.url r.tail r'.tail hu'.symm hurl
          apply H5 r'.url u2 hsplit hne hok'.2.2.2.1
          rw [← hafter]
          exact hok'.2.2.2.2

/-- Of two readings of one line, one comes before the other or they have the
same url. -/
theorem before_or_same_url (r r' : Reading) (h : r.text = r'.text) :
    r.before r' ∨ r'.before r ∨ r.url = r'.url := by
  have htext : r.ws ++ r.afterSpace = r'.ws ++ r'.afterSpace := h
  rcases Nat.lt_trichotomy r.ws.length r'.ws.length with hlt | heq | hgt
  · exact Or.inr (Or.inl (Or.inl hlt))
  · obtain ⟨_, hsp⟩ := List.append_inj htext heq
    have hsp' : r.name ++ r.afterName = r'.name ++ r'.afterName := hsp
    rcases Nat.lt_trichotomy r.name.length r'.name.length with hnl | hne | hng
    · exact Or.inl (Or.inr ⟨heq, Or.inl hnl⟩)
    · obtain ⟨_, han⟩ := List.append_inj hsp' hne
      have han' : optAlias r.al ++ r.afterAlias = optAlias r'.al ++ r'.afterAlias := han
      have hal : aliasBefore r.al r'.al ∨ aliasBefore r'.al r.al ∨ r.al = r'.al := by
        cases hr : r.al with
        | none =>
          cases hr' : r'.al with
          | none => exact Or.inr (Or.inr rfl)
          | some b => exact Or.inr (Or.inl trivial)
        | some a =>
          cases hr' : r'.al with
          | none => exact Or.inl trivial
          | some b =>
            rcases Nat.lt_trichotomy a.length b.length with h1 | h1 | h1
            · exact Or.inl h1
            · rw [hr, hr'] at han'
              simp only [optAlias, List.cons_append, List.append_assoc, List.singleton_append,
                List.cons.injEq, true_and] at han'
              obtain ⟨hab, _⟩ := List.append_inj han' h1
              exact Or.inr (Or.inr (by rw [hab]))
            · exact Or.inr (Or.inl h1)
      rcases hal with hal | hal | hal
      · exact Or.inl (Or.inr ⟨heq, Or.inr ⟨hne, Or.inl hal⟩⟩)
      · exact Or.inr (Or.inl (Or.inr ⟨heq.symm, Or.inr ⟨hne.symm, Or.inl hal⟩⟩))
      · rw [hal] at han'
        have hat : r.afterAlias = r'.afterAlias := List.append_cancel_left han'
        have hat' : optAt r.amp ++ r.afterAt = optAt r'.amp ++ r'.afterAt := hat
        cases hm : r.amp with
        | false =>
          cases hm' : r'.amp with
          | false =>
            rw [hm, hm'] at hat'
            have hu : r.url ++ r.tail = r'.url ++ r'.tail := hat'
            rcases Nat.lt_trichotomy r.url.length r'.url.length with hul | hue | hug
            · exact Or.inl (Or.inr ⟨heq, Or.inr ⟨hne, Or.inr ⟨hal,
                Or.inr ⟨by rw [hm, hm'], hul⟩⟩⟩⟩)
            · exact Or.inr (Or.inr (List.append_inj hu hue).1)
            · exact Or.inr (Or.inl (Or.inr ⟨heq.symm, Or.inr ⟨hne.symm, Or.inr ⟨hal.symm,
                Or.inr ⟨by rw [hm, hm'], hug⟩⟩⟩⟩))
          | true =>
            exact Or.inr (Or.inl (Or.inr ⟨heq.symm, Or.inr ⟨hne.symm, Or.inr ⟨hal.symm,
              Or.inl ⟨hm', hm⟩⟩⟩⟩))
        | true =>
          cases hm' : r'.amp with
          | false =>
            exact Or.inl (Or.inr ⟨heq, Or.inr ⟨hne, Or.inr ⟨hal, Or.inl ⟨hm, hm'⟩⟩⟩⟩)
          | true =>
            rw [hm, hm'] at hat'
            have hu : r.url ++ r.tail = r'.url ++ r'.tail := List.append_cancel_left hat'
            rcases Nat.lt_trichotomy r.url.length r'.url.length with hul | hue | hug
            · exact Or.inl (Or.inr ⟨heq, Or.inr ⟨hne, Or.inr ⟨hal,
                Or.inr ⟨by rw [hm, hm'], hul⟩⟩⟩⟩)
            · exact Or.inr (Or.inr (List.append_inj hu hue).1)
            · exact Or.inr (Or.inl (Or.inr ⟨heq.symm, Or.inr ⟨hne.symm, Or.inr ⟨hal.symm,
                Or.inr ⟨by rw [hm, hm'], hug⟩⟩⟩⟩))
    · exact Or.inr (Or.inl (Or.inr ⟨heq.symm, Or.inl hng⟩))
  · exact Or.inl (Or.inl hgt)

/-- The first reading fixes the url. -/
theorem firstReading_url_unique (line : List Char) (r1 r2 : Reading)
    (h1 : FirstReading line r1) (h2 : FirstReading line r2) : r1.url = r2.url := by
  rcases before_or_same_url r1 r2 (h1.1.trans h2.1.symm) with hb | hb | hu
  · exact absurd hb (h2.2.2 r1 h1.1 h1.2.1)
  · exact absurd hb (h1.2.2 r2 h2.1 h2.2.1)
  · exact hu

/-- A successful run of the whole pattern reads the line in its first
reading, and group 3 is the url of that reading. -/
theorem gecko_run_first (inp : List Char) (res : MState)
    (h : (Re.cap 0 geckoCallSiteRe).run ⟨0, inp, []⟩ some = some res) :
    ∃ r : Reading, FirstReading inp r ∧
      Match.group ⟨inp, res.caps⟩ 3 = some (String.mk r.url) := by
  have h0 : geckoBody.run ⟨0, inp, []⟩ closeWhole = some res := h
  obtain ⟨ws, w1, hw1, hws, h1, H1⟩ := run_body 0 inp [] res h0
  obtain ⟨name, w2, caps2, hw2, hname, h2, H2⟩ := run_afterSpace _ w1 _ res h1
  obtain ⟨al, w3, caps3, hw3, hal, h3, H3, H3'⟩ := run_afterName _ w2 _ res h2
  obtain ⟨amp, w4, hw4, h4, H4⟩ := run_afterAlias _ w3 _ res h3
  obtain ⟨url, tail, cs, e, hw5, hurl, htail, H5, hcaps, hkeys⟩ := run_afterAt _ w4 _ res h4
  subst hw5
  subst hw4
  subst hw3
  subst hw2
  subst hw1
  have hfirst := firstReading_of ⟨ws, name, al, amp, url, tail⟩
    ⟨hws, hname, hal, hurl, htail⟩ H1 H2 H3 H3' H4 H5
  refine ⟨⟨ws, name, al, amp, url, tail⟩, hfirst, ?_⟩
  have hsplit : ws ++ (name ++ (optAlias al ++ (optAt amp ++ (url ++ tail))))
      = (ws ++ name ++ optAlias al ++ optAt amp) ++ (url ++ tail) := by
    simp
  have hlen : (ws ++ name ++ optAlias al ++ optAt amp).length
      = 0 + ws.length + name.length + (optAlias al).length + (optAt amp).length := by
    simp only [List.length_append]
    omega
  have hdrop : (ws ++ (name ++ (optAlias al ++ (optAt amp ++ (url ++ tail))))).drop
      (0 + ws.length + name.length + (optAlias al).length + (optAt amp).length)
        = url ++ tail := by
    rw [hsplit]
    exact List.drop_left' hlen
  simp only [Match.group, Match.span, hcaps]
  rw [find_group3 _ _ (0, e) cs hkeys]
  simp only [Option.map_some']
  rw [hdrop, Nat.add_sub_cancel_left, List.take_left' rfl]

/-- What `callSite.match(geckoCallSiteRe)` gives: `null` on a line that has not
the form, and otherwise a match whose group 3 is the url of the first reading
of the line. -/
theorem gecko_match (line : String) :
    (jsMatch geckoCallSiteRe line = none ∧ ¬ ∃ url, GeckoForm line.data url) ∨
    ∃ (m : Match) (r : Reading), jsMatch geckoCallSiteRe line = some m ∧
      m.group 3 = some (String.mk r.url) ∧ FirstReading line.data r := by
  cases hrun : (Re.cap 0 geckoCallSiteRe).run ⟨0, line.data, []⟩ some with
  | none =>
    refine Or.inl ⟨?_, ?_⟩
    · unfold jsMatch
      rw [gecko_exec, hrun]
      rfl
    · rintro ⟨url, r, htext, hok, _⟩
      have hsome := run_of_acceptsAll geckoBody r.text (acceptsAll_body r hok) 0 []
      rw [htext] at hsome
      have hnone : geckoBody.run ⟨0, line.data, []⟩ closeWhole = none := hrun
      rw [hnone] at hsome
      exact absurd hsome (by simp)
  | some res =>
    obtain ⟨r, hfirst, hgroup⟩ := gecko_run_first line.data res hrun
    refine Or.inr ⟨⟨line.data, res.caps⟩, r, ?_, hgroup, hfirst⟩
    unfold jsMatch
    rw [gecko_exec, hrun]
    rfl

/-! ## The fallback resolver on the caller's line -/

/-- C18: the fallback resolver reads the line at index 3 only.  With fewer than
four lines the result is the empty string.  When the line at index 3 has the
form `[function name][(alias)][@]<url>:<line>[:<col>]` (white space around it
allowed; name, alias and url on one line; url starting with `file:`, `http:`,
`https:` or `chrome:` in any mix of capitals and small letters), it has a
first reading, and the result is the `<url>` of the first reading: the one
with the most leading white space, then the shortest function name, then an
alias rather than none and the shortest one, then `@` rather than none, then
the shortest url, so that the whole `:<line>[:<col>]` is left out.  When the
line has not the form, the result is the empty string. -/
theorem fallback_resolver_form (lines : List String) :
    (lines.length < 4 → getOriginatingScriptUrlFirefox lines = "") ∧
    ∀ line, lines.get? 3 = some line →
      (∀ lines' : List String, lines'.get? 3 = some line →
        getOriginatingScriptUrlFirefox lines' = getOriginatingScriptUrlFirefox lines) ∧
      ((∃ url, GeckoForm line.data url) →
        ∃ r, FirstReading line.data r ∧
          getOriginatingScriptUrlFirefox lines = String.mk r.url) ∧
      (∀ r, FirstReading line.data r →
        getOriginatingScriptUrlFirefox lines = String.mk r.url) ∧
      ((¬ ∃ url, GeckoForm line.data url) → getOriginatingScriptUrlFirefox lines = "") := by
  refine ⟨?_, ?_⟩
  · intro hlt
    unfold getOriginatingScriptUrlFirefox
    simp only [hlt, if_true]
  · intro line h3
    have hsome : ∀ (m : Match) (r : Reading), jsMatch geckoCallSiteRe line = some m →
        m.group 3 = some (String.mk r.url) → FirstReading line.data r →
        getOriginatingScriptUrlFirefox lines = String.mk r.url := by
      intro m r hm hg hfirst
      rw [firefox_resolver_line lines line h3, hm]
      simp only [hg]
      exact if_neg (schemeUrl_ne_nil r.url hfirst.2.1.2.2.2.1)
    refine ⟨?_, ?_, ?_, ?_⟩
    · intro lines' h3'
      rw [firefox_resolver_line lines line h3, firefox_resolver_line lines' line h3']
    · intro hform
      rcases gecko_match line with ⟨_, hno⟩ | ⟨m, r, hm, hg, hfirst⟩
      · exact absurd hform hno
      · exact ⟨r, hfirst, hsome m r hm hg hfirst⟩
    · intro r0 h0
      rcases gecko_match line with ⟨_, hno⟩ | ⟨m, r, hm, hg, hfirst⟩
      · exact absurd ⟨r0.url, r0, h0.1, h0.2.1, rfl⟩ hno
      · rw [hsome m r hm hg hfirst, firstReading_url_unique line.data r r0 hfirst h0]
    · intro hno
      rcases gecko_match line with ⟨hnone, _⟩ | ⟨m, r, _, _, hfirst⟩
      · rw [firefox_resolver_line lines line h3, hnone]
      · exact absurd ⟨r.url, r, hfirst.1, hfirst.2.1, rfl⟩ hno

/-- Witness for C18: the line `foo@http://h/a.js:10:5` at index 3 has the form
and gives `http://h/a.js`, the url of its first reading. -/
theorem fallback_resolver_form_witness :
    getOriginatingScriptUrlFirefox ["a", "b", "c", "foo@http://h/a.js:10:5"] = "http://h/a.js" ∧
    ∃ r, FirstReading "foo@http://h/a.js:10:5".data r ∧
      getOriginatingScriptUrlFirefox ["a", "b", "c", "foo@http://h/a.js:10:5"]
        = String.mk r.url :=
  ⟨by decide,
    ((fallback_resolver_form ["a", "b", "c", "foo@http://h/a.js:10:5"]).2
      "foo@http://h/a.js:10:5" rfl).2.1
      ⟨"http://h/a.js".data,
        ⟨[], "foo".data, none, true, "http://h/a.js".data, ":10:5".data⟩, rfl,
        ⟨by decide, by decide, fun a h => Option.noConfusion h,
          ⟨"http".data, "//h/a.js".data, rfl, by decide, by decide⟩,
          ⟨"10".data, some "5".data, [], rfl, by decide, by decide,
            fun d h => by
              have hd : "5".data = d := Option.some.inj h
              subst hd
              exact ⟨by decide, by decide⟩,
            by decide⟩⟩,
        rfl⟩⟩

/-- The line `foo@http://h/a.js?u=http://x:10:5` can be read with the url
`http://x` after the function name `foo@http://h/a.js?u=`; the resolver gives
the url of the reading with the shortest function name. -/
theorem fallback_resolver_shortest_name :
    getOriginatingScriptUrlFirefox ["a", "b", "c", "foo@http://h/a.js?u=http://x:10:5"]
      = "http://h/a.js?u=http://x" ∧
    getOriginatingScriptUrlFirefox ["a", "b", "c", "(http://a/x.js)@file:///b.js:1:2"]
      = "file:///b.js" ∧
    getOriginatingScriptUrlFirefox ["a", "b", "c", "  f@HTTPS://h:8080/a.js:7  "]
      = "HTTPS://h:8080/a.js" := by
  decide

end Work
